import Mathlib

/-!
# Rolling log file writer (`src/log/LogFile.cpp`)

A shallow embedding of `LogFile::File` and `LogFile`.  Everything outside the
translation unit (the clock, `localtime`, the process id, the behaviour of
`fwrite` / `ferror`, and the two constants declared in the absent header
`log/LogFile.h`) is collected in `Env`.  The mutable outside world (how many
times the clock and `fwrite` were called, and the trace of calls made so far)
is threaded explicitly as `World`.

Integer conventions: `size_t` is 64 bits wide and `_writtenBytes += len` is
taken modulo `SIZE_MOD`; `time_t` and the `int` counter are mathematical
integers (their values stay far from the type bounds); the C division
`now / _kRollPerSeconds` truncates toward zero and is `Int.tdiv`; the year
`tm_year + 1900` printed by `%Y` is an `int` sum and wraps (`wrapInt32`).

`fopen` and `localtime` may return NULL, and the source tests neither result.
`File.new`, `LogFile.getLogFileName` and the definitions built on them are the
source lines where both calls return non-null.  `File.new?`,
`LogFile.getLogFileName?` and the definitions built on them, up to
`LogFile.run?`, are the same lines with both calls fallible (`Sys`): a NULL
ends the process, and the call has no result.
-/

namespace thefox

/-- One `char` of a log line. -/
abbrev Byte := Fin 256

/-- Modulus of `size_t` arithmetic. -/
def SIZE_MOD : Nat := 2 ^ 64

/-- Conversion of the `int len` of `LogFile::append` to the `size_t len` of
`File::append`. -/
def toSizeT (len : Int) : Nat := (len % (SIZE_MOD : Int)).toNat

/-- The fields of `struct tm` read by the format `.%Y%m%d-%H%M%S`. -/
structure Tm where
  tm_sec : Fin 61
  tm_min : Fin 60
  tm_hour : Fin 24
  tm_mday : Fin 32
  tm_mon : Fin 12
  tm_year : Int

/-- Calls and assignments recorded in the trace.  The first six are library
calls; `lock` / `unlock` are the scoped guard; `rollFile` marks an entry of
`LogFile::rollFile`, `countReset` the assignment `_count = 0` and `countInc`
the statement `++_count`. -/
inductive Event where
  | time (t : Int)
  | fopen (path : String)
  | fclose (path : String)
  | fwrite (path : String) (requested accepted : Nat)
  | ferror (path : String) (flag : Bool)
  | fflush (path : String)
  | lock
  | unlock
  | rollFile
  | countReset
  | countInc
  deriving DecidableEq, Repr

/-- What the translation unit takes from outside.  `time i` is the value of
the `i`-th call of `::time(NULL)`; `fwrite i k` is the count returned by the
`i`-th call of `::fwrite` when `k` bytes are requested (never more than `k`);
`ferror i` is the error indicator after `i` calls of `fwrite`.
`kCheckTimeRoll` and `kRollPerSeconds` are the constants `_kCheckTimeRoll` and
`_kRollPerSeconds` of the header `log/LogFile.h`. -/
structure Env where
  time : Nat → Int
  localtime : Int → Tm
  pid : Int
  fwrite : Nat → Nat → Nat
  fwrite_le : ∀ i k, fwrite i k ≤ k
  ferror : Nat → Bool
  kCheckTimeRoll : Int
  kRollPerSeconds : Int

/-- The outside world as the run has changed it. -/
structure World where
  timeCalls : Nat
  fwriteCalls : Nat
  trace : List Event
  deriving DecidableEq, Repr

/-- The world before anything has run. -/
def World.init : World := { timeCalls := 0, fwriteCalls := 0, trace := [] }

/-- Record one event. -/
def World.emit (w : World) (e : Event) : World :=
  { w with trace := w.trace ++ [e] }

/-- The stream behind `FILE* _fp`: the path it was opened at and the bytes the
stream has accepted so far, in order. -/
structure FILE where
  path : String
  out : List Byte
  deriving DecidableEq, Repr

/-- `class LogFile::File`: `_fp` and `_writtenBytes` (the buffer handed to
`setvbuf` holds no state of its own). -/
structure File where
  fp : FILE
  writtenBytes : Nat
  deriving DecidableEq, Repr

/-- `File::File(filename)` where `fopen` returns a stream:
`fopen(filename, "a")`, `_writtenBytes(0)`.  The NULL case is in `File.new?`. -/
def File.new (filename : String) (w : World) : File × World :=
  ({ fp := { path := filename, out := [] }, writtenBytes := 0 },
    w.emit (Event.fopen filename))

/-- `File::~File()`: `fclose(_fp)`. -/
def File.close (f : File) (w : World) : World :=
  w.emit (Event.fclose f.fp.path)

/-- `File::write(logline, len)`: `return ::fwrite(logline, 1, len, _fp)`.
`logline` is the buffer from the pointer on; the first `x` of the `len`
requested bytes are accepted. -/
def File.write (env : Env) (f : File) (logline : List Byte) (len : Nat) (w : World) :
    Nat × File × World :=
  let x := env.fwrite w.fwriteCalls len
  (x,
   { f with fp := { f.fp with out := f.fp.out ++ (logline.take len).take x } },
   { w with fwriteCalls := w.fwriteCalls + 1,
            trace := w.trace ++ [Event.fwrite f.fp.path len x] })

/-- The `while (remain > 0)` loop of `File::append`, with the loop variables
`n` and `remain`.  Every iteration that does not `break` lowers `remain` by at
least one, so `fuel = remain` iterations are enough
(`File.appendLoop_fuel`). -/
def File.appendLoop (env : Env) (logline : List Byte) (len : Nat) :
    Nat → Nat → Nat → File → World → Nat × File × World
  | 0, n, _, f, w => (n, f, w)
  | fuel + 1, n, remain, f, w =>
    if remain > 0 then
      let r := f.write env (logline.drop n) remain w
      if r.1 = 0 then
        (n, r.2.1, r.2.2.emit (Event.ferror f.fp.path (env.ferror r.2.2.fwriteCalls)))
      else
        File.appendLoop env logline len fuel (n + r.1) (len - (n + r.1)) r.2.1 r.2.2
    else (n, f, w)

/-- `File::append(logline, len)`: the first `write`, the retry loop started
with `remain = len - n` (and that much fuel), then `_writtenBytes += len` in
`size_t` arithmetic. -/
def File.append (env : Env) (f : File) (logline : List Byte) (len : Nat) (w : World) :
    File × World :=
  let r := f.write env logline len w
  let l := File.appendLoop env logline len (len - r.1) r.1 (len - r.1) r.2.1 r.2.2
  ({ l.2.1 with writtenBytes := (l.2.1.writtenBytes + len) % SIZE_MOD }, l.2.2)

/-- `File::flush()`: `fflush(_fp)`. -/
def File.flush (f : File) (w : World) : World :=
  w.emit (Event.fflush f.fp.path)

/-- Two decimal digits, as `%m`, `%d`, `%H`, `%M`, `%S` print a field. -/
def pad2 (n : Nat) : String :=
  String.mk [Nat.digitChar (n / 10), Nat.digitChar (n % 10)]

/-- The value an `int` computation leaves: the result wrapped into
`[-2^31, 2^31)`. -/
def wrapInt32 (x : Int) : Int := (x + 2 ^ 31) % 2 ^ 32 - 2 ^ 31

/-- The text `strftime` produces for `.%Y%m%d-%H%M%S`.  `%Y` prints
`tm_year + 1900`, a sum the library computes in `int`. -/
def timeText (tm : Tm) : String :=
  "." ++ Int.repr (wrapInt32 (tm.tm_year + 1900)) ++ pad2 (tm.tm_mon.val + 1)
    ++ pad2 tm.tm_mday.val
    ++ "-" ++ pad2 tm.tm_hour.val ++ pad2 tm.tm_min.val ++ pad2 tm.tm_sec.val

/-- The text `_snprintf` produces for `.%d`. -/
def pidText (pid : Int) : String := "." ++ Int.repr pid

/-- A scratch buffer of `cap` bytes holds at most `cap - 1` characters and
the terminator. -/
def intoBuf (cap : Nat) (s : String) : String := String.mk (s.data.take (cap - 1))

/-- The text `LogFile::getLogFileName` builds once `*now` holds `now`:
`basename`, then `timebuf`, then `pidbuf`, then `.log`. -/
def logFileName (env : Env) (basename : String) (now : Int) : String :=
  basename ++ intoBuf 32 (timeText (env.localtime now)) ++ intoBuf 32 (pidText env.pid) ++ ".log"

/-- `LogFile::getLogFileName(basename, now)` where `localtime` returns a
`struct tm`: the name and the value stored into `*now`.  The NULL case is in
`LogFile.getLogFileName?`. -/
def LogFile.getLogFileName (env : Env) (basename : String) (w : World) : String × Int × World :=
  let now := env.time w.timeCalls
  (logFileName env basename now, now,
    { w with timeCalls := w.timeCalls + 1, trace := w.trace ++ [Event.time now] })

/-- `class LogFile`.  `mutex` tells whether `_mutex` is non-null; `file` is
the owning pointer `_file`, `none` when it is null. -/
structure LogFile where
  basename : String
  rollSize : Nat
  flushInterval : Int
  count : Int
  mutex : Bool
  startOfPeriod : Int
  lastRoll : Int
  lastFlush : Int
  file : Option File
  deriving DecidableEq, Repr

/-- `_file.reset(new File(filename))`: the new `File` is constructed, then
the old one, if any, is destroyed. -/
def LogFile.resetFile (lf : LogFile) (filename : String) (w : World) : LogFile × World :=
  let r := File.new filename w
  ({ lf with file := some r.1 },
    match lf.file with
    | some old => old.close r.2
    | none => r.2)

/-- The value `x / _kRollPerSeconds * _kRollPerSeconds` of the source, the
division truncating toward zero as in C. -/
def periodOf (env : Env) (x : Int) : Int := x.tdiv env.kRollPerSeconds * env.kRollPerSeconds

/-- `LogFile::rollFile()`. -/
def LogFile.rollFile (env : Env) (lf : LogFile) (w : World) : LogFile × World :=
  let g := LogFile.getLogFileName env lf.basename (w.emit Event.rollFile)
  let now := g.2.1
  let start := periodOf env now
  if now > lf.lastRoll then
    LogFile.resetFile { lf with lastRoll := now, lastFlush := now, startOfPeriod := start }
      g.1 g.2.2
  else (lf, g.2.2)

/-- The state before the constructor body runs: the member initialisers of
`LogFile::LogFile`. -/
def LogFile.blank (basename : String) (rollSize : Nat) (threadSafe : Bool)
    (flushInterval : Int) : LogFile :=
  { basename := basename, rollSize := rollSize, flushInterval := flushInterval, count := 0,
    mutex := threadSafe, startOfPeriod := 0, lastRoll := 0, lastFlush := 0, file := none }

/-- `LogFile::LogFile(basename, rollSize, threadSafe, flushInterval)`: the
member initialisers, then `rollFile()`. -/
def LogFile.new (env : Env) (basename : String) (rollSize : Nat) (threadSafe : Bool)
    (flushInterval : Int) (w : World) : LogFile × World :=
  LogFile.rollFile env (LogFile.blank basename rollSize threadSafe flushInterval) w

/-- The `else` branch of the size test in `LogFile::append_unlocked`
(source lines 121 to 139). -/
def LogFile.checkTime (env : Env) (lf : LogFile) (f : File) (w : World) : LogFile × World :=
  if lf.count > env.kCheckTimeRoll then
    let lf1 := { lf with count := 0 }
    let now := env.time w.timeCalls
    let w1 : World :=
      { w with timeCalls := w.timeCalls + 1,
               trace := w.trace ++ [Event.countReset, Event.time now] }
    let thisPeriod := periodOf env now
    if thisPeriod ≠ lf.startOfPeriod then
      LogFile.rollFile env lf1 w1
    else if now - lf.lastFlush > lf.flushInterval then
      ({ lf1 with lastFlush := now }, f.flush w1)
    else (lf1, w1)
  else
    ({ lf with count := lf.count + 1 }, w.emit Event.countInc)

/-- `LogFile::append_unlocked(logline, len)`; `none` when `_file` is null
and `_file->append` has nothing to call. -/
def LogFile.append_unlocked (env : Env) (lf : LogFile) (logline : List Byte) (len : Int)
    (w : World) : Option (LogFile × World) :=
  match lf.file with
  | none => none
  | some f =>
    let a := f.append env logline (toSizeT len) w
    let lf1 := { lf with file := some a.1 }
    if a.1.writtenBytes > lf.rollSize then
      some (LogFile.rollFile env lf1 a.2)
    else
      some (LogFile.checkTime env lf1 a.1 a.2)

/-- `LogFile::append(logline, len)`. -/
def LogFile.append (env : Env) (lf : LogFile) (logline : List Byte) (len : Int)
    (w : World) : Option (LogFile × World) :=
  if lf.mutex then
    (LogFile.append_unlocked env lf logline len (w.emit Event.lock)).map
      (fun r => (r.1, r.2.emit Event.unlock))
  else
    LogFile.append_unlocked env lf logline len w

/-- `LogFile::flush()`; `none` when `_file` is null. -/
def LogFile.flush (lf : LogFile) (w : World) : Option (LogFile × World) :=
  match lf.file with
  | none => none
  | some f =>
    if lf.mutex then
      some (lf, (f.flush (w.emit Event.lock)).emit Event.unlock)
    else
      some (lf, f.flush w)

/-- A call made on a constructed `LogFile`. -/
inductive Op where
  | append (logline : List Byte) (len : Int)
  | flush

/-- One call. -/
def LogFile.step (env : Env) (s : LogFile × World) : Op → Option (LogFile × World)
  | Op.append logline len => LogFile.append env s.1 logline len s.2
  | Op.flush => LogFile.flush s.1 s.2

/-- A sequence of calls, stopping at the first that has no result. -/
def LogFile.run (env : Env) : List Op → LogFile × World → Option (LogFile × World)
  | [], s => some s
  | op :: ops, s =>
    match LogFile.step env s op with
    | none => none
    | some s1 => LogFile.run env ops s1

/-- What a reader of the trace has seen: the latest clock reading, the clock
readings at which a file was opened, the number of files closed, the readings
at which a flush was issued, the readings taken inside `rollFile`, whether the
next reading belongs to `rollFile`, and the number of `++_count` since the
last `_count = 0`. -/
structure Seen where
  last : Int
  opens : List Int
  closes : Nat
  flushes : List Int
  rolls : List Int
  inRoll : Bool
  incs : Nat
  deriving DecidableEq, Repr

/-- Nothing seen yet. -/
def Seen.init : Seen :=
  { last := 0, opens := [], closes := 0, flushes := [], rolls := [], inRoll := false,
    incs := 0 }

/-- Reading one event. -/
def Seen.see (o : Seen) : Event → Seen
  | Event.time t =>
    { o with last := t, rolls := if o.inRoll then o.rolls ++ [t] else o.rolls, inRoll := false }
  | Event.fopen _ => { o with opens := o.opens ++ [o.last] }
  | Event.fclose _ => { o with closes := o.closes + 1 }
  | Event.fflush _ => { o with flushes := o.flushes ++ [o.last] }
  | Event.rollFile => { o with inRoll := true }
  | Event.countReset => { o with incs := 0 }
  | Event.countInc => { o with incs := o.incs + 1 }
  | _ => o

/-- Reading a whole trace. -/
def seen (tr : List Event) : Seen := tr.foldl Seen.see Seen.init

/-- A `struct tm` for the examples: 1970-01-01 00:00:00. -/
def Tm.epoch : Tm :=
  { tm_sec := 0, tm_min := 0, tm_hour := 0, tm_mday := 1, tm_mon := 0, tm_year := 70 }

/-- An environment for the examples: the given clock, a stream that accepts
every request whole, `_kCheckTimeRoll = 1024`, `_kRollPerSeconds = 86400`. -/
def Env.accepting (clock : Nat → Int) : Env where
  time := clock
  localtime := fun _ => Tm.epoch
  pid := 42
  fwrite := fun _ k => k
  fwrite_le := fun _ k => Nat.le_refl k
  ferror := fun _ => false
  kCheckTimeRoll := 1024
  kRollPerSeconds := 86400

/-- An environment for the examples whose stream accepts at most two bytes
per call. -/
def Env.short (clock : Nat → Int) : Env where
  time := clock
  localtime := fun _ => Tm.epoch
  pid := 42
  fwrite := fun _ k => min k 2
  fwrite_le := fun _ k => Nat.min_le_left k 2
  ferror := fun _ => false
  kCheckTimeRoll := 1024
  kRollPerSeconds := 86400

/-- An open `File` for the examples. -/
def File.sample : File := { fp := { path := "x.log", out := [7] }, writtenBytes := 10 }

/-- A `LogFile` for the examples, holding `File.sample`. -/
def LogFile.sample : LogFile :=
  { basename := "x", rollSize := 12, flushInterval := 3, count := 0, mutex := false,
    startOfPeriod := 0, lastRoll := 100, lastFlush := 100, file := some File.sample }

/-- Rotation invariant of a `LogFile` in its world: the files opened so far
carry strictly increasing clock readings, none later than `_lastRoll`;
`_startOfPeriod` is `_lastRoll` truncated to the period; `_lastRoll` is zero
or a clock reading already taken; and the files opened are the files closed
plus the one held in `_file`, if any. -/
structure Inv (env : Env) (s : LogFile × World) : Prop where
  sorted : (seen s.2.trace).opens.Pairwise (fun a b => a < b)
  le_roll : ∀ t ∈ (seen s.2.trace).opens, t ≤ s.1.lastRoll
  period : s.1.startOfPeriod = periodOf env s.1.lastRoll
  past : s.1.lastRoll = 0 ∨ ∃ i, i < s.2.timeCalls ∧ s.1.lastRoll = env.time i
  held : (seen s.2.trace).opens.length =
    (seen s.2.trace).closes + (if s.1.file.isSome then 1 else 0)

/-- Flush invariant, for the interval `fi`: the flushes seen so far are more
than `fi` apart, none is later than `_lastFlush`, each happened at a clock
reading already taken, and the counter equals the number of `++_count` since
the last `_count = 0`. -/
structure FlushInv (env : Env) (fi : Int) (s : LogFile × World) : Prop where
  interval : s.1.flushInterval = fi
  spaced : (seen s.2.trace).flushes.Pairwise (fun a b => fi < b - a)
  le_flush : ∀ a ∈ (seen s.2.trace).flushes, a ≤ s.1.lastFlush
  past : ∀ a ∈ (seen s.2.trace).flushes, ∃ i, i < s.2.timeCalls ∧ a = env.time i
  incs : ((seen s.2.trace).incs : Int) = s.1.count

/-- A clock for the examples that reads 100 at construction and 50 afterwards. -/
def clockBack (i : Nat) : Int := if i = 0 then 100 else 50

/-- The calls of the examples: an append of 20 bytes, a flush, an append of
20 bytes. -/
def Op.sample : List Op :=
  [Op.append (List.replicate 20 0) 20, Op.flush, Op.append (List.replicate 20 0) 20]

/-- The state the examples start from: constructed at second 100 with
`rollSize = 10`, the clock advancing by one second per reading. -/
def LogFile.start : LogFile × World :=
  LogFile.new (Env.accepting fun i => 100 + i) "app" 10 false 3 World.init

/-- An environment for the examples that looks at the clock on every second
append: `_kCheckTimeRoll = 0`, `_kRollPerSeconds = 100`. -/
def Env.quick (clock : Nat → Int) : Env where
  time := clock
  localtime := fun _ => Tm.epoch
  pid := 42
  fwrite := fun _ k => k
  fwrite_le := fun _ k => Nat.le_refl k
  ferror := fun _ => false
  kCheckTimeRoll := 0
  kRollPerSeconds := 100

/-- A clock for the examples: 95, 102, 109, ... -/
def clockSeven (i : Nat) : Int := 95 + 7 * i

/-- A clock for the examples: 5, 9, 13, ... -/
def clockFour (i : Nat) : Int := 5 + 4 * i

/-- The calls `append(logline, len)` for a list of buffers and lengths. -/
def Op.appends (l : List (List Byte × Int)) : List Op := l.map fun o => Op.append o.1 o.2

/-- A state for the examples whose counter is above `_kCheckTimeRoll`: one
append after construction at second 95, guard configured. -/
def LogFile.warm : LogFile × World :=
  (LogFile.run (Env.quick clockSeven) [Op.append [1] 1]
    (LogFile.new (Env.quick clockSeven) "app" 1000 true 3 World.init)).getD LogFile.start

/-- The state of the flush examples after construction at second 5 with
`flushInterval = 3`. -/
def LogFile.cadence0 : LogFile × World :=
  LogFile.new (Env.quick clockFour) "app" 1000 false 3 World.init

/-- The flush examples after one append. -/
def LogFile.cadence1 : LogFile × World :=
  (LogFile.run (Env.quick clockFour) (Op.appends [([1], 1)]) LogFile.cadence0).getD
    LogFile.start

/-- The flush examples after the second append, which flushes at second 9. -/
def LogFile.cadence2 : LogFile × World :=
  (LogFile.step (Env.quick clockFour) LogFile.cadence1 (Op.append [2] 1)).getD LogFile.start

/-- The flush examples after two more appends, the last of which flushes at
second 13. -/
def LogFile.cadence3 : LogFile × World :=
  (LogFile.run (Env.quick clockFour) (Op.appends [([3], 1), ([4], 1)]) LogFile.cadence2).getD
    LogFile.start

/-- The timestamp of the file name as the format is documented:
`YYYYMMDD-HHMMSS`, the year in decimal and every other field as two digits. -/
def stampText (tm : Tm) : String :=
  Int.repr (tm.tm_year + 1900) ++ pad2 (tm.tm_mon.val + 1) ++ pad2 tm.tm_mday.val ++ "-"
    ++ pad2 tm.tm_hour.val ++ pad2 tm.tm_min.val ++ pad2 tm.tm_sec.val

/-- The member variables of a `File`: the stream it holds, by its path, and
`_writtenBytes`.  What the stream has received is not part of the object. -/
def File.members (f : File) : File := { f with fp := { f.fp with out := [] } }

/-- The member variables of a `LogFile`, the current `File` reduced to its
own member variables. -/
def LogFile.members (lf : LogFile) : LogFile := { lf with file := lf.file.map File.members }

/-- Two environments that differ at most in how the stream behaves (`fwrite`
and `ferror`). -/
def Env.samePolicy (a b : Env) : Prop :=
  a.time = b.time ∧ a.localtime = b.localtime ∧ a.pid = b.pid ∧
    a.kCheckTimeRoll = b.kCheckTimeRoll ∧ a.kRollPerSeconds = b.kRollPerSeconds

/-- An environment for the examples whose stream accepts nothing and has its
error indicator set. -/
def Env.failing (clock : Nat → Int) : Env where
  time := clock
  localtime := fun _ => Tm.epoch
  pid := 42
  fwrite := fun _ _ => 0
  fwrite_le := fun _ k => Nat.zero_le k
  ferror := fun _ => true
  kCheckTimeRoll := 1024
  kRollPerSeconds := 86400

/-- Counter invariant: `_count` is not negative and not above
`_kCheckTimeRoll + 1`. -/
def CountInv (env : Env) (s : LogFile × World) : Prop :=
  0 ≤ s.1.count ∧ s.1.count ≤ env.kCheckTimeRoll + 1

/-- The `fwrite` calls of a trace, each as (bytes requested, bytes accepted),
in call order. -/
def writesOf : List Event → List (Nat × Nat)
  | [] => []
  | Event.fwrite _ k x :: es => (k, x) :: writesOf es
  | _ :: es => writesOf es

/-- A clock for the examples that stands at second 100 for three readings and
then reads 101. -/
def clockStall (i : Nat) : Int := if i < 3 then 100 else 101

/-- A state for the examples whose file is above `_rollSize` after a skipped
rotation: constructed at second 100 with `rollSize = 10`, then 20 bytes
appended within the same second. -/
def LogFile.stalled : LogFile × World :=
  (LogFile.run (Env.accepting clockStall) [Op.append (List.replicate 20 0) 20]
    (LogFile.new (Env.accepting clockStall) "app" 10 false 3 World.init)).getD LogFile.start

/-! ### The calls that may return NULL

`File::File` hands the result of `fopen` to `setvbuf` without a test (the
`assert(_fp)` is commented out), and `getLogFileName` hands the result of
`localtime` to `strftime` without a test.  The definitions above take both
calls to succeed.  The definitions below, marked `?`, follow the same source
lines with both calls fallible: a NULL ends the process at the next line, and
there is no result (`none`). -/

/-- What the C library grants: whether `fopen(path, "a")` returns a stream
after the events so far, and whether `localtime` returns a `struct tm` for a
reading of the clock. -/
structure Sys where
  fopen : List Event → String → Bool
  localtime : Int → Bool

/-- `File::File(filename)` with a fallible `fopen`: on NULL the process ends
in `setvbuf(_fp, ...)`. -/
def File.new? (sys : Sys) (filename : String) (w : World) : Option (File × World) :=
  if sys.fopen w.trace filename then some (File.new filename w) else none

/-- `LogFile::getLogFileName(basename, now)` with a fallible `localtime`: on
NULL the process ends in `strftime`. -/
def LogFile.getLogFileName? (sys : Sys) (env : Env) (basename : String) (w : World) :
    Option (String × Int × World) :=
  if sys.localtime (env.time w.timeCalls) then some (LogFile.getLogFileName env basename w)
  else none

/-- `_file.reset(new File(filename))` with a fallible `fopen`. -/
def LogFile.resetFile? (sys : Sys) (lf : LogFile) (filename : String) (w : World) :
    Option (LogFile × World) :=
  match File.new? sys filename w with
  | none => none
  | some r =>
    some ({ lf with file := some r.1 },
      match lf.file with
      | some old => old.close r.2
      | none => r.2)

/-- `LogFile::rollFile()` with fallible `localtime` and `fopen`. -/
def LogFile.rollFile? (sys : Sys) (env : Env) (lf : LogFile) (w : World) :
    Option (LogFile × World) :=
  match LogFile.getLogFileName? sys env lf.basename (w.emit Event.rollFile) with
  | none => none
  | some g =>
    let now := g.2.1
    let start := periodOf env now
    if now > lf.lastRoll then
      LogFile.resetFile? sys { lf with lastRoll := now, lastFlush := now, startOfPeriod := start }
        g.1 g.2.2
    else some (lf, g.2.2)

/-- `LogFile::LogFile(basename, rollSize, threadSafe, flushInterval)` with
fallible `localtime` and `fopen`. -/
def LogFile.new? (sys : Sys) (env : Env) (basename : String) (rollSize : Nat)
    (threadSafe : Bool) (flushInterval : Int) (w : World) : Option (LogFile × World) :=
  LogFile.rollFile? sys env (LogFile.blank basename rollSize threadSafe flushInterval) w

/-- The `else` branch of the size test in `LogFile::append_unlocked` with
fallible `localtime` and `fopen`. -/
def LogFile.checkTime? (sys : Sys) (env : Env) (lf : LogFile) (f : File) (w : World) :
    Option (LogFile × World) :=
  if lf.count > env.kCheckTimeRoll then
    let lf1 := { lf with count := 0 }
    let now := env.time w.timeCalls
    let w1 : World :=
      { w with timeCalls := w.timeCalls + 1,
               trace := w.trace ++ [Event.countReset, Event.time now] }
    let thisPeriod := periodOf env now
    if thisPeriod ≠ lf.startOfPeriod then
      LogFile.rollFile? sys env lf1 w1
    else if now - lf.lastFlush > lf.flushInterval then
      some ({ lf1 with lastFlush := now }, f.flush w1)
    else some (lf1, w1)
  else
    some ({ lf with count := lf.count + 1 }, w.emit Event.countInc)

/-- `LogFile::append_unlocked(logline, len)` with fallible `localtime` and
`fopen`; `none` also when `_file` is null. -/
def LogFile.append_unlocked? (sys : Sys) (env : Env) (lf : LogFile) (logline : List Byte)
    (len : Int) (w : World) : Option (LogFile × World) :=
  match lf.file with
  | none => none
  | some f =>
    let a := f.append env logline (toSizeT len) w
    let lf1 := { lf with file := some a.1 }
    if a.1.writtenBytes > lf.rollSize then
      LogFile.rollFile? sys env lf1 a.2
    else
      LogFile.checkTime? sys env lf1 a.1 a.2

/-- `LogFile::append(logline, len)` with fallible `localtime` and `fopen`. -/
def LogFile.append? (sys : Sys) (env : Env) (lf : LogFile) (logline : List Byte) (len : Int)
    (w : World) : Option (LogFile × World) :=
  if lf.mutex then
    (LogFile.append_unlocked? sys env lf logline len (w.emit Event.lock)).map
      (fun r => (r.1, r.2.emit Event.unlock))
  else
    LogFile.append_unlocked? sys env lf logline len w

/-- One call, with fallible `localtime` and `fopen`; `flush` calls neither. -/
def LogFile.step? (sys : Sys) (env : Env) (s : LogFile × World) : Op → Option (LogFile × World)
  | Op.append logline len => LogFile.append? sys env s.1 logline len s.2
  | Op.flush => LogFile.flush s.1 s.2

/-- A sequence of calls with fallible `localtime` and `fopen`, stopping at
the first that has no result. -/
def LogFile.run? (sys : Sys) (env : Env) :
    List Op → LogFile × World → Option (LogFile × World)
  | [], s => some s
  | op :: ops, s =>
    match LogFile.step? sys env s op with
    | none => none
    | some s1 => LogFile.run? sys env ops s1

/-- A library that grants every `fopen` and every `localtime`. -/
def Sys.granting : Sys := { fopen := fun _ _ => true, localtime := fun _ => true }

/-- A library whose `fopen` returns NULL. -/
def Sys.noFile : Sys := { fopen := fun _ _ => false, localtime := fun _ => true }

/-- A library whose `localtime` returns NULL. -/
def Sys.noTm : Sys := { fopen := fun _ _ => true, localtime := fun _ => false }

/-- The last second of the year `INT_MAX + 1900`: `tm_year` is `INT_MAX`. -/
def Tm.last : Tm :=
  { tm_sec := 59, tm_min := 59, tm_hour := 23, tm_mday := 31, tm_mon := 11,
    tm_year := 2147483647 }

/-- An environment of process 0 whose `localtime` returns `Tm.last`. -/
def Env.farFuture : Env where
  time := fun i => 100 + i
  localtime := fun _ => Tm.last
  pid := 0
  fwrite := fun _ k => k
  fwrite_le := fun _ _ => le_refl _
  ferror := fun _ => false
  kCheckTimeRoll := 1024
  kRollPerSeconds := 86400

/-- The guard of `rollFile` applied along the readings of successive calls of
`rollFile`, `_lastRoll` being `m` before the first: the readings at which a
file is opened.  A reading later than `m` opens a file and becomes
`_lastRoll`; any other reading leaves both as they are. -/
def records (m : Int) : List Int → List Int
  | [] => []
  | t :: ts => if m < t then t :: records t ts else records m ts

/-- Rotation record of a `LogFile` in its world: the files opened so far are
the ones the guard of `rollFile` admits along the readings taken in
`rollFile`, started from the initial `_lastRoll` of zero; `_lastRoll` is the
greatest of those readings, or zero; no call of `rollFile` is waiting for its
reading; and the readings taken in `rollFile` are the values of the clock at
increasing calls already made. -/
structure RollInv (env : Env) (s : LogFile × World) : Prop where
  opened : (seen s.2.trace).opens = records 0 (seen s.2.trace).rolls
  latest : s.1.lastRoll = (seen s.2.trace).rolls.foldl max 0
  idle : (seen s.2.trace).inRoll = false
  index : ∃ idx : List Nat, idx.Pairwise (fun i j => i < j) ∧
    (∀ i ∈ idx, i < s.2.timeCalls) ∧ (seen s.2.trace).rolls = idx.map env.time

/-- A clock for the examples that reads 100 at construction and 200
afterwards. -/
def clockLater (i : Nat) : Int := if i = 0 then 100 else 200

/-- The state constructed at second 100 under `clockLater`, with
`rollSize = 10`. -/
def LogFile.early : LogFile × World :=
  LogFile.new (Env.accepting clockLater) "app" 10 false 3 World.init

/-- The state after two appends of 20 bytes from `LogFile.early`: each append
calls `rollFile`, and both calls read second 200. -/
def LogFile.twice : LogFile × World :=
  (LogFile.run (Env.accepting clockLater)
    [Op.append (List.replicate 20 0) 20, Op.append (List.replicate 20 0) 20]
    LogFile.early).getD LogFile.early

/-- Events of the write path of `File::append`: `fwrite` and `ferror`. -/
def Event.isWrite : Event → Bool
  | Event.fwrite _ _ _ => true
  | Event.ferror _ _ => true
  | _ => false

/-! ## `File::write` and the retry loop -/

theorem File.write_fst (env : Env) (f : File) (l : List Byte) (len : Nat) (w : World) :
    (f.write env l len w).1 = env.fwrite w.fwriteCalls len := rfl

theorem File.write_file (env : Env) (f : File) (l : List Byte) (len : Nat) (w : World) :
    (f.write env l len w).2.1 =
      { f with fp := { f.fp with out := f.fp.out ++ l.take (env.fwrite w.fwriteCalls len) } } := by
  have h := env.fwrite_le w.fwriteCalls len
  simp [File.write, List.take_take, Nat.min_eq_left h]

theorem File.write_world (env : Env) (f : File) (l : List Byte) (len : Nat) (w : World) :
    (f.write env l len w).2.2 =
      { w with fwriteCalls := w.fwriteCalls + 1,
               trace := w.trace ++ [Event.fwrite f.fp.path len (env.fwrite w.fwriteCalls len)] } :=
  rfl

theorem take_add_drop (l : List Byte) (n x : Nat) :
    l.take n ++ (l.drop n).take x = l.take (n + x) := by
  rw [List.take_add]

/-- What the loop leaves alone, and what it hands to the stream: the byte
counter, the path and the clock are untouched, only `fwrite` / `ferror` events
are recorded, `n` does not decrease, and the stream has received
`logline[0 .. n)` for the final `n` when it had received `logline[0 .. n)` for
the initial one. -/
theorem File.appendLoop_spec (env : Env) (logline : List Byte) (len : Nat) :
    ∀ (fuel n remain : Nat) (f : File) (w : World),
      (File.appendLoop env logline len fuel n remain f w).2.1.writtenBytes = f.writtenBytes ∧
      (File.appendLoop env logline len fuel n remain f w).2.1.fp.path = f.fp.path ∧
      (File.appendLoop env logline len fuel n remain f w).2.2.timeCalls = w.timeCalls ∧
      n ≤ (File.appendLoop env logline len fuel n remain f w).1 ∧
      (∃ evs, (File.appendLoop env logline len fuel n remain f w).2.2.trace = w.trace ++ evs ∧
        ∀ e ∈ evs, e.isWrite = true) ∧
      (∀ base, f.fp.out = base ++ logline.take n →
        (File.appendLoop env logline len fuel n remain f w).2.1.fp.out =
          base ++ logline.take (File.appendLoop env logline len fuel n remain f w).1) := by
  intro fuel
  induction fuel with
  | zero =>
    intro n remain f w
    exact ⟨rfl, rfl, rfl, le_refl _, ⟨[], by simp [File.appendLoop], by simp⟩,
      fun base h => h⟩
  | succ fuel ih =>
    intro n remain f w
    unfold File.appendLoop
    by_cases hr : remain > 0
    · rw [if_pos hr]
      by_cases hx : (f.write env (logline.drop n) remain w).1 = 0
      · rw [if_pos hx]
        refine ⟨?_, ?_, ?_, le_refl _, ?_, ?_⟩
        · simp [File.write_file]
        · simp [File.write_file]
        · simp [File.write_world, World.emit]
        · refine ⟨[Event.fwrite f.fp.path remain (env.fwrite w.fwriteCalls remain),
            Event.ferror f.fp.path (env.ferror (w.fwriteCalls + 1))], ?_, ?_⟩
          · simp [File.write_world, World.emit]
          · intro e he
            simp at he
            rcases he with rfl | rfl <;> rfl
        · intro base h
          rw [File.write_fst] at hx
          simp [File.write_file, hx, h]
      · rw [if_neg hx]
        obtain ⟨h1, h2, h3, h4, ⟨evs, h5, h6⟩, h7⟩ :=
          ih (n + (f.write env (logline.drop n) remain w).1)
            (len - (n + (f.write env (logline.drop n) remain w).1))
            (f.write env (logline.drop n) remain w).2.1
            (f.write env (logline.drop n) remain w).2.2
        refine ⟨?_, ?_, ?_, ?_, ?_, ?_⟩
        · rw [h1]; simp [File.write_file]
        · rw [h2]; simp [File.write_file]
        · rw [h3]; simp [File.write_world]
        · omega
        · refine ⟨Event.fwrite f.fp.path remain (env.fwrite w.fwriteCalls remain) :: evs,
            ?_, ?_⟩
          · rw [h5]; simp [File.write_world]
          · intro e he
            simp at he
            rcases he with rfl | he
            · rfl
            · exact h6 e he
        · intro base h
          apply h7
          rw [File.write_file, File.write_fst]
          simp only [h, List.append_assoc, take_add_drop]
    · rw [if_neg hr]
      exact ⟨rfl, rfl, rfl, le_refl _, ⟨[], by simp, by simp⟩, fun base h => h⟩

/-- The loop never consumes more than `len` bytes. -/
theorem File.appendLoop_le (env : Env) (logline : List Byte) (len : Nat) :
    ∀ (fuel n : Nat) (f : File) (w : World), n ≤ len →
      (File.appendLoop env logline len fuel n (len - n) f w).1 ≤ len := by
  intro fuel
  induction fuel with
  | zero => intro n f w h; exact h
  | succ fuel ih =>
    intro n f w h
    unfold File.appendLoop
    by_cases hr : len - n > 0
    · rw [if_pos hr]
      by_cases hx : (f.write env (logline.drop n) (len - n) w).1 = 0
      · rw [if_pos hx]; exact h
      · rw [if_neg hx]
        apply ih
        have := env.fwrite_le w.fwriteCalls (len - n)
        rw [File.write_fst]
        omega
    · rw [if_neg hr]; exact h

/-- Fuel is never what stops the loop: any two amounts of fuel that are at
least `remain` give the same result. -/
theorem File.appendLoop_fuel (env : Env) (logline : List Byte) (len : Nat) :
    ∀ (fuel1 fuel2 n : Nat) (f : File) (w : World), n ≤ len →
      len - n ≤ fuel1 → len - n ≤ fuel2 →
      File.appendLoop env logline len fuel1 n (len - n) f w =
        File.appendLoop env logline len fuel2 n (len - n) f w := by
  intro fuel1
  induction fuel1 with
  | zero =>
    intro fuel2 n f w _ h1 _
    have h0 : ¬ (len - n > 0) := by omega
    cases fuel2 with
    | zero => rfl
    | succ fuel2 =>
      rw [File.appendLoop, File.appendLoop, if_neg h0]
  | succ fuel1 ih =>
    intro fuel2 n f w hn h1 h2
    cases fuel2 with
    | zero =>
      have h0 : ¬ (len - n > 0) := by omega
      rw [File.appendLoop, File.appendLoop, if_neg h0]
    | succ fuel2 =>
      unfold File.appendLoop
      by_cases hr : len - n > 0
      · rw [if_pos hr, if_pos hr]
        by_cases hx : (f.write env (logline.drop n) (len - n) w).1 = 0
        · rw [if_pos hx, if_pos hx]
        · rw [if_neg hx, if_neg hx]
          have hle := env.fwrite_le w.fwriteCalls (len - n)
          rw [File.write_fst] at hx ⊢
          apply ih <;> omega
      · rw [if_neg hr, if_neg hr]

/-- When every write on a non-empty remainder makes progress, the loop ends
with everything consumed. -/
theorem File.appendLoop_progress (env : Env) (logline : List Byte) (len : Nat)
    (hp : ∀ i k, 1 ≤ k → 1 ≤ env.fwrite i k) :
    ∀ (fuel n : Nat) (f : File) (w : World), n ≤ len → len - n ≤ fuel →
      (File.appendLoop env logline len fuel n (len - n) f w).1 = len := by
  intro fuel
  induction fuel with
  | zero => intro n f w h1 h2; show n = len; omega
  | succ fuel ih =>
    intro n f w h1 h2
    unfold File.appendLoop
    by_cases hr : len - n > 0
    · rw [if_pos hr]
      have hge := hp w.fwriteCalls (len - n) hr
      have hle := env.fwrite_le w.fwriteCalls (len - n)
      have hx : ¬ (f.write env (logline.drop n) (len - n) w).1 = 0 := by
        rw [File.write_fst]; omega
      rw [if_neg hx, File.write_fst]
      apply ih <;> omega
    · rw [if_neg hr]; show n = len; omega

/-! ## `File::append` -/

theorem File.append_writtenBytes (env : Env) (f : File) (logline : List Byte) (len : Nat)
    (w : World) :
    (f.append env logline len w).1.writtenBytes = (f.writtenBytes + len) % SIZE_MOD := by
  unfold File.append
  simp only
  rw [(File.appendLoop_spec env logline len _ _ _ _ _).1, File.write_file]

theorem File.append_path (env : Env) (f : File) (logline : List Byte) (len : Nat)
    (w : World) : (f.append env logline len w).1.fp.path = f.fp.path := by
  unfold File.append
  simp only
  rw [(File.appendLoop_spec env logline len _ _ _ _ _).2.1, File.write_file]

theorem File.append_timeCalls (env : Env) (f : File) (logline : List Byte) (len : Nat)
    (w : World) : (f.append env logline len w).2.timeCalls = w.timeCalls := by
  unfold File.append
  simp only
  rw [(File.appendLoop_spec env logline len _ _ _ _ _).2.2.1, File.write_world]

theorem File.append_trace (env : Env) (f : File) (logline : List Byte) (len : Nat)
    (w : World) :
    ∃ evs, (f.append env logline len w).2.trace = w.trace ++ evs ∧
      ∀ e ∈ evs, e.isWrite = true := by
  unfold File.append
  simp only
  obtain ⟨evs, h1, h2⟩ := (File.appendLoop_spec env logline len
    (len - (f.write env logline len w).1) (f.write env logline len w).1
    (len - (f.write env logline len w).1)
    (f.write env logline len w).2.1 (f.write env logline len w).2.2).2.2.2.2.1
  refine ⟨Event.fwrite f.fp.path len (env.fwrite w.fwriteCalls len) :: evs, ?_, ?_⟩
  · rw [h1, File.write_world]; simp
  · intro e he
    simp at he
    rcases he with rfl | he
    · rfl
    · exact h2 e he

/-- The stream receives `logline[0 .. n)` for some `n ≤ len`. -/
theorem File.append_out (env : Env) (f : File) (logline : List Byte) (len : Nat)
    (w : World) :
    ∃ n, n ≤ len ∧ (f.append env logline len w).1.fp.out = f.fp.out ++ logline.take n := by
  have hle := env.fwrite_le w.fwriteCalls len
  refine ⟨(File.appendLoop env logline len (len - (f.write env logline len w).1)
    (f.write env logline len w).1 (len - (f.write env logline len w).1)
    (f.write env logline len w).2.1 (f.write env logline len w).2.2).1, ?_, ?_⟩
  · apply File.appendLoop_le
    rw [File.write_fst]; exact hle
  · unfold File.append
    simp only
    apply (File.appendLoop_spec env logline len _ _ _ _ _).2.2.2.2.2
    rw [File.write_file, File.write_fst]

/-- With progress on every non-empty request the stream receives
`logline[0 .. len)`. -/
theorem File.append_out_progress (env : Env) (f : File) (logline : List Byte) (len : Nat)
    (w : World) (hp : ∀ i k, 1 ≤ k → 1 ≤ env.fwrite i k) :
    (f.append env logline len w).1.fp.out = f.fp.out ++ logline.take len := by
  have hle := env.fwrite_le w.fwriteCalls len
  have hn := File.appendLoop_progress env logline len hp (len - (f.write env logline len w).1)
    (f.write env logline len w).1 (f.write env logline len w).2.1 (f.write env logline len w).2.2
    (by rw [File.write_fst]; exact hle) (le_refl _)
  have := (File.appendLoop_spec env logline len (len - (f.write env logline len w).1)
    (f.write env logline len w).1 (len - (f.write env logline len w).1)
    (f.write env logline len w).2.1 (f.write env logline len w).2.2).2.2.2.2.2 f.fp.out
    (by rw [File.write_file, File.write_fst])
  rw [hn] at this
  unfold File.append
  exact this

/-! ## Reading the trace -/

theorem seen_append (tr evs : List Event) :
    seen (tr ++ evs) = evs.foldl Seen.see (seen tr) := by
  simp [seen, List.foldl_append]

theorem seen_emit (w : World) (e : Event) : seen (w.emit e).trace = (seen w.trace).see e := by
  simp [World.emit, seen_append]

theorem see_write (o : Seen) (e : Event) (h : e.isWrite = true) : o.see e = o := by
  cases e <;> simp [Event.isWrite] at h <;> rfl

theorem foldl_see_writes (evs : List Event) (h : ∀ e ∈ evs, e.isWrite = true) (o : Seen) :
    evs.foldl Seen.see o = o := by
  induction evs generalizing o with
  | nil => rfl
  | cons e es ih =>
    simp only [List.foldl_cons]
    rw [see_write o e (h e (by simp))]
    exact ih (fun e he => h e (by simp [he])) o

/-- `File::append` shows the reader of the trace nothing new. -/
theorem File.append_seen (env : Env) (f : File) (logline : List Byte) (len : Nat)
    (w : World) :
    seen (f.append env logline len w).2.trace = seen w.trace := by
  obtain ⟨evs, h1, h2⟩ := File.append_trace env f logline len w
  rw [h1, seen_append, foldl_see_writes evs h2]

/-! ## `LogFile::rollFile` -/

/-- The file a committed rotation opens at the reading `now`. -/
theorem LogFile.rollFile_commit (env : Env) (lf : LogFile) (w : World)
    (h : lf.lastRoll < env.time w.timeCalls) :
    LogFile.rollFile env lf w =
      ({ lf with lastRoll := env.time w.timeCalls, lastFlush := env.time w.timeCalls,
                 startOfPeriod := periodOf env (env.time w.timeCalls),
                 file := some { fp := { path := logFileName env lf.basename (env.time w.timeCalls),
                                        out := [] },
                                writtenBytes := 0 } },
       { w with timeCalls := w.timeCalls + 1,
                trace := w.trace ++ [Event.rollFile, Event.time (env.time w.timeCalls),
                  Event.fopen (logFileName env lf.basename (env.time w.timeCalls))] ++
                  (match lf.file with
                   | some old => [Event.fclose old.fp.path]
                   | none => []) }) := by
  unfold LogFile.rollFile
  simp only [LogFile.getLogFileName, World.emit, gt_iff_lt, h, if_true, LogFile.resetFile, File.new]
  cases hf : lf.file <;> simp [File.close, World.emit]

theorem LogFile.rollFile_skip (env : Env) (lf : LogFile) (w : World)
    (h : env.time w.timeCalls ≤ lf.lastRoll) :
    LogFile.rollFile env lf w =
      (lf, { w with timeCalls := w.timeCalls + 1,
                    trace := w.trace ++ [Event.rollFile, Event.time (env.time w.timeCalls)] }) := by
  unfold LogFile.rollFile
  have h2 : ¬ lf.lastRoll < env.time w.timeCalls := not_lt.mpr h
  simp [LogFile.getLogFileName, World.emit, h2]

theorem LogFile.rollFile_timeCalls (env : Env) (lf : LogFile) (w : World) :
    (LogFile.rollFile env lf w).2.timeCalls = w.timeCalls + 1 := by
  rcases lt_or_le lf.lastRoll (env.time w.timeCalls) with h | h
  · rw [LogFile.rollFile_commit env lf w h]
  · rw [LogFile.rollFile_skip env lf w h]

theorem LogFile.rollFile_trace (env : Env) (lf : LogFile) (w : World) :
    ∃ rest, (LogFile.rollFile env lf w).2.trace = w.trace ++ Event.rollFile :: rest := by
  rcases lt_or_le lf.lastRoll (env.time w.timeCalls) with h | h
  · rw [LogFile.rollFile_commit env lf w h]
    exact ⟨_, by simp only [List.append_assoc, List.cons_append, List.nil_append]; rfl⟩
  · rw [LogFile.rollFile_skip env lf w h]
    exact ⟨_, rfl⟩

/-! ## `LogFile::append_unlocked` -/

/-- The branch after the size test starts by resetting or incrementing the
counter. -/
theorem LogFile.checkTime_trace (env : Env) (lf : LogFile) (f : File) (w : World) :
    ∃ e rest, (e = Event.countReset ∨ e = Event.countInc) ∧
      (LogFile.checkTime env lf f w).2.trace = w.trace ++ e :: rest := by
  unfold LogFile.checkTime
  by_cases hc : lf.count > env.kCheckTimeRoll
  · rw [if_pos hc]
    by_cases hp : periodOf env (env.time w.timeCalls) ≠ lf.startOfPeriod
    · rw [if_pos hp]
      obtain ⟨rest, hr⟩ := LogFile.rollFile_trace env { lf with count := 0 }
        { w with timeCalls := w.timeCalls + 1,
                 trace := w.trace ++ [Event.countReset, Event.time (env.time w.timeCalls)] }
      exact ⟨Event.countReset, Event.time (env.time w.timeCalls) :: Event.rollFile :: rest,
        Or.inl rfl, by rw [hr]; simp⟩
    · rw [if_neg hp]
      by_cases hfl : env.time w.timeCalls - lf.lastFlush > lf.flushInterval
      · rw [if_pos hfl]
        exact ⟨Event.countReset, [Event.time (env.time w.timeCalls), Event.fflush f.fp.path],
          Or.inl rfl, by simp [File.flush, World.emit]⟩
      · rw [if_neg hfl]
        exact ⟨Event.countReset, [Event.time (env.time w.timeCalls)], Or.inl rfl, by simp⟩
  · rw [if_neg hc]
    exact ⟨Event.countInc, [], Or.inr rfl, rfl⟩

theorem LogFile.append_unlocked_some (env : Env) (lf : LogFile) (f : File)
    (logline : List Byte) (len : Int) (w : World) (hf : lf.file = some f) :
    LogFile.append_unlocked env lf logline len w =
      some (if (f.append env logline (toSizeT len) w).1.writtenBytes > lf.rollSize then
        LogFile.rollFile env { lf with file := some (f.append env logline (toSizeT len) w).1 }
          (f.append env logline (toSizeT len) w).2
      else
        LogFile.checkTime env { lf with file := some (f.append env logline (toSizeT len) w).1 }
          (f.append env logline (toSizeT len) w).1 (f.append env logline (toSizeT len) w).2) := by
  unfold LogFile.append_unlocked
  rw [hf]
  simp only
  split_ifs <;> rfl

/-! ## Construction -/

/-- Construction at a clock reading greater than zero opens the first file. -/
theorem LogFile.new_eq (env : Env) (basename : String) (rollSize : Nat) (threadSafe : Bool)
    (flushInterval : Int) (h0 : 0 < env.time 0) :
    LogFile.new env basename rollSize threadSafe flushInterval World.init =
      ({ basename := basename, rollSize := rollSize, flushInterval := flushInterval, count := 0,
         mutex := threadSafe, startOfPeriod := periodOf env (env.time 0),
         lastRoll := env.time 0, lastFlush := env.time 0,
         file := some { fp := { path := logFileName env basename (env.time 0), out := [] },
                        writtenBytes := 0 } },
       { timeCalls := 1, fwriteCalls := 0,
         trace := [Event.rollFile, Event.time (env.time 0),
                   Event.fopen (logFileName env basename (env.time 0))] }) := by
  unfold LogFile.new
  rw [LogFile.rollFile_commit env _ World.init h0]
  simp [World.init, LogFile.blank]

/-- Construction at a clock reading that is not greater than zero opens
nothing. -/
theorem LogFile.new_skip (env : Env) (basename : String) (rollSize : Nat) (threadSafe : Bool)
    (flushInterval : Int) (h0 : env.time 0 ≤ 0) :
    (LogFile.new env basename rollSize threadSafe flushInterval World.init).1.file = none := by
  unfold LogFile.new
  rw [LogFile.rollFile_skip env _ World.init (by exact h0)]
  rfl

theorem toSizeT_natCast (n : Nat) (h : n < SIZE_MOD) : toSizeT (n : Int) = n := by
  unfold toSizeT
  rw [Int.emod_eq_of_lt (Int.natCast_nonneg n) (by exact_mod_cast h)]
  simp

/-! ## Appends that neither rotate nor look at the clock -/

theorem count_rollFile_writes (evs : List Event) (h : ∀ e ∈ evs, e.isWrite = true) :
    evs.count Event.rollFile = 0 := by
  rw [List.count_eq_zero]
  intro hmem
  exact absurd (h _ hmem) (by decide)

theorem File.append_count_rollFile (env : Env) (f : File) (logline : List Byte) (len : Nat)
    (w : World) :
    (f.append env logline len w).2.trace.count Event.rollFile =
      w.trace.count Event.rollFile := by
  obtain ⟨evs, h1, h2⟩ := File.append_trace env f logline len w
  rw [h1, List.count_append, count_rollFile_writes evs h2, Nat.add_zero]

/-- An append that stays within `_rollSize` and finds the counter not above
`_kCheckTimeRoll`: only `writtenBytes()` and the counter change. -/
theorem LogFile.append_unlocked_quiet (env : Env) (lf : LogFile) (f : File)
    (logline : List Byte) (len : Int) (w : World) (hf : lf.file = some f)
    (hsz : (f.writtenBytes + toSizeT len) % SIZE_MOD ≤ lf.rollSize)
    (hc : lf.count ≤ env.kCheckTimeRoll) :
    ∃ f1 w1, LogFile.append_unlocked env lf logline len w =
        some ({ lf with file := some f1, count := lf.count + 1 }, w1) ∧
      f1.writtenBytes = (f.writtenBytes + toSizeT len) % SIZE_MOD ∧
      f1.fp.path = f.fp.path ∧
      w1.timeCalls = w.timeCalls ∧
      w1.trace.count Event.rollFile = w.trace.count Event.rollFile ∧
      seen w1.trace = { seen w.trace with incs := (seen w.trace).incs + 1 } := by
  have hwb := File.append_writtenBytes env f logline (toSizeT len) w
  refine ⟨(f.append env logline (toSizeT len) w).1,
    (f.append env logline (toSizeT len) w).2.emit Event.countInc, ?_, hwb,
    File.append_path env f logline (toSizeT len) w, ?_, ?_, ?_⟩
  · rw [LogFile.append_unlocked_some env lf f logline len w hf,
      if_neg (by rw [hwb]; exact not_lt.mpr hsz)]
    unfold LogFile.checkTime
    rw [if_neg (by exact not_lt.mpr hc)]
  · simp [World.emit, File.append_timeCalls]
  · simp [World.emit, List.count_append, File.append_count_rollFile]
  · rw [seen_emit, File.append_seen]; rfl

theorem LogFile.append_quiet (env : Env) (lf : LogFile) (f : File)
    (logline : List Byte) (len : Int) (w : World) (hf : lf.file = some f)
    (hsz : (f.writtenBytes + toSizeT len) % SIZE_MOD ≤ lf.rollSize)
    (hc : lf.count ≤ env.kCheckTimeRoll) :
    ∃ f1 w1, LogFile.append env lf logline len w =
        some ({ lf with file := some f1, count := lf.count + 1 }, w1) ∧
      f1.writtenBytes = (f.writtenBytes + toSizeT len) % SIZE_MOD ∧
      f1.fp.path = f.fp.path ∧
      w1.timeCalls = w.timeCalls ∧
      w1.trace.count Event.rollFile = w.trace.count Event.rollFile ∧
      seen w1.trace = { seen w.trace with incs := (seen w.trace).incs + 1 } := by
  unfold LogFile.append
  by_cases hm : lf.mutex = true
  swap
  · rw [if_neg hm]
    exact LogFile.append_unlocked_quiet env lf f logline len w hf hsz hc
  · rw [if_pos hm]
    obtain ⟨f1, w1, h1, h2, h3, h4, h5, h6⟩ :=
      LogFile.append_unlocked_quiet env lf f logline len (w.emit Event.lock) hf hsz hc
    refine ⟨f1, w1.emit Event.unlock, by rw [h1]; rfl, h2, h3, ?_, ?_, ?_⟩
    · simpa [World.emit] using h4
    · simp only [World.emit, List.count_append] at h5 ⊢
      simpa using h5
    · rw [seen_emit, h6, seen_emit]; rfl

/-- The calls `append(logline, len)` for a list of buffers with their lengths. -/
theorem LogFile.run_quiet (env : Env) :
    ∀ (ops : List (List Byte × Nat)) (lf : LogFile) (f : File) (w : World),
      lf.file = some f → lf.rollSize < SIZE_MOD →
      f.writtenBytes + (ops.map Prod.snd).sum ≤ lf.rollSize →
      lf.count + ops.length ≤ env.kCheckTimeRoll + 1 →
      ∃ f1 w1, LogFile.run env (ops.map fun o => Op.append o.1 (o.2 : Int)) (lf, w) =
          some ({ lf with file := some f1, count := lf.count + ops.length }, w1) ∧
        f1.writtenBytes = f.writtenBytes + (ops.map Prod.snd).sum ∧
        f1.fp.path = f.fp.path ∧
        w1.timeCalls = w.timeCalls ∧
        w1.trace.count Event.rollFile = w.trace.count Event.rollFile ∧
        (seen w1.trace).opens = (seen w.trace).opens := by
  intro ops
  induction ops with
  | nil =>
    intro lf f w hf _ _ _
    refine ⟨f, w, ?_, by simp, rfl, rfl, rfl, rfl⟩
    simp [LogFile.run, ← hf]
  | cons o ops ih =>
    intro lf f w hf hR hsum hcnt
    simp only [List.map_cons, List.sum_cons, List.length_cons, Nat.cast_add, Nat.cast_one]
      at hsum hcnt ⊢
    have hlen : o.2 < SIZE_MOD := by omega
    have hts := toSizeT_natCast o.2 hlen
    have hmod : (f.writtenBytes + toSizeT (o.2 : Int)) % SIZE_MOD = f.writtenBytes + o.2 := by
      rw [hts, Nat.mod_eq_of_lt (by omega)]
    obtain ⟨f1, w1, h1, h2, h3, h4, h5, h6⟩ :=
      LogFile.append_quiet env lf f o.1 (o.2 : Int) w hf (by rw [hmod]; omega)
        (by have := Int.natCast_nonneg ops.length; omega)
    rw [hmod] at h2
    obtain ⟨f2, w2, g1, g2, g3, g4, g5, g6⟩ :=
      ih { lf with file := some f1, count := lf.count + 1 } f1 w1 rfl hR
        (by simp only; omega) (by simp only; omega)
    refine ⟨f2, w2, ?_, by rw [g2, h2]; omega, by rw [g3, h3], by rw [g4, h4],
      by rw [g5, h5], ?_⟩
    · simp only [LogFile.run, LogFile.step, h1, g1]
      simp only [Option.some.injEq, Prod.mk.injEq, and_true]
      simp only [LogFile.mk.injEq, true_and, and_true]
      omega
    · rw [g6, h6]

/-! ## The rotation invariant -/

theorem LogFile.rollFile_seen (env : Env) (lf : LogFile) (w : World) :
    seen (LogFile.rollFile env lf w).2.trace =
      { seen w.trace with
        last := env.time w.timeCalls,
        rolls := (seen w.trace).rolls ++ [env.time w.timeCalls],
        inRoll := false,
        opens := if lf.lastRoll < env.time w.timeCalls then
            (seen w.trace).opens ++ [env.time w.timeCalls]
          else (seen w.trace).opens,
        closes := if lf.lastRoll < env.time w.timeCalls then
            (seen w.trace).closes + (if lf.file.isSome then 1 else 0)
          else (seen w.trace).closes } := by
  rcases lt_or_le lf.lastRoll (env.time w.timeCalls) with h | h
  · rw [LogFile.rollFile_commit env lf w h]
    cases hf : lf.file <;> simp [seen_append, Seen.see, h]
  · rw [LogFile.rollFile_skip env lf w h]
    simp [seen_append, Seen.see, not_lt.mpr h]

/-- The invariant looks only at `_lastRoll`, `_startOfPeriod`, whether a file
is held, the files opened and closed, and the clock readings taken. -/
theorem Inv.of_same {env : Env} {s t : LogFile × World} (h : Inv env s)
    (h1 : t.1.lastRoll = s.1.lastRoll) (h2 : t.1.startOfPeriod = s.1.startOfPeriod)
    (h3 : t.1.file.isSome = s.1.file.isSome)
    (h4 : (seen t.2.trace).opens = (seen s.2.trace).opens)
    (h5 : (seen t.2.trace).closes = (seen s.2.trace).closes)
    (h6 : s.2.timeCalls ≤ t.2.timeCalls) : Inv env t where
  sorted := by rw [h4]; exact h.sorted
  le_roll := by rw [h4, h1]; exact h.le_roll
  period := by rw [h2, h1]; exact h.period
  past := by
    rw [h1]
    rcases h.past with h0 | ⟨i, hi, hr⟩
    · exact Or.inl h0
    · exact Or.inr ⟨i, lt_of_lt_of_le hi h6, hr⟩
  held := by rw [h4, h5, h3]; exact h.held

theorem Inv.rollFile {env : Env} {lf : LogFile} {w : World} (h : Inv env (lf, w)) :
    Inv env (LogFile.rollFile env lf w) := by
  rcases lt_or_le lf.lastRoll (env.time w.timeCalls) with hlt | hle
  · have hs := LogFile.rollFile_seen env lf w
    rw [LogFile.rollFile_commit env lf w hlt] at hs ⊢
    simp only [hlt, if_true] at hs
    have hle_roll := h.le_roll
    have hsorted := h.sorted
    have hheld := h.held
    simp only at hle_roll hsorted hheld
    constructor
    · simp only [hs]
      rw [List.pairwise_append]
      refine ⟨hsorted, List.pairwise_singleton _ _, ?_⟩
      intro a ha b hb
      rw [List.mem_singleton] at hb
      rw [hb]
      exact lt_of_le_of_lt (hle_roll a ha) hlt
    · simp only [hs]
      intro t ht
      rw [List.mem_append, List.mem_singleton] at ht
      rcases ht with ht | ht
      · exact le_of_lt (lt_of_le_of_lt (hle_roll t ht) hlt)
      · rw [ht]
    · rfl
    · exact Or.inr ⟨w.timeCalls, Nat.lt_succ_self _, rfl⟩
    · simp only [hs, List.length_append, List.length_singleton, Option.isSome_some, if_true]
      rw [hheld]
  · rw [LogFile.rollFile_skip env lf w hle]
    refine h.of_same rfl rfl rfl ?_ ?_ (Nat.le_succ _)
    · simp [seen_append, Seen.see]
    · simp [seen_append, Seen.see]

theorem Inv.blank (env : Env) (basename : String) (rollSize : Nat) (threadSafe : Bool)
    (flushInterval : Int) :
    Inv env (LogFile.blank basename rollSize threadSafe flushInterval, World.init) where
  sorted := by simp [World.init, seen, Seen.init]
  le_roll := by simp [World.init, seen, Seen.init]
  period := by simp [LogFile.blank, periodOf]
  past := Or.inl rfl
  held := by simp [World.init, seen, Seen.init, LogFile.blank]

theorem Inv.new (env : Env) (basename : String) (rollSize : Nat) (threadSafe : Bool)
    (flushInterval : Int) :
    Inv env (LogFile.new env basename rollSize threadSafe flushInterval World.init) :=
  (Inv.blank env basename rollSize threadSafe flushInterval).rollFile

theorem Inv.emit {env : Env} {lf : LogFile} {w : World} (h : Inv env (lf, w)) (e : Event)
    (he : e = Event.lock ∨ e = Event.unlock ∨ e = Event.countInc ∨ e = Event.countReset) :
    Inv env (lf, w.emit e) := by
  refine h.of_same rfl rfl rfl ?_ ?_ (le_refl _)
  · rw [seen_emit]; rcases he with rfl | rfl | rfl | rfl <;> rfl
  · rw [seen_emit]; rcases he with rfl | rfl | rfl | rfl <;> rfl

theorem Inv.checkTime {env : Env} {lf : LogFile} {w : World} (f : File)
    (h : Inv env (lf, w)) : Inv env (LogFile.checkTime env lf f w) := by
  unfold LogFile.checkTime
  have hbase : Inv env ({ lf with count := 0 },
      { w with timeCalls := w.timeCalls + 1,
               trace := w.trace ++ [Event.countReset, Event.time (env.time w.timeCalls)] }) := by
    refine h.of_same rfl rfl rfl ?_ ?_ (Nat.le_succ _)
    · simp [seen_append, Seen.see]
    · simp [seen_append, Seen.see]
  by_cases hc : lf.count > env.kCheckTimeRoll
  · rw [if_pos hc]
    by_cases hp : periodOf env (env.time w.timeCalls) ≠ lf.startOfPeriod
    · simp only [if_pos hp]
      exact hbase.rollFile
    · simp only [if_neg hp]
      by_cases hfl : env.time w.timeCalls - lf.lastFlush > lf.flushInterval
      · rw [if_pos hfl]
        refine hbase.of_same rfl rfl rfl ?_ ?_ (le_refl _)
        · simp [File.flush, seen_emit, Seen.see]
        · simp [File.flush, seen_emit, Seen.see]
      · rw [if_neg hfl]
        exact hbase
  · rw [if_neg hc]
    exact (h.emit Event.countInc (by simp)).of_same rfl rfl rfl rfl rfl (le_refl _)

theorem Inv.append_unlocked {env : Env} {lf : LogFile} {w : World} {r : LogFile × World}
    (logline : List Byte) (len : Int) (h : Inv env (lf, w))
    (hr : LogFile.append_unlocked env lf logline len w = some r) : Inv env r := by
  cases hf : lf.file with
  | none => simp [LogFile.append_unlocked, hf] at hr
  | some f =>
    rw [LogFile.append_unlocked_some env lf f logline len w hf] at hr
    have hmid : Inv env ({ lf with file := some (f.append env logline (toSizeT len) w).1 },
        (f.append env logline (toSizeT len) w).2) := by
      refine h.of_same rfl rfl (by simp [hf]) ?_ ?_ (le_of_eq ?_)
      · simp only [File.append_seen]
      · simp only [File.append_seen]
      · simp only [File.append_timeCalls]
    rw [Option.some.injEq] at hr
    rw [← hr]
    split_ifs
    · exact hmid.rollFile
    · exact hmid.checkTime _

theorem Inv.step {env : Env} {s r : LogFile × World} (op : Op) (h : Inv env s)
    (hr : LogFile.step env s op = some r) : Inv env r := by
  obtain ⟨lf, w⟩ := s
  cases op with
  | append logline len =>
    simp only [LogFile.step, LogFile.append] at hr
    split_ifs at hr
    · rw [Option.map_eq_some'] at hr
      obtain ⟨r1, h1, h2⟩ := hr
      have hi := (h.emit Event.lock (by simp)).append_unlocked logline len h1
      rw [← h2]
      exact hi.emit Event.unlock (by simp)
    · exact h.append_unlocked logline len hr
  | flush =>
    simp only [LogFile.step, LogFile.flush] at hr
    cases hf : lf.file with
    | none => simp [hf] at hr
    | some f =>
      simp only [hf] at hr
      split_ifs at hr <;> rw [Option.some.injEq] at hr <;> rw [← hr] <;>
        refine h.of_same rfl rfl rfl ?_ ?_ (le_refl _) <;>
        simp [File.flush, seen_emit, Seen.see]

theorem Inv.run {env : Env} : ∀ (ops : List Op) {s r : LogFile × World}, Inv env s →
    LogFile.run env ops s = some r → Inv env r := by
  intro ops
  induction ops with
  | nil =>
    intro s r h hr
    simp only [LogFile.run, Option.some.injEq] at hr
    rw [← hr]; exact h
  | cons op ops ih =>
    intro s r h hr
    simp only [LogFile.run] at hr
    cases hs : LogFile.step env s op with
    | none => simp [hs] at hr
    | some s1 =>
      simp only [hs] at hr
      exact ih (h.step op hs) hr

/-! ## `_lastRoll` and the held file along a run -/

theorem LogFile.rollFile_lastRoll_le (env : Env) (lf : LogFile) (w : World) :
    lf.lastRoll ≤ (LogFile.rollFile env lf w).1.lastRoll := by
  rcases lt_or_le lf.lastRoll (env.time w.timeCalls) with h | h
  · rw [LogFile.rollFile_commit env lf w h]; exact le_of_lt h
  · rw [LogFile.rollFile_skip env lf w h]

theorem LogFile.rollFile_isSome (env : Env) (lf : LogFile) (w : World)
    (h : lf.file.isSome = true) : (LogFile.rollFile env lf w).1.file.isSome = true := by
  rcases lt_or_le lf.lastRoll (env.time w.timeCalls) with h1 | h1
  · rw [LogFile.rollFile_commit env lf w h1]; rfl
  · rw [LogFile.rollFile_skip env lf w h1]; exact h

theorem LogFile.checkTime_lastRoll_le (env : Env) (lf : LogFile) (f : File) (w : World) :
    lf.lastRoll ≤ (LogFile.checkTime env lf f w).1.lastRoll := by
  unfold LogFile.checkTime
  by_cases hc : lf.count > env.kCheckTimeRoll
  · rw [if_pos hc]
    by_cases hp : periodOf env (env.time w.timeCalls) ≠ lf.startOfPeriod
    · simp only [if_pos hp]
      exact LogFile.rollFile_lastRoll_le env { lf with count := 0 } _
    · simp only [if_neg hp]
      by_cases hfl : env.time w.timeCalls - lf.lastFlush > lf.flushInterval
      · rw [if_pos hfl]
      · rw [if_neg hfl]
  · rw [if_neg hc]

theorem LogFile.checkTime_isSome (env : Env) (lf : LogFile) (f : File) (w : World)
    (h : lf.file.isSome = true) : (LogFile.checkTime env lf f w).1.file.isSome = true := by
  unfold LogFile.checkTime
  by_cases hc : lf.count > env.kCheckTimeRoll
  · rw [if_pos hc]
    by_cases hp : periodOf env (env.time w.timeCalls) ≠ lf.startOfPeriod
    · simp only [if_pos hp]
      exact LogFile.rollFile_isSome env { lf with count := 0 } _ h
    · simp only [if_neg hp]
      by_cases hfl : env.time w.timeCalls - lf.lastFlush > lf.flushInterval
      · rw [if_pos hfl]; exact h
      · rw [if_neg hfl]; exact h
  · rw [if_neg hc]; exact h

theorem LogFile.append_unlocked_lastRoll_le (env : Env) (lf : LogFile) (logline : List Byte)
    (len : Int) (w : World) (r : LogFile × World)
    (hr : LogFile.append_unlocked env lf logline len w = some r) :
    lf.lastRoll ≤ r.1.lastRoll := by
  cases hf : lf.file with
  | none => simp [LogFile.append_unlocked, hf] at hr
  | some f =>
    rw [LogFile.append_unlocked_some env lf f logline len w hf, Option.some.injEq] at hr
    rw [← hr]
    split_ifs
    · exact LogFile.rollFile_lastRoll_le env
        { lf with file := some (f.append env logline (toSizeT len) w).1 } _
    · exact LogFile.checkTime_lastRoll_le env
        { lf with file := some (f.append env logline (toSizeT len) w).1 } _ _

/-- With a file held, `append_unlocked` has a result, and a file is held
after it. -/
theorem LogFile.append_unlocked_isSome (env : Env) (lf : LogFile) (logline : List Byte)
    (len : Int) (w : World) (h : lf.file.isSome = true) :
    ∃ r, LogFile.append_unlocked env lf logline len w = some r ∧ r.1.file.isSome = true := by
  cases hf : lf.file with
  | none => rw [hf] at h; exact absurd h (by decide)
  | some f =>
    refine ⟨_, LogFile.append_unlocked_some env lf f logline len w hf, ?_⟩
    split_ifs
    · exact LogFile.rollFile_isSome env _ _ rfl
    · exact LogFile.checkTime_isSome env _ _ _ rfl

theorem LogFile.step_lastRoll_le (env : Env) (s r : LogFile × World) (op : Op)
    (hr : LogFile.step env s op = some r) : s.1.lastRoll ≤ r.1.lastRoll := by
  cases op with
  | append logline len =>
    simp only [LogFile.step, LogFile.append] at hr
    split_ifs at hr
    · rw [Option.map_eq_some'] at hr
      obtain ⟨r1, h1, h2⟩ := hr
      rw [← h2]
      exact LogFile.append_unlocked_lastRoll_le env s.1 logline len _ r1 h1
    · exact LogFile.append_unlocked_lastRoll_le env s.1 logline len _ r hr
  | flush =>
    simp only [LogFile.step, LogFile.flush] at hr
    cases hf : s.1.file with
    | none => simp [hf] at hr
    | some f =>
      simp only [hf] at hr
      split_ifs at hr <;> rw [Option.some.injEq] at hr <;> rw [← hr]

/-- With a file held, every call has a result, and a file is held after it. -/
theorem LogFile.step_isSome (env : Env) (s : LogFile × World) (op : Op)
    (h : s.1.file.isSome = true) :
    ∃ r, LogFile.step env s op = some r ∧ r.1.file.isSome = true := by
  cases op with
  | append logline len =>
    simp only [LogFile.step, LogFile.append]
    split_ifs
    · obtain ⟨r, h1, h2⟩ := LogFile.append_unlocked_isSome env s.1 logline len
        (s.2.emit Event.lock) h
      exact ⟨(r.1, r.2.emit Event.unlock), by rw [h1]; rfl, h2⟩
    · exact LogFile.append_unlocked_isSome env s.1 logline len s.2 h
  | flush =>
    simp only [LogFile.step, LogFile.flush]
    cases hf : s.1.file with
    | none => rw [hf] at h; exact absurd h (by decide)
    | some f =>
      simp only
      split_ifs
      · exact ⟨_, rfl, by simp [hf]⟩
      · exact ⟨_, rfl, by simp [hf]⟩

theorem LogFile.run_isSome (env : Env) : ∀ (ops : List Op) (s : LogFile × World),
    s.1.file.isSome = true →
    ∃ r, LogFile.run env ops s = some r ∧ r.1.file.isSome = true := by
  intro ops
  induction ops with
  | nil => intro s h; exact ⟨s, rfl, h⟩
  | cons op ops ih =>
    intro s h
    obtain ⟨s1, h1, h2⟩ := LogFile.step_isSome env s op h
    obtain ⟨r, h3, h4⟩ := ih s1 h2
    exact ⟨r, by simp only [LogFile.run, h1, h3], h4⟩

theorem LogFile.run_lastRoll_le (env : Env) : ∀ (ops : List Op) (s r : LogFile × World),
    LogFile.run env ops s = some r → s.1.lastRoll ≤ r.1.lastRoll := by
  intro ops
  induction ops with
  | nil =>
    intro s r hr
    simp only [LogFile.run, Option.some.injEq] at hr
    rw [hr]
  | cons op ops ih =>
    intro s r hr
    simp only [LogFile.run] at hr
    cases hs : LogFile.step env s op with
    | none => simp [hs] at hr
    | some s1 =>
      simp only [hs] at hr
      exact le_trans (LogFile.step_lastRoll_le env s s1 op hs) (ih s1 r hr)

/-- A run of two lists of calls is the run of the second from where the first
ends. -/
theorem LogFile.run_append (env : Env) : ∀ (pre post : List Op) (s : LogFile × World),
    LogFile.run env (pre ++ post) s = (LogFile.run env pre s).bind (LogFile.run env post) := by
  intro pre
  induction pre with
  | nil => intro post s; rfl
  | cons op pre ih =>
    intro post s
    simp only [List.cons_append, LogFile.run]
    cases hs : LogFile.step env s op with
    | none => rfl
    | some s1 => exact ih post s1

/-! ## The time trigger -/

/-- Under a non-decreasing, non-negative clock the next reading is not
before `_lastRoll`. -/
theorem Inv.lastRoll_le_next {env : Env} {lf : LogFile} {w : World} (h : Inv env (lf, w))
    (hmono : ∀ i j, i ≤ j → env.time i ≤ env.time j) (hnn : ∀ i, 0 ≤ env.time i) :
    lf.lastRoll ≤ env.time w.timeCalls := by
  rcases h.past with h0 | ⟨i, hi, hr⟩
  · simp only at h0; rw [h0]; exact hnn _
  · simp only at hi hr; rw [hr]; exact hmono _ _ (le_of_lt hi)

theorem LogFile.append_unlocked_time_roll (env : Env) (lf : LogFile) (f : File)
    (logline : List Byte) (len : Int) (w : World) (hinv : Inv env (lf, w))
    (hmono : ∀ i j, i ≤ j → env.time i ≤ env.time j) (hnn : ∀ i, 0 ≤ env.time i)
    (hf : lf.file = some f)
    (hsz : (f.writtenBytes + toSizeT len) % SIZE_MOD ≤ lf.rollSize)
    (hc : env.kCheckTimeRoll < lf.count)
    (hper : periodOf env (env.time w.timeCalls) ≠ lf.startOfPeriod) :
    ∃ r, LogFile.append_unlocked env lf logline len w = some r ∧
      r.1 = { lf with count := 0, lastRoll := env.time (w.timeCalls + 1),
                      lastFlush := env.time (w.timeCalls + 1),
                      startOfPeriod := periodOf env (env.time (w.timeCalls + 1)),
                      file := some
                        { fp := { path := logFileName env lf.basename (env.time (w.timeCalls + 1)),
                                  out := [] },
                          writtenBytes := 0 } } ∧
      r.2.timeCalls = w.timeCalls + 2 ∧
      (seen r.2.trace).opens = (seen w.trace).opens ++ [env.time (w.timeCalls + 1)] ∧
      (seen r.2.trace).flushes = (seen w.trace).flushes := by
  have hwb := File.append_writtenBytes env f logline (toSizeT len) w
  have ht := File.append_timeCalls env f logline (toSizeT len) w
  have hs := File.append_seen env f logline (toSizeT len) w
  have hle := hinv.lastRoll_le_next hmono hnn
  have hperiod := hinv.period
  simp only at hperiod
  have hne : env.time w.timeCalls ≠ lf.lastRoll := by
    intro heq
    apply hper
    rw [heq, hperiod]
  have hlt : lf.lastRoll < env.time (w.timeCalls + 1) :=
    lt_of_lt_of_le (lt_of_le_of_ne hle (Ne.symm hne)) (hmono _ _ (Nat.le_succ _))
  refine ⟨_, LogFile.append_unlocked_some env lf f logline len w hf, ?_⟩
  rw [if_neg (by rw [hwb]; exact not_lt.mpr hsz)]
  unfold LogFile.checkTime
  rw [if_pos (by exact hc)]
  simp only [ht]
  rw [if_pos (by exact hper)]
  rw [LogFile.rollFile_commit env _ _ (by exact hlt)]
  refine ⟨rfl, rfl, ?_, ?_⟩
  · simp only [List.append_assoc, seen_append, hs]
    simp [Seen.see]
  · simp only [List.append_assoc, seen_append, hs]
    simp [Seen.see]

/-! ## The flush invariant -/

/-- The flush invariant looks only at `_flushInterval`, `_lastFlush`, the
counter, the flushes and counter events seen, and the clock readings taken. -/
theorem FlushInv.same_obs {env : Env} {fi : Int} {s t : LogFile × World}
    (h : FlushInv env fi s)
    (h1 : t.1.flushInterval = s.1.flushInterval) (h2 : t.1.lastFlush = s.1.lastFlush)
    (h3 : t.1.count = s.1.count)
    (h4 : (seen t.2.trace).flushes = (seen s.2.trace).flushes)
    (h5 : (seen t.2.trace).incs = (seen s.2.trace).incs)
    (h6 : s.2.timeCalls ≤ t.2.timeCalls) : FlushInv env fi t where
  interval := by rw [h1]; exact h.interval
  spaced := by rw [h4]; exact h.spaced
  le_flush := by rw [h4, h2]; exact h.le_flush
  past := by
    rw [h4]
    intro a ha
    obtain ⟨i, hi, hr⟩ := h.past a ha
    exact ⟨i, lt_of_lt_of_le hi h6, hr⟩
  incs := by rw [h5, h3]; exact h.incs

theorem FlushInv.after_rollFile {env : Env} {fi : Int} {lf : LogFile} {w : World}
    (hmono : ∀ i j, i ≤ j → env.time i ≤ env.time j) (h : FlushInv env fi (lf, w)) :
    FlushInv env fi (LogFile.rollFile env lf w) := by
  rcases lt_or_le lf.lastRoll (env.time w.timeCalls) with hlt | hle
  · have hs := LogFile.rollFile_seen env lf w
    rw [LogFile.rollFile_commit env lf w hlt] at hs ⊢
    have hpast := h.past
    simp only at hpast
    constructor
    · exact h.interval
    · simp only [hs]; exact h.spaced
    · simp only [hs]
      intro a ha
      obtain ⟨i, hi, hr⟩ := hpast a ha
      rw [hr]
      exact hmono _ _ (le_of_lt hi)
    · simp only [hs]
      intro a ha
      obtain ⟨i, hi, hr⟩ := hpast a ha
      exact ⟨i, Nat.lt_succ_of_lt hi, hr⟩
    · simp only [hs]; exact h.incs
  · rw [LogFile.rollFile_skip env lf w hle]
    refine h.same_obs rfl rfl rfl ?_ ?_ (Nat.le_succ _)
    · simp [seen_append, Seen.see]
    · simp [seen_append, Seen.see]

theorem FlushInv.at_blank (env : Env) (basename : String) (rollSize : Nat) (threadSafe : Bool)
    (flushInterval : Int) :
    FlushInv env flushInterval
      (LogFile.blank basename rollSize threadSafe flushInterval, World.init) where
  interval := rfl
  spaced := by simp [World.init, seen, Seen.init]
  le_flush := by simp [World.init, seen, Seen.init]
  past := by simp [World.init, seen, Seen.init]
  incs := by simp [World.init, seen, Seen.init, LogFile.blank]

theorem FlushInv.at_new (env : Env) (basename : String) (rollSize : Nat) (threadSafe : Bool)
    (flushInterval : Int) (hmono : ∀ i j, i ≤ j → env.time i ≤ env.time j) :
    FlushInv env flushInterval
      (LogFile.new env basename rollSize threadSafe flushInterval World.init) :=
  (FlushInv.at_blank env basename rollSize threadSafe flushInterval).after_rollFile hmono

theorem FlushInv.after_emit {env : Env} {fi : Int} {lf : LogFile} {w : World}
    (h : FlushInv env fi (lf, w)) (e : Event) (he : e = Event.lock ∨ e = Event.unlock) :
    FlushInv env fi (lf, w.emit e) := by
  refine h.same_obs rfl rfl rfl ?_ ?_ (le_refl _)
  · rw [seen_emit]; rcases he with rfl | rfl <;> rfl
  · rw [seen_emit]; rcases he with rfl | rfl <;> rfl

/-- What `checkTime` does to the flushes seen: nothing, or, having found the
counter above `_kCheckTimeRoll`, one more flush at the clock reading it took. -/
theorem LogFile.checkTime_flushes (env : Env) (lf : LogFile) (f : File) (w : World) :
    (seen (LogFile.checkTime env lf f w).2.trace).flushes = (seen w.trace).flushes ∨
    (env.kCheckTimeRoll < lf.count ∧
      (seen (LogFile.checkTime env lf f w).2.trace).flushes =
        (seen w.trace).flushes ++ [env.time w.timeCalls]) := by
  unfold LogFile.checkTime
  by_cases hc : lf.count > env.kCheckTimeRoll
  · rw [if_pos hc]
    by_cases hp : periodOf env (env.time w.timeCalls) ≠ lf.startOfPeriod
    · simp only [if_pos hp]
      left
      rw [LogFile.rollFile_seen]
      simp [seen_append, Seen.see]
    · simp only [if_neg hp]
      by_cases hfl : env.time w.timeCalls - lf.lastFlush > lf.flushInterval
      · rw [if_pos hfl]
        right
        refine ⟨hc, ?_⟩
        simp [File.flush, seen_emit, seen_append, Seen.see]
      · rw [if_neg hfl]
        left
        simp [seen_append, Seen.see]
  · rw [if_neg hc]
    left
    rw [seen_emit]; rfl

theorem FlushInv.after_checkTime {env : Env} {fi : Int} {lf : LogFile} {w : World} (f : File)
    (hmono : ∀ i j, i ≤ j → env.time i ≤ env.time j) (h : FlushInv env fi (lf, w)) :
    FlushInv env fi (LogFile.checkTime env lf f w) := by
  unfold LogFile.checkTime
  have hspaced := h.spaced
  have hle := h.le_flush
  have hpast := h.past
  have hint := h.interval
  simp only at hspaced hle hpast hint
  have hb1 : (seen (w.trace ++ [Event.countReset, Event.time (env.time w.timeCalls)])).flushes
      = (seen w.trace).flushes := by simp [seen_append, Seen.see]
  have hb2 : (seen (w.trace ++ [Event.countReset, Event.time (env.time w.timeCalls)])).incs
      = 0 := by simp [seen_append, Seen.see]
  have hb3 : (seen (w.trace ++ [Event.countReset, Event.time (env.time w.timeCalls)])).last
      = env.time w.timeCalls := by simp [seen_append, Seen.see]
  have hbase : FlushInv env fi ({ lf with count := 0 },
      { w with timeCalls := w.timeCalls + 1,
               trace := w.trace ++ [Event.countReset, Event.time (env.time w.timeCalls)] }) := by
    constructor
    · exact hint
    · simp only [hb1]; exact hspaced
    · simp only [hb1]; exact hle
    · simp only [hb1]
      intro a ha
      obtain ⟨i, hi, hr⟩ := hpast a ha
      exact ⟨i, Nat.lt_succ_of_lt hi, hr⟩
    · simp only [hb2]; rfl
  by_cases hc : lf.count > env.kCheckTimeRoll
  · rw [if_pos hc]
    by_cases hp : periodOf env (env.time w.timeCalls) ≠ lf.startOfPeriod
    · simp only [if_pos hp]
      exact hbase.after_rollFile hmono
    · simp only [if_neg hp]
      by_cases hfl : env.time w.timeCalls - lf.lastFlush > lf.flushInterval
      · rw [if_pos hfl]
        have hfl2 : (seen (f.flush
            { w with timeCalls := w.timeCalls + 1,
                     trace := w.trace ++
                       [Event.countReset, Event.time (env.time w.timeCalls)] }).trace).flushes
            = (seen w.trace).flushes ++ [env.time w.timeCalls] := by
          simp [File.flush, seen_emit, seen_append, Seen.see]
        have hin2 : (seen (f.flush
            { w with timeCalls := w.timeCalls + 1,
                     trace := w.trace ++
                       [Event.countReset, Event.time (env.time w.timeCalls)] }).trace).incs
            = 0 := by
          simp [File.flush, seen_emit, seen_append, Seen.see]
        constructor
        · exact hint
        · simp only [hfl2]
          rw [List.pairwise_append]
          refine ⟨hspaced, List.pairwise_singleton _ _, ?_⟩
          intro a ha b hb
          rw [List.mem_singleton] at hb
          have := hle a ha
          rw [hb, ← hint]
          omega
        · simp only [hfl2]
          intro a ha
          rw [List.mem_append, List.mem_singleton] at ha
          rcases ha with ha | ha
          · obtain ⟨i, hi, hr⟩ := hpast a ha
            rw [hr]
            exact hmono _ _ (le_of_lt hi)
          · rw [ha]
        · simp only [hfl2]
          intro a ha
          rw [List.mem_append, List.mem_singleton] at ha
          rcases ha with ha | ha
          · obtain ⟨i, hi, hr⟩ := hpast a ha
            exact ⟨i, Nat.lt_succ_of_lt hi, hr⟩
          · exact ⟨w.timeCalls, Nat.lt_succ_self _, ha⟩
        · simp only [hin2]; rfl
      · rw [if_neg hfl]
        exact hbase
  · rw [if_neg hc]
    have hincs := h.incs
    simp only at hincs
    constructor
    · exact hint
    · rw [seen_emit]; exact hspaced
    · rw [seen_emit]; exact hle
    · rw [seen_emit]; exact hpast
    · rw [seen_emit]
      show (((seen w.trace).incs + 1 : Nat) : Int) = lf.count + 1
      rw [← hincs]; simp

theorem FlushInv.after_mid {env : Env} {fi : Int} {lf : LogFile} {w : World}
    (h : FlushInv env fi (lf, w)) (f : File) (logline : List Byte) (len : Nat) :
    FlushInv env fi ({ lf with file := some (f.append env logline len w).1 },
      (f.append env logline len w).2) := by
  refine h.same_obs rfl rfl rfl ?_ ?_ (le_of_eq ?_)
  · simp only [File.append_seen]
  · simp only [File.append_seen]
  · simp only [File.append_timeCalls]

theorem FlushInv.after_append_unlocked {env : Env} {fi : Int} {lf : LogFile} {w : World}
    {r : LogFile × World} (logline : List Byte) (len : Int)
    (hmono : ∀ i j, i ≤ j → env.time i ≤ env.time j) (h : FlushInv env fi (lf, w))
    (hr : LogFile.append_unlocked env lf logline len w = some r) : FlushInv env fi r := by
  cases hf : lf.file with
  | none => simp [LogFile.append_unlocked, hf] at hr
  | some f =>
    rw [LogFile.append_unlocked_some env lf f logline len w hf, Option.some.injEq] at hr
    rw [← hr]
    split_ifs
    · exact (h.after_mid f logline (toSizeT len)).after_rollFile hmono
    · exact (h.after_mid f logline (toSizeT len)).after_checkTime _ hmono

/-- What `append_unlocked` does to the flushes seen. -/
theorem LogFile.append_unlocked_flushes (env : Env) (lf : LogFile) (logline : List Byte)
    (len : Int) (w : World) (r : LogFile × World)
    (hr : LogFile.append_unlocked env lf logline len w = some r) :
    (seen r.2.trace).flushes = (seen w.trace).flushes ∨
    (env.kCheckTimeRoll < lf.count ∧
      (seen r.2.trace).flushes = (seen w.trace).flushes ++ [env.time w.timeCalls]) := by
  cases hf : lf.file with
  | none => simp [LogFile.append_unlocked, hf] at hr
  | some f =>
    rw [LogFile.append_unlocked_some env lf f logline len w hf, Option.some.injEq] at hr
    rw [← hr]
    have hs := File.append_seen env f logline (toSizeT len) w
    have ht := File.append_timeCalls env f logline (toSizeT len) w
    split_ifs
    · left
      rw [LogFile.rollFile_seen, hs]
    · have := LogFile.checkTime_flushes env
        { lf with file := some (f.append env logline (toSizeT len) w).1 }
        (f.append env logline (toSizeT len) w).1 (f.append env logline (toSizeT len) w).2
      rw [hs, ht] at this
      exact this

theorem FlushInv.after_append {env : Env} {fi : Int} {s r : LogFile × World}
    (logline : List Byte) (len : Int)
    (hmono : ∀ i j, i ≤ j → env.time i ≤ env.time j) (h : FlushInv env fi s)
    (hr : LogFile.step env s (Op.append logline len) = some r) : FlushInv env fi r := by
  obtain ⟨lf, w⟩ := s
  simp only [LogFile.step, LogFile.append] at hr
  split_ifs at hr
  · rw [Option.map_eq_some'] at hr
    obtain ⟨r1, h1, h2⟩ := hr
    have hi := (h.after_emit Event.lock (by simp)).after_append_unlocked logline len hmono h1
    rw [← h2]
    exact hi.after_emit Event.unlock (by simp)
  · exact h.after_append_unlocked logline len hmono hr

/-- What the call `append` does to the flushes seen. -/
theorem LogFile.step_append_flushes (env : Env) (s r : LogFile × World) (logline : List Byte)
    (len : Int) (hr : LogFile.step env s (Op.append logline len) = some r) :
    (seen r.2.trace).flushes = (seen s.2.trace).flushes ∨
    (env.kCheckTimeRoll < s.1.count ∧
      (seen r.2.trace).flushes = (seen s.2.trace).flushes ++ [env.time s.2.timeCalls]) := by
  simp only [LogFile.step, LogFile.append] at hr
  split_ifs at hr
  · rw [Option.map_eq_some'] at hr
    obtain ⟨r1, h1, h2⟩ := hr
    have := LogFile.append_unlocked_flushes env s.1 logline len _ r1 h1
    rw [← h2]
    simp only [seen_emit] at this ⊢
    exact this
  · exact LogFile.append_unlocked_flushes env s.1 logline len _ r hr

theorem FlushInv.after_run {env : Env} {fi : Int}
    (hmono : ∀ i j, i ≤ j → env.time i ≤ env.time j) :
    ∀ (l : List (List Byte × Int)) {s r : LogFile × World}, FlushInv env fi s →
      LogFile.run env (Op.appends l) s = some r → FlushInv env fi r := by
  intro l
  induction l with
  | nil =>
    intro s r h hr
    simp only [Op.appends, List.map_nil, LogFile.run, Option.some.injEq] at hr
    rw [← hr]; exact h
  | cons o l ih =>
    intro s r h hr
    simp only [Op.appends, List.map_cons, LogFile.run] at hr
    cases hs : LogFile.step env s (Op.append o.1 o.2) with
    | none => simp [hs] at hr
    | some s1 =>
      simp only [hs] at hr
      exact ih (h.after_append o.1 o.2 hmono hs) hr

/-- Short writes are retried with the rest of the buffer: a stream that takes
two bytes per call receives five bytes in three calls, in order. -/
theorem File.append_short_writes :
    (File.sample.append (Env.short fun _ => 0) [1, 2, 3, 4, 5] 5 World.init).1.fp.out
      = [7, 1, 2, 3, 4, 5] ∧
    (File.sample.append (Env.short fun _ => 0) [1, 2, 3, 4, 5] 5 World.init).2.trace
      = [Event.fwrite "x.log" 5 2, Event.fwrite "x.log" 3 2, Event.fwrite "x.log" 1 1] := by
  decide

/-! ## The file name -/

theorem toDigitsCore_length_ge_acc (f n : Nat) (ds : List Char) :
    ds.length ≤ (Nat.toDigitsCore 10 f n ds).length := by
  induction f generalizing n ds with
  | zero => simp [Nat.toDigitsCore]
  | succ f ih =>
    unfold Nat.toDigitsCore
    simp only
    split_ifs
    · simp
    · exact le_trans (by simp) (ih (n / 10) _)

theorem toDigitsCore_length_ge (f : Nat) :
    ∀ (n e : Nat) (ds : List Char), 10 ^ e ≤ n → e < f →
      ds.length + e + 1 ≤ (Nat.toDigitsCore 10 f n ds).length := by
  induction f with
  | zero => intro n e ds _ h; omega
  | succ f ih =>
    intro n e ds hn hf
    unfold Nat.toDigitsCore
    simp only
    cases e with
    | zero =>
      split_ifs
      · simp
      · exact le_trans (by simp) (toDigitsCore_length_ge_acc f (n / 10) _)
    | succ e =>
      have h10 : 10 ^ e ≤ n / 10 := by
        rw [Nat.le_div_iff_mul_le (by decide)]
        rw [pow_succ] at hn
        exact hn
      have hne : ¬ n / 10 = 0 := by
        have : 0 < 10 ^ e := Nat.pos_pow_of_pos e (by decide)
        omega
      rw [if_neg hne]
      have := ih (n / 10) e (Nat.digitChar (n % 10) :: ds) h10 (by omega)
      simp only [List.length_cons] at this
      omega

/-- A number of at least `10 ^ e` prints with more than `e` digits. -/
theorem natRepr_length_ge (n e : Nat) (h : 10 ^ e ≤ n) : e + 1 ≤ (Nat.repr n).length := by
  have hlt : e < n + 1 := by
    have : e < 10 ^ e := Nat.lt_pow_self (by decide) e
    omega
  have := toDigitsCore_length_ge (n + 1) n e [] h hlt
  simpa [Nat.repr, Nat.toDigits, List.asString] using this

/-- An `int` prints with at most eleven characters. -/
theorem intRepr_length_le (x : Int) (h1 : -(10 : Int) ^ 10 < x) (h2 : x < (10 : Int) ^ 10) :
    (Int.repr x).length ≤ 11 := by
  cases x with
  | ofNat m =>
    have hm : m < 10 ^ 10 := by
      have : (m : Int) < (10 : Int) ^ 10 := h2
      exact_mod_cast this
    have := Nat.repr_length m 10 (by decide) hm
    show (Nat.repr m).length ≤ 11
    omega
  | negSucc m =>
    have hm : m + 1 < 10 ^ 10 := by
      have : -(10 : Int) ^ 10 < -((m : Int) + 1) := by
        rw [Int.negSucc_eq] at h1; exact h1
      omega
    have := Nat.repr_length (m + 1) 10 (by decide) hm
    show ("-" ++ Nat.repr (m + 1)).length ≤ 11
    rw [String.length_append]
    have h1 : ("-" : String).length = 1 := rfl
    omega

theorem pad2_length (n : Nat) : (pad2 n).length = 2 := rfl

theorem intoBuf_of_length_lt (cap : Nat) (s : String) (h : s.length < cap) :
    intoBuf cap s = s := by
  unfold intoBuf
  rw [List.take_of_length_le (by rw [String.length] at h; omega)]

theorem wrapInt32_of_int (x : Int) (h1 : -(2 : Int) ^ 31 ≤ x) (h2 : x < (2 : Int) ^ 31) :
    wrapInt32 x = x := by
  unfold wrapInt32
  norm_num at h1 h2 ⊢
  omega

theorem wrapInt32_range (x : Int) :
    -(2 : Int) ^ 31 ≤ wrapInt32 x ∧ wrapInt32 x < (2 : Int) ^ 31 := by
  unfold wrapInt32
  norm_num
  omega

/-- With a year that is an `int` value, `strftime` prints the stamp of the
calendar fields. -/
theorem timeText_eq (tm : Tm) (h1 : -(2 : Int) ^ 31 ≤ tm.tm_year + 1900)
    (h2 : tm.tm_year + 1900 < (2 : Int) ^ 31) : timeText tm = "." ++ stampText tm := by
  simp only [timeText, stampText, String.append_assoc, wrapInt32_of_int _ h1 h2]

/-- The text of `strftime` has at most 23 characters, whatever the fields. -/
theorem timeText_length_le (tm : Tm) : (timeText tm).length ≤ 23 := by
  have hr := wrapInt32_range (tm.tm_year + 1900)
  have hl := intRepr_length_le (wrapInt32 (tm.tm_year + 1900))
    (by have := hr.1; norm_num at this ⊢; omega) (by have := hr.2; norm_num at this ⊢; omega)
  simp only [timeText, String.length_append, pad2_length]
  rw [show ("-" : String).length = 1 from rfl, show (".": String).length = 1 from rfl]
  omega

theorem stampText_length (tm : Tm) :
    (stampText tm).length = (Int.repr (tm.tm_year + 1900)).length + 11 := by
  simp only [stampText, String.length_append, pad2_length]
  rw [show ("-" : String).length = 1 from rfl]

/-- The two scratch buffers of 32 bytes hold the texts whole when `tm_year`
and the process id are `int` values, the latter not negative. -/
theorem logFileName_eq (env : Env) (basename : String) (now : Int)
    (hy1 : -(2 : Int) ^ 31 ≤ (env.localtime now).tm_year + 1900)
    (hy2 : (env.localtime now).tm_year + 1900 < (2 : Int) ^ 31)
    (hp1 : 0 ≤ env.pid) (hp2 : env.pid < (2 : Int) ^ 31) :
    logFileName env basename now =
      basename ++ "." ++ stampText (env.localtime now) ++ "." ++ Nat.repr env.pid.toNat
        ++ ".log" := by
  have hpl := intRepr_length_le env.pid (by norm_num at hp2 ⊢; omega)
    (by norm_num at hp2 ⊢; omega)
  have hdot : (".": String).length = 1 := rfl
  have ht : intoBuf 32 (timeText (env.localtime now)) = "." ++ stampText (env.localtime now) := by
    rw [intoBuf_of_length_lt, timeText_eq _ hy1 hy2]
    have := timeText_length_le (env.localtime now)
    omega
  have hpr : Int.repr env.pid = Nat.repr env.pid.toNat := by
    obtain ⟨m, hm⟩ := Int.eq_ofNat_of_zero_le hp1
    rw [hm]; rfl
  have hp : intoBuf 32 (pidText env.pid) = "." ++ Nat.repr env.pid.toNat := by
    rw [intoBuf_of_length_lt, pidText, hpr]
    rw [pidText, String.length_append]
    omega
  unfold logFileName
  rw [ht, hp]
  simp only [String.append_assoc]

/-- A year of four digits prints with four characters. -/
theorem intRepr_length_four (y : Int) (h1 : 1000 ≤ y) (h2 : y ≤ 9999) :
    (Int.repr y).length = 4 := by
  obtain ⟨m, hm⟩ := Int.eq_ofNat_of_zero_le (le_trans (by decide) h1)
  subst hm
  have hlo : 10 ^ 3 ≤ m := by norm_num; omega
  have hhi : m < 10 ^ 4 := by norm_num; omega
  have a := natRepr_length_ge m 3 hlo
  have b := Nat.repr_length m 4 (by decide) hhi
  show (Nat.repr m).length = 4
  omega

/-! ## What a call leaves in the object -/

theorem File.append_members (env : Env) (f : File) (logline : List Byte) (len : Nat)
    (w : World) :
    (f.append env logline len w).1.members =
      { fp := { path := f.fp.path, out := [] },
        writtenBytes := (f.writtenBytes + len) % SIZE_MOD } := by
  show ({ fp := { path := (f.append env logline len w).1.fp.path, out := [] },
          writtenBytes := (f.append env logline len w).1.writtenBytes } : File) = _
  rw [File.append_path, File.append_writtenBytes]

theorem LogFile.members_eq_iff (a b : LogFile) :
    a.members = b.members ↔
      a.basename = b.basename ∧ a.rollSize = b.rollSize ∧ a.flushInterval = b.flushInterval ∧
      a.count = b.count ∧ a.mutex = b.mutex ∧ a.startOfPeriod = b.startOfPeriod ∧
      a.lastRoll = b.lastRoll ∧ a.lastFlush = b.lastFlush ∧
      a.file.map File.members = b.file.map File.members := by
  cases a; cases b
  simp [LogFile.members]

theorem LogFile.periodOf_samePolicy {env env2 : Env} (hE : Env.samePolicy env env2) (x : Int) :
    periodOf env x = periodOf env2 x := by
  unfold periodOf
  rw [hE.2.2.2.2]

theorem LogFile.logFileName_samePolicy {env env2 : Env} (hE : Env.samePolicy env env2)
    (basename : String) (x : Int) : logFileName env basename x = logFileName env2 basename x := by
  unfold logFileName
  rw [hE.2.1, hE.2.2.1]

/-- The object `rollFile` leaves depends on the object it found, the clock,
and nothing else. -/
theorem LogFile.rollFile_members {env env2 : Env} (hE : Env.samePolicy env env2)
    (lf lf2 : LogFile) (w w2 : World) (hm : lf.members = lf2.members)
    (ht : w.timeCalls = w2.timeCalls) :
    (LogFile.rollFile env lf w).1.members = (LogFile.rollFile env2 lf2 w2).1.members ∧
    (LogFile.rollFile env lf w).2.timeCalls = (LogFile.rollFile env2 lf2 w2).2.timeCalls := by
  have hm2 := (LogFile.members_eq_iff lf lf2).mp hm
  obtain ⟨h1, h2, h3, h4, h5, h6, h7, h8, h9⟩ := hm2
  have hnow : env.time w.timeCalls = env2.time w2.timeCalls := by rw [hE.1, ht]
  rcases lt_or_le lf.lastRoll (env.time w.timeCalls) with h | h
  · rw [LogFile.rollFile_commit env lf w h,
      LogFile.rollFile_commit env2 lf2 w2 (by rw [← h7, ← hnow]; exact h)]
    refine ⟨?_, by simp [ht]⟩
    rw [LogFile.members_eq_iff]
    simp only [h1, h2, h3, h4, h5, hnow, LogFile.periodOf_samePolicy hE,
      LogFile.logFileName_samePolicy hE, and_self]
  · rw [LogFile.rollFile_skip env lf w h,
      LogFile.rollFile_skip env2 lf2 w2 (by rw [← h7, ← hnow]; exact h)]
    exact ⟨hm, by simp [ht]⟩

/-- The same for the branch after the size test. -/
theorem LogFile.checkTime_members {env env2 : Env} (hE : Env.samePolicy env env2)
    (lf lf2 : LogFile) (f f2 : File) (w w2 : World) (hm : lf.members = lf2.members)
    (ht : w.timeCalls = w2.timeCalls) :
    (LogFile.checkTime env lf f w).1.members = (LogFile.checkTime env2 lf2 f2 w2).1.members ∧
    (LogFile.checkTime env lf f w).2.timeCalls =
      (LogFile.checkTime env2 lf2 f2 w2).2.timeCalls := by
  have hm2 := (LogFile.members_eq_iff lf lf2).mp hm
  obtain ⟨h1, h2, h3, h4, h5, h6, h7, h8, h9⟩ := hm2
  have hnow : env.time w.timeCalls = env2.time w2.timeCalls := by rw [hE.1, ht]
  have hk : env.kCheckTimeRoll = env2.kCheckTimeRoll := hE.2.2.2.1
  unfold LogFile.checkTime
  by_cases hc : lf.count > env.kCheckTimeRoll
  · have hc2 : lf2.count > env2.kCheckTimeRoll := by rw [← h4, ← hk]; exact hc
    rw [if_pos hc, if_pos hc2]
    have hbase : ({ lf with count := 0 } : LogFile).members
        = ({ lf2 with count := 0 } : LogFile).members := by
      rw [LogFile.members_eq_iff]
      exact ⟨h1, h2, h3, rfl, h5, h6, h7, h8, h9⟩
    by_cases hp : periodOf env (env.time w.timeCalls) ≠ lf.startOfPeriod
    · have hp2 : periodOf env2 (env2.time w2.timeCalls) ≠ lf2.startOfPeriod := by
        rw [← h6, ← hnow, ← LogFile.periodOf_samePolicy hE]; exact hp
      simp only [if_pos hp, if_pos hp2]
      exact LogFile.rollFile_members hE _ _ _ _ hbase (by simp [ht])
    · have hp2 : ¬ periodOf env2 (env2.time w2.timeCalls) ≠ lf2.startOfPeriod := by
        rw [← h6, ← hnow, ← LogFile.periodOf_samePolicy hE]; exact hp
      simp only [if_neg hp, if_neg hp2]
      by_cases hfl : env.time w.timeCalls - lf.lastFlush > lf.flushInterval
      · have hfl2 : env2.time w2.timeCalls - lf2.lastFlush > lf2.flushInterval := by
          rw [← h8, ← h3, ← hnow]; exact hfl
        rw [if_pos hfl, if_pos hfl2]
        refine ⟨?_, by simp [File.flush, World.emit, ht]⟩
        rw [LogFile.members_eq_iff]
        exact ⟨h1, h2, h3, rfl, h5, h6, h7, hnow, h9⟩
      · have hfl2 : ¬ env2.time w2.timeCalls - lf2.lastFlush > lf2.flushInterval := by
          rw [← h8, ← h3, ← hnow]; exact hfl
        rw [if_neg hfl, if_neg hfl2]
        exact ⟨hbase, by simp [ht]⟩
  · have hc2 : ¬ lf2.count > env2.kCheckTimeRoll := by rw [← h4, ← hk]; exact hc
    rw [if_neg hc, if_neg hc2]
    refine ⟨?_, by simp [World.emit, ht]⟩
    rw [LogFile.members_eq_iff]
    exact ⟨h1, h2, h3, by simp only [h4], h5, h6, h7, h8, h9⟩

/-- What `append_unlocked` leaves in the object, and how often it reads the
clock, does not depend on how the stream behaved, on what the buffer held, or
on the trace so far. -/
theorem LogFile.append_unlocked_members {env env2 : Env} (hE : Env.samePolicy env env2)
    (lf lf2 : LogFile) (logline logline2 : List Byte) (len : Int) (w w2 : World)
    (hm : lf.members = lf2.members) (ht : w.timeCalls = w2.timeCalls) :
    (LogFile.append_unlocked env lf logline len w).map (fun r => (r.1.members, r.2.timeCalls))
      = (LogFile.append_unlocked env2 lf2 logline2 len w2).map
          (fun r => (r.1.members, r.2.timeCalls)) := by
  have hm2 := (LogFile.members_eq_iff lf lf2).mp hm
  obtain ⟨h1, h2, h3, h4, h5, h6, h7, h8, h9⟩ := hm2
  cases hf : lf.file with
  | none =>
    rw [hf] at h9
    cases hf2 : lf2.file with
    | none => simp [LogFile.append_unlocked, hf, hf2]
    | some f2 => rw [hf2] at h9; simp at h9
  | some f =>
    rw [hf] at h9
    cases hf2 : lf2.file with
    | none => rw [hf2] at h9; simp at h9
    | some f2 =>
      rw [hf2] at h9
      simp only [Option.map_some', Option.some.injEq] at h9
      have hpath : f.fp.path = f2.fp.path := congrArg (fun x => x.fp.path) h9
      have hwb : f.writtenBytes = f2.writtenBytes := by
        have := congrArg File.writtenBytes h9
        exact this
      rw [LogFile.append_unlocked_some env lf f logline len w hf,
        LogFile.append_unlocked_some env2 lf2 f2 logline2 len w2 hf2]
      simp only [Option.map_some', Option.some.injEq, Prod.mk.injEq]
      have hmid : ({ lf with file := some (f.append env logline (toSizeT len) w).1 }
            : LogFile).members
          = ({ lf2 with file := some (f2.append env2 logline2 (toSizeT len) w2).1 }
            : LogFile).members := by
        rw [LogFile.members_eq_iff]
        refine ⟨h1, h2, h3, h4, h5, h6, h7, h8, ?_⟩
        simp only [Option.map_some', Option.some.injEq]
        rw [File.append_members, File.append_members, hpath, hwb]
      have htc : (f.append env logline (toSizeT len) w).2.timeCalls
          = (f2.append env2 logline2 (toSizeT len) w2).2.timeCalls := by
        rw [File.append_timeCalls, File.append_timeCalls, ht]
      have hsz : (f.append env logline (toSizeT len) w).1.writtenBytes
          = (f2.append env2 logline2 (toSizeT len) w2).1.writtenBytes := by
        rw [File.append_writtenBytes, File.append_writtenBytes, hwb]
      by_cases hs : (f.append env logline (toSizeT len) w).1.writtenBytes > lf.rollSize
      · have hs2 : (f2.append env2 logline2 (toSizeT len) w2).1.writtenBytes > lf2.rollSize := by
          rw [← hsz, ← h2]; exact hs
        rw [if_pos hs, if_pos hs2]
        exact LogFile.rollFile_members hE _ _ _ _ hmid htc
      · have hs2 : ¬ (f2.append env2 logline2 (toSizeT len) w2).1.writtenBytes
            > lf2.rollSize := by
          rw [← hsz, ← h2]; exact hs
        rw [if_neg hs, if_neg hs2]
        exact LogFile.checkTime_members hE _ _ _ _ _ _ hmid htc

/-- The same for the public `append`. -/
theorem LogFile.append_same_members {env env2 : Env} (hE : Env.samePolicy env env2)
    (lf lf2 : LogFile) (logline logline2 : List Byte) (len : Int) (w w2 : World)
    (hm : lf.members = lf2.members) (ht : w.timeCalls = w2.timeCalls) :
    (LogFile.append env lf logline len w).map (fun r => (r.1.members, r.2.timeCalls))
      = (LogFile.append env2 lf2 logline2 len w2).map
          (fun r => (r.1.members, r.2.timeCalls)) := by
  have hmx : lf.mutex = lf2.mutex := ((LogFile.members_eq_iff lf lf2).mp hm).2.2.2.2.1
  unfold LogFile.append
  rw [← hmx]
  by_cases hmu : lf.mutex = true
  · rw [if_pos hmu, if_pos hmu]
    have := LogFile.append_unlocked_members hE lf lf2 logline logline2 len
      (w.emit Event.lock) (w2.emit Event.lock) hm (by simpa [World.emit] using ht)
    simp only [Option.map_map] at this ⊢
    exact this
  · rw [if_neg hmu, if_neg hmu]
    exact LogFile.append_unlocked_members hE lf lf2 logline logline2 len w w2 hm ht

/-- With a stream that accepts nothing, `File::append` writes once, retries
once when the request is not empty, looks at the error indicator, and stops:
the stream has received nothing. -/
theorem File.append_no_progress (env : Env) (f : File) (logline : List Byte) (len : Nat)
    (w : World) (hfail : ∀ i k, env.fwrite i k = 0) :
    (f.append env logline len w).1.fp.out = f.fp.out ∧
    (f.append env logline len w).2.trace = w.trace ++
      (if len = 0 then [Event.fwrite f.fp.path 0 0]
       else [Event.fwrite f.fp.path len 0, Event.fwrite f.fp.path len 0,
             Event.ferror f.fp.path (env.ferror (w.fwriteCalls + 2))]) := by
  unfold File.append
  simp only [File.write_fst, hfail, Nat.sub_zero]
  cases len with
  | zero => simp [File.appendLoop, File.write_file, File.write_world, hfail]
  | succ k =>
    rw [File.appendLoop, if_pos (Nat.succ_pos k)]
    simp [File.write_fst, File.write_file, File.write_world, hfail, World.emit]

/-! ## The counters -/

/-- Without wrap-around of the `size_t` sum the byte counter does not go
down. -/
theorem File.append_writtenBytes_mono (env : Env) (f : File) (logline : List Byte) (len : Nat)
    (w : World) (h : f.writtenBytes + len < SIZE_MOD) :
    f.writtenBytes ≤ (f.append env logline len w).1.writtenBytes := by
  rw [File.append_writtenBytes, Nat.mod_eq_of_lt h]
  exact Nat.le_add_right _ _

theorem LogFile.rollFile_count (env : Env) (lf : LogFile) (w : World) :
    (LogFile.rollFile env lf w).1.count = lf.count := by
  rcases lt_or_le lf.lastRoll (env.time w.timeCalls) with h | h
  · rw [LogFile.rollFile_commit env lf w h]
  · rw [LogFile.rollFile_skip env lf w h]

theorem LogFile.checkTime_count (env : Env) (lf : LogFile) (f : File) (w : World) :
    (LogFile.checkTime env lf f w).1.count =
      if lf.count > env.kCheckTimeRoll then 0 else lf.count + 1 := by
  unfold LogFile.checkTime
  by_cases hc : lf.count > env.kCheckTimeRoll
  · rw [if_pos hc, if_pos hc]
    by_cases hp : periodOf env (env.time w.timeCalls) ≠ lf.startOfPeriod
    · simp only [if_pos hp]
      rw [LogFile.rollFile_count]
    · simp only [if_neg hp]
      by_cases hfl : env.time w.timeCalls - lf.lastFlush > lf.flushInterval
      · rw [if_pos hfl]
      · rw [if_neg hfl]
  · rw [if_neg hc, if_neg hc]

theorem CountInv.count_step {env : Env} (hk : 0 ≤ env.kCheckTimeRoll) {s r : LogFile × World}
    (op : Op) (h : CountInv env s) (hr : LogFile.step env s op = some r) : CountInv env r := by
  have hcases : r.1.count = s.1.count ∨
      r.1.count = (if s.1.count > env.kCheckTimeRoll then 0 else s.1.count + 1) := by
    cases op with
    | append logline len =>
      have key : ∀ (w : World) (q : LogFile × World),
          LogFile.append_unlocked env s.1 logline len w = some q →
          q.1.count = s.1.count ∨
          q.1.count = (if s.1.count > env.kCheckTimeRoll then 0 else s.1.count + 1) := by
        intro w q hq
        cases hf : s.1.file with
        | none => simp [LogFile.append_unlocked, hf] at hq
        | some f =>
          rw [LogFile.append_unlocked_some env s.1 f logline len w hf, Option.some.injEq] at hq
          rw [← hq]
          by_cases hs : (f.append env logline (toSizeT len) w).1.writtenBytes > s.1.rollSize
          · rw [if_pos hs]
            left; rw [LogFile.rollFile_count]
          · rw [if_neg hs]
            right; rw [LogFile.checkTime_count]
      simp only [LogFile.step, LogFile.append] at hr
      split_ifs at hr
      · rw [Option.map_eq_some'] at hr
        obtain ⟨q, h1, h2⟩ := hr
        rw [← h2]
        exact key _ q h1
      · exact key _ r hr
    | flush =>
      simp only [LogFile.step, LogFile.flush] at hr
      cases hf : s.1.file with
      | none => simp [hf] at hr
      | some f =>
        simp only [hf] at hr
        split_ifs at hr <;> rw [Option.some.injEq] at hr <;> rw [← hr] <;> exact Or.inl rfl
  obtain ⟨h1, h2⟩ := h
  unfold CountInv
  rcases hcases with hc | hc
  · rw [hc]; exact ⟨h1, h2⟩
  · rw [hc]
    split_ifs <;> constructor <;> omega

theorem CountInv.count_run {env : Env} (hk : 0 ≤ env.kCheckTimeRoll) :
    ∀ (ops : List Op) {s r : LogFile × World}, CountInv env s →
      LogFile.run env ops s = some r → CountInv env r := by
  intro ops
  induction ops with
  | nil =>
    intro s r h hr
    simp only [LogFile.run, Option.some.injEq] at hr
    rw [← hr]; exact h
  | cons op ops ih =>
    intro s r h hr
    simp only [LogFile.run] at hr
    cases hs : LogFile.step env s op with
    | none => simp [hs] at hr
    | some s1 =>
      simp only [hs] at hr
      exact ih (h.count_step hk op hs) hr

theorem CountInv.count_new (env : Env) (hk : 0 ≤ env.kCheckTimeRoll) (basename : String)
    (rollSize : Nat) (threadSafe : Bool) (flushInterval : Int) :
    CountInv env (LogFile.new env basename rollSize threadSafe flushInterval World.init) := by
  unfold CountInv LogFile.new
  rw [LogFile.rollFile_count]
  exact ⟨le_refl _, by show (0 : Int) ≤ env.kCheckTimeRoll + 1; omega⟩

/-! ## The `fwrite` calls of one `File::append` -/

/-- The calls the retry loop makes, started after a call `prev` whose
remainder `prev.1 - prev.2` is the loop's `remain`: every call requests what
the call before it left over, and that is not empty; a call followed by
another one made progress; no call accepts more than was requested; there are
at most `remain` calls; and `n` grows by what the calls accepted. -/
theorem File.appendLoop_calls (env : Env) (logline : List Byte) (len : Nat) :
    ∀ (fuel n : Nat) (f : File) (w : World) (prev : Nat × Nat),
      n ≤ len → len - n ≤ fuel → prev.1 - prev.2 = len - n →
      ∃ evs,
        (File.appendLoop env logline len fuel n (len - n) f w).2.2.trace = w.trace ++ evs ∧
        List.Chain (fun a b => b.1 = a.1 - a.2 ∧ 0 < b.1) prev (writesOf evs) ∧
        List.Chain' (fun a _ => a.2 ≠ 0) (writesOf evs) ∧
        (∀ c ∈ writesOf evs, c.2 ≤ c.1) ∧
        (writesOf evs).length ≤ len - n ∧
        (File.appendLoop env logline len fuel n (len - n) f w).2.2.fwriteCalls =
          w.fwriteCalls + (writesOf evs).length ∧
        (File.appendLoop env logline len fuel n (len - n) f w).1 =
          n + ((writesOf evs).map Prod.snd).sum := by
  intro fuel
  induction fuel with
  | zero =>
    intro n f w prev _ _ _
    exact ⟨[], by simp [File.appendLoop], List.Chain.nil, List.chain'_nil, by simp [writesOf],
      by simp [writesOf], by simp [File.appendLoop, writesOf],
      by simp [File.appendLoop, writesOf]⟩
  | succ fuel ih =>
    intro n f w prev hn hfuel hprev
    unfold File.appendLoop
    by_cases hr : len - n > 0
    · rw [if_pos hr]
      have hle := env.fwrite_le w.fwriteCalls (len - n)
      by_cases hx : (f.write env (logline.drop n) (len - n) w).1 = 0
      · rw [if_pos hx]
        rw [File.write_fst] at hx
        refine ⟨[Event.fwrite f.fp.path (len - n) (env.fwrite w.fwriteCalls (len - n)),
          Event.ferror f.fp.path (env.ferror (w.fwriteCalls + 1))], ?_, ?_, ?_, ?_, ?_, ?_, ?_⟩
        · simp [File.write_world, World.emit]
        · simp only [writesOf]
          exact List.Chain.cons ⟨hprev.symm, hr⟩ List.Chain.nil
        · simp only [writesOf]
          exact List.chain'_singleton _
        · simp only [writesOf, List.mem_singleton]
          intro c hc
          rw [hc]; exact hle
        · simp only [writesOf, List.length_singleton]
          omega
        · simp [File.write_world, World.emit, writesOf]
        · simp [writesOf, hx]
      · rw [if_neg hx]
        rw [File.write_fst] at hx ⊢
        obtain ⟨evs, h1, h2, h3, h4, h5, h6, h7⟩ :=
          ih (n + env.fwrite w.fwriteCalls (len - n))
            (f.write env (logline.drop n) (len - n) w).2.1
            (f.write env (logline.drop n) (len - n) w).2.2
            (len - n, env.fwrite w.fwriteCalls (len - n)) (by omega) (by omega) (by simp; omega)
        refine ⟨Event.fwrite f.fp.path (len - n) (env.fwrite w.fwriteCalls (len - n)) :: evs,
          ?_, ?_, ?_, ?_, ?_, ?_, ?_⟩
        · rw [h1]; simp [File.write_world]
        · simp only [writesOf]
          exact List.Chain.cons ⟨hprev.symm, hr⟩ h2
        · simp only [writesOf]
          rw [List.chain'_cons']
          exact ⟨fun y _ => hx, h3⟩
        · simp only [writesOf, List.mem_cons]
          intro c hc
          rcases hc with hc | hc
          · rw [hc]; exact hle
          · exact h4 c hc
        · simp only [writesOf, List.length_cons]
          omega
        · rw [h6]; simp only [File.write_world, writesOf, List.length_cons]; omega
        · rw [h7]; simp only [writesOf, List.map_cons, List.sum_cons]; omega
    · rw [if_neg hr]
      exact ⟨[], by simp, List.Chain.nil, List.chain'_nil, by simp [writesOf],
        by simp [writesOf], by simp [writesOf], by simp [writesOf]⟩

/-- The calls of one `File::append`: the first requests `len` bytes, the
others are the retries of `File.appendLoop_calls`. -/
theorem File.append_calls (env : Env) (f : File) (logline : List Byte) (len : Nat)
    (w : World) :
    ∃ x0 rest evs, (f.append env logline len w).2.trace = w.trace ++ evs ∧
      writesOf evs = (len, x0) :: rest ∧ x0 ≤ len ∧
      List.Chain (fun a b => b.1 = a.1 - a.2 ∧ 0 < b.1) (len, x0) rest ∧
      List.Chain' (fun a _ => a.2 ≠ 0) rest ∧
      (∀ c ∈ rest, c.2 ≤ c.1) ∧
      rest.length ≤ len - x0 ∧
      (f.append env logline len w).2.fwriteCalls = w.fwriteCalls + 1 + rest.length ∧
      (f.append env logline len w).1.fp.out =
        f.fp.out ++ logline.take (x0 + (rest.map Prod.snd).sum) := by
  have hle := env.fwrite_le w.fwriteCalls len
  obtain ⟨evs, h1, h2, h3, h4, h5, h6, h7⟩ := File.appendLoop_calls env logline len
    (len - (f.write env logline len w).1) (f.write env logline len w).1
    (f.write env logline len w).2.1 (f.write env logline len w).2.2
    (len, env.fwrite w.fwriteCalls len) (by rw [File.write_fst]; exact hle) (le_refl _)
    (by rw [File.write_fst])
  have hout := (File.appendLoop_spec env logline len (len - (f.write env logline len w).1)
    (f.write env logline len w).1 (len - (f.write env logline len w).1)
    (f.write env logline len w).2.1 (f.write env logline len w).2.2).2.2.2.2.2 f.fp.out
    (by rw [File.write_file, File.write_fst])
  refine ⟨env.fwrite w.fwriteCalls len, writesOf evs,
    Event.fwrite f.fp.path len (env.fwrite w.fwriteCalls len) :: evs, ?_, rfl, hle, h2, h3, h4,
    ?_, ?_, ?_⟩
  · unfold File.append
    simp only
    rw [h1, File.write_world]; simp
  · rw [File.write_fst] at h5; exact h5
  · unfold File.append
    simp only
    rw [h6, File.write_world]
  · unfold File.append
    simp only
    rw [hout, h7, File.write_fst]

/-! ## Appends to an oversized file -/

/-- An append that leaves the file above `_rollSize` while the clock is not
past `_lastRoll`: bytes counted, `rollFile` entered once, one clock reading,
nothing else. -/
theorem LogFile.append_unlocked_oversized_skip (env : Env) (lf : LogFile) (f : File)
    (logline : List Byte) (len : Int) (w : World) (hf : lf.file = some f)
    (hover : lf.rollSize < (f.writtenBytes + toSizeT len) % SIZE_MOD)
    (hskip : env.time w.timeCalls ≤ lf.lastRoll) :
    ∃ f1 w1, LogFile.append_unlocked env lf logline len w =
        some ({ lf with file := some f1 }, w1) ∧
      f1.writtenBytes = (f.writtenBytes + toSizeT len) % SIZE_MOD ∧
      f1.fp.path = f.fp.path ∧
      w1.timeCalls = w.timeCalls + 1 ∧
      w1.trace.count Event.rollFile = w.trace.count Event.rollFile + 1 ∧
      (seen w1.trace).flushes = (seen w.trace).flushes ∧
      (seen w1.trace).incs = (seen w.trace).incs ∧
      (seen w1.trace).opens = (seen w.trace).opens := by
  have hwb := File.append_writtenBytes env f logline (toSizeT len) w
  have ht := File.append_timeCalls env f logline (toSizeT len) w
  have hs := File.append_seen env f logline (toSizeT len) w
  have hcnt := File.append_count_rollFile env f logline (toSizeT len) w
  refine ⟨(f.append env logline (toSizeT len) w).1,
    { (f.append env logline (toSizeT len) w).2 with
      timeCalls := w.timeCalls + 1,
      trace := (f.append env logline (toSizeT len) w).2.trace ++
        [Event.rollFile, Event.time (env.time w.timeCalls)] },
    ?_, hwb, File.append_path env f logline (toSizeT len) w, rfl, ?_, ?_, ?_, ?_⟩
  · rw [LogFile.append_unlocked_some env lf f logline len w hf,
      if_pos (by rw [hwb]; exact hover),
      LogFile.rollFile_skip env _ _ (by rw [ht]; exact hskip), ht]
  · simp [List.count_append, hcnt, List.count_cons]
  · simp only [seen_append, hs]; simp [Seen.see]
  · simp only [seen_append, hs]; simp [Seen.see]
  · simp only [seen_append, hs]; simp [Seen.see]

theorem LogFile.append_oversized_skip (env : Env) (lf : LogFile) (f : File)
    (logline : List Byte) (len : Int) (w : World) (hf : lf.file = some f)
    (hover : lf.rollSize < (f.writtenBytes + toSizeT len) % SIZE_MOD)
    (hskip : env.time w.timeCalls ≤ lf.lastRoll) :
    ∃ f1 w1, LogFile.append env lf logline len w = some ({ lf with file := some f1 }, w1) ∧
      f1.writtenBytes = (f.writtenBytes + toSizeT len) % SIZE_MOD ∧
      f1.fp.path = f.fp.path ∧
      w1.timeCalls = w.timeCalls + 1 ∧
      w1.trace.count Event.rollFile = w.trace.count Event.rollFile + 1 ∧
      (seen w1.trace).flushes = (seen w.trace).flushes ∧
      (seen w1.trace).incs = (seen w.trace).incs ∧
      (seen w1.trace).opens = (seen w.trace).opens := by
  unfold LogFile.append
  by_cases hm : lf.mutex = true
  · rw [if_pos hm]
    obtain ⟨f1, w1, h1, h2, h3, h4, h5, h6, h7, h8⟩ :=
      LogFile.append_unlocked_oversized_skip env lf f logline len (w.emit Event.lock) hf hover
        (by simpa [World.emit] using hskip)
    refine ⟨f1, w1.emit Event.unlock, by rw [h1]; rfl, h2, h3, ?_, ?_, ?_, ?_, ?_⟩
    · simpa [World.emit] using h4
    · simp only [World.emit, List.count_append] at h5 ⊢
      simpa using h5
    · rw [seen_emit]; rw [seen_emit] at h6; exact h6
    · rw [seen_emit]; rw [seen_emit] at h7; exact h7
    · rw [seen_emit]; rw [seen_emit] at h8; exact h8
  · rw [if_neg hm]
    exact LogFile.append_unlocked_oversized_skip env lf f logline len w hf hover hskip

/-- An append that leaves the file above `_rollSize` when the clock is past
`_lastRoll`: the rotation commits. -/
theorem LogFile.append_oversized_commit (env : Env) (lf : LogFile) (f : File)
    (logline : List Byte) (len : Int) (w : World) (hf : lf.file = some f)
    (hover : lf.rollSize < (f.writtenBytes + toSizeT len) % SIZE_MOD)
    (hadv : lf.lastRoll < env.time w.timeCalls) :
    ∃ r, LogFile.append env lf logline len w = some r ∧
      r.1 = { lf with lastRoll := env.time w.timeCalls, lastFlush := env.time w.timeCalls,
                      startOfPeriod := periodOf env (env.time w.timeCalls),
                      file := some
                        { fp := { path := logFileName env lf.basename (env.time w.timeCalls),
                                  out := [] },
                          writtenBytes := 0 } } ∧
      r.2.timeCalls = w.timeCalls + 1 := by
  have hwb := File.append_writtenBytes env f logline (toSizeT len) w
  have key : ∀ w0 : World, w0.timeCalls = w.timeCalls →
      ∃ r, LogFile.append_unlocked env lf logline len w0 = some r ∧
        r.1 = { lf with lastRoll := env.time w.timeCalls, lastFlush := env.time w.timeCalls,
                        startOfPeriod := periodOf env (env.time w.timeCalls),
                        file := some
                          { fp := { path := logFileName env lf.basename (env.time w.timeCalls),
                                    out := [] },
                            writtenBytes := 0 } } ∧
        r.2.timeCalls = w.timeCalls + 1 := by
    intro w0 h0
    have hwb0 := File.append_writtenBytes env f logline (toSizeT len) w0
    have ht0 := File.append_timeCalls env f logline (toSizeT len) w0
    refine ⟨_, LogFile.append_unlocked_some env lf f logline len w0 hf, ?_⟩
    rw [if_pos (by rw [hwb0]; exact hover),
      LogFile.rollFile_commit env _ _ (by rw [ht0, h0]; exact hadv)]
    simp [ht0, h0]
  unfold LogFile.append
  by_cases hm : lf.mutex = true
  · rw [if_pos hm]
    obtain ⟨r, h1, h2, h3⟩ := key (w.emit Event.lock) rfl
    exact ⟨(r.1, r.2.emit Event.unlock), by rw [h1]; rfl, h2, h3⟩
  · rw [if_neg hm]
    exact key w rfl

/-- A run of appends to an oversized file during which the clock never reads
past `_lastRoll`. -/
theorem LogFile.run_oversized (env : Env) :
    ∀ (ops : List (List Byte × Nat)) (lf : LogFile) (f : File) (w : World),
      lf.file = some f → lf.rollSize < f.writtenBytes →
      f.writtenBytes + (ops.map Prod.snd).sum < SIZE_MOD →
      (∀ i, i < ops.length → env.time (w.timeCalls + i) ≤ lf.lastRoll) →
      ∃ f1 w1, LogFile.run env (ops.map fun o => Op.append o.1 (o.2 : Int)) (lf, w) =
          some ({ lf with file := some f1 }, w1) ∧
        f1.writtenBytes = f.writtenBytes + (ops.map Prod.snd).sum ∧
        f1.fp.path = f.fp.path ∧
        w1.timeCalls = w.timeCalls + ops.length ∧
        w1.trace.count Event.rollFile = w.trace.count Event.rollFile + ops.length ∧
        (seen w1.trace).flushes = (seen w.trace).flushes ∧
        (seen w1.trace).incs = (seen w.trace).incs ∧
        (seen w1.trace).opens = (seen w.trace).opens := by
  intro ops
  induction ops with
  | nil =>
    intro lf f w hf _ _ _
    refine ⟨f, w, ?_, by simp, rfl, rfl, rfl, rfl, rfl, rfl⟩
    simp [LogFile.run, ← hf]
  | cons o ops ih =>
    intro lf f w hf hover hwrap hskip
    simp only [List.map_cons, List.sum_cons, List.length_cons] at hwrap hskip ⊢
    have hts := toSizeT_natCast o.2 (by omega)
    have hmod : (f.writtenBytes + toSizeT (o.2 : Int)) % SIZE_MOD = f.writtenBytes + o.2 := by
      rw [hts, Nat.mod_eq_of_lt (by omega)]
    obtain ⟨f1, w1, h1, h2, h3, h4, h5, h6, h7, h8⟩ :=
      LogFile.append_oversized_skip env lf f o.1 (o.2 : Int) w hf (by rw [hmod]; omega)
        (by simpa using hskip 0 (Nat.succ_pos _))
    rw [hmod] at h2
    obtain ⟨f2, w2, g1, g2, g3, g4, g5, g6, g7, g8⟩ :=
      ih { lf with file := some f1 } f1 w1 rfl (by simp only; omega) (by omega)
        (by
          intro i hi
          have := hskip (i + 1) (by omega)
          rw [h4]
          simp only
          rw [show w.timeCalls + 1 + i = w.timeCalls + (i + 1) by omega]
          exact this)
    refine ⟨f2, w2, ?_, by rw [g2, h2]; omega, by rw [g3, h3], by rw [g4, h4]; omega,
      by rw [g5, h5]; omega, by rw [g6, h6], by rw [g7, h7], by rw [g8, h8]⟩
    simp only [LogFile.run, LogFile.step, h1, g1]

/-! ## The calls that may return NULL -/

theorem File.open_granted (sys : Sys) (filename : String) (w : World)
    (h : sys.fopen w.trace filename = true) :
    File.new? sys filename w = some (File.new filename w) := by
  unfold File.new?
  rw [if_pos h]

theorem File.open_refused (sys : Sys) (filename : String) (w : World)
    (h : sys.fopen w.trace filename = false) : File.new? sys filename w = none := by
  unfold File.new?
  rw [if_neg (by rw [h]; decide)]

theorem LogFile.getLogFileName_granted (sys : Sys) (env : Env) (basename : String) (w : World)
    (h : sys.localtime (env.time w.timeCalls) = true) :
    LogFile.getLogFileName? sys env basename w
      = some (LogFile.getLogFileName env basename w) := by
  unfold LogFile.getLogFileName?
  rw [if_pos h]

theorem LogFile.getLogFileName_refused (sys : Sys) (env : Env) (basename : String) (w : World)
    (h : sys.localtime (env.time w.timeCalls) = false) :
    LogFile.getLogFileName? sys env basename w = none := by
  unfold LogFile.getLogFileName?
  rw [if_neg (by rw [h]; decide)]

theorem LogFile.resetFile_granted (sys : Sys) (lf : LogFile) (filename : String) (w : World)
    (hF : ∀ tr p, sys.fopen tr p = true) :
    LogFile.resetFile? sys lf filename w = some (LogFile.resetFile lf filename w) := by
  unfold LogFile.resetFile? LogFile.resetFile
  rw [File.open_granted sys filename w (hF _ _)]

/-- Where every `fopen` and every `localtime` returns non-null, `rollFile`
returns, with the result of the definition that takes both to succeed. -/
theorem LogFile.rollFile_granted (sys : Sys) (env : Env) (lf : LogFile) (w : World)
    (hF : ∀ tr p, sys.fopen tr p = true) (hT : ∀ t, sys.localtime t = true) :
    LogFile.rollFile? sys env lf w = some (LogFile.rollFile env lf w) := by
  unfold LogFile.rollFile? LogFile.rollFile
  rw [LogFile.getLogFileName_granted sys env lf.basename _ (hT _)]
  by_cases h : (LogFile.getLogFileName env lf.basename (w.emit Event.rollFile)).2.1 > lf.lastRoll
  · simp only [if_pos h]
    rw [LogFile.resetFile_granted sys _ _ _ hF]
  · simp only [if_neg h]

theorem LogFile.new_granted (sys : Sys) (env : Env) (basename : String) (R : Nat)
    (threadSafe : Bool) (flushInterval : Int) (w : World)
    (hF : ∀ tr p, sys.fopen tr p = true) (hT : ∀ t, sys.localtime t = true) :
    LogFile.new? sys env basename R threadSafe flushInterval w
      = some (LogFile.new env basename R threadSafe flushInterval w) :=
  LogFile.rollFile_granted sys env _ w hF hT

theorem LogFile.checkTime_granted (sys : Sys) (env : Env) (lf : LogFile) (f : File) (w : World)
    (hF : ∀ tr p, sys.fopen tr p = true) (hT : ∀ t, sys.localtime t = true) :
    LogFile.checkTime? sys env lf f w = some (LogFile.checkTime env lf f w) := by
  unfold LogFile.checkTime? LogFile.checkTime
  by_cases hc : lf.count > env.kCheckTimeRoll
  · simp only [if_pos hc]
    by_cases hp : periodOf env (env.time w.timeCalls) ≠ lf.startOfPeriod
    · simp only [if_pos hp]
      rw [LogFile.rollFile_granted sys env _ _ hF hT]
    · simp only [if_neg hp]
      by_cases hf : env.time w.timeCalls - lf.lastFlush > lf.flushInterval
      · simp only [if_pos hf]
      · simp only [if_neg hf]
  · simp only [if_neg hc]

theorem LogFile.append_unlocked_granted (sys : Sys) (env : Env) (lf : LogFile)
    (logline : List Byte) (len : Int) (w : World)
    (hF : ∀ tr p, sys.fopen tr p = true) (hT : ∀ t, sys.localtime t = true) :
    LogFile.append_unlocked? sys env lf logline len w
      = LogFile.append_unlocked env lf logline len w := by
  unfold LogFile.append_unlocked? LogFile.append_unlocked
  cases lf.file with
  | none => rfl
  | some f =>
    simp only [LogFile.rollFile_granted sys env _ _ hF hT,
      LogFile.checkTime_granted sys env _ _ _ hF hT]

theorem LogFile.append_granted (sys : Sys) (env : Env) (lf : LogFile)
    (logline : List Byte) (len : Int) (w : World)
    (hF : ∀ tr p, sys.fopen tr p = true) (hT : ∀ t, sys.localtime t = true) :
    LogFile.append? sys env lf logline len w = LogFile.append env lf logline len w := by
  unfold LogFile.append? LogFile.append
  simp only [LogFile.append_unlocked_granted sys env lf logline len _ hF hT]

theorem LogFile.step_granted (sys : Sys) (env : Env) (s : LogFile × World) (op : Op)
    (hF : ∀ tr p, sys.fopen tr p = true) (hT : ∀ t, sys.localtime t = true) :
    LogFile.step? sys env s op = LogFile.step env s op := by
  cases op with
  | append logline len => exact LogFile.append_granted sys env s.1 logline len s.2 hF hT
  | flush => rfl

/-- Where every `fopen` and every `localtime` returns non-null, a sequence of
calls has the result of the definitions that take both to succeed. -/
theorem LogFile.run_granted (sys : Sys) (env : Env) (ops : List Op) (s : LogFile × World)
    (hF : ∀ tr p, sys.fopen tr p = true) (hT : ∀ t, sys.localtime t = true) :
    LogFile.run? sys env ops s = LogFile.run env ops s := by
  induction ops generalizing s with
  | nil => rfl
  | cons op ops ih =>
    simp only [LogFile.run?, LogFile.run, LogFile.step_granted sys env s op hF hT]
    cases LogFile.step env s op with
    | none => rfl
    | some s1 => exact ih s1

/-- A constructor whose clock reading is positive and whose `fopen` returns
NULL does not return. -/
theorem LogFile.new_refused (sys : Sys) (env : Env) (basename : String) (R : Nat)
    (threadSafe : Bool) (flushInterval : Int)
    (h0 : 0 < env.time 0) (hT : sys.localtime (env.time 0) = true)
    (hF : ∀ tr p, sys.fopen tr p = false) :
    LogFile.new? sys env basename R threadSafe flushInterval World.init = none := by
  unfold LogFile.new? LogFile.rollFile?
  rw [LogFile.getLogFileName_granted sys env _ _ hT]
  have h : (LogFile.getLogFileName env
      (LogFile.blank basename R threadSafe flushInterval).basename
      (World.init.emit Event.rollFile)).2.1 > (LogFile.blank basename R threadSafe
        flushInterval).lastRoll := h0
  simp only [if_pos h]
  unfold LogFile.resetFile?
  rw [File.open_refused sys _ _ (hF _ _)]

/-! ## The rotation record -/

theorem records_append (m : Int) (a b : List Int) :
    records m (a ++ b) = records m a ++ records (a.foldl max m) b := by
  induction a generalizing m with
  | nil => rfl
  | cons t a ih =>
    simp only [List.cons_append, records, List.foldl_cons, List.append_eq]
    by_cases h : m < t
    · rw [if_pos h, if_pos h, ih t, max_eq_right (le_of_lt h)]; rfl
    · rw [if_neg h, if_neg h, ih m, max_eq_left (not_lt.mp h)]

theorem records_gt (l : List Int) : ∀ (m : Int), ∀ x ∈ records m l, m < x := by
  induction l with
  | nil => intro m x hx; simp [records] at hx
  | cons t l ih =>
    intro m x hx
    simp only [records] at hx
    by_cases h : m < t
    · rw [if_pos h, List.mem_cons] at hx
      rcases hx with hx | hx
      · rw [hx]; exact h
      · exact lt_trans h (ih t x hx)
    · rw [if_neg h] at hx
      exact ih m x hx

theorem records_count_of_le (m : Int) (l : List Int) (t : Int) (h : t ≤ m) :
    (records m l).count t = 0 := by
  rw [List.count_eq_zero]
  intro ht
  exact absurd (records_gt l m t ht) (not_lt.mpr h)

/-- The first of a series of readings opens one file for its second when it is
later than `m`, and the series opens none for that second when it is not. -/
theorem records_head_count (m t : Int) (b : List Int) :
    (records m (t :: b)).count t = if m < t then 1 else 0 := by
  simp only [records]
  by_cases h : m < t
  · rw [if_pos h, if_pos h, List.count_cons_self, records_count_of_le t b t (le_refl _)]
  · rw [if_neg h, if_neg h, records_count_of_le m b t (not_lt.mp h)]

theorem records_count_sorted (l : List Int) : ∀ (m : Int), l.Pairwise (fun a b => a ≤ b) →
    (∀ x ∈ l, m ≤ x) → ∀ t ∈ l, m < t → (records m l).count t = 1 := by
  induction l with
  | nil => intro m _ _ t ht; simp at ht
  | cons x l ih =>
    intro m hs hm t ht hmt
    rw [List.pairwise_cons] at hs
    simp only [records]
    by_cases h : m < x
    · rw [if_pos h]
      by_cases hx : t = x
      · rw [hx, List.count_cons_self, records_count_of_le x l x (le_refl _)]
      · rw [List.count_cons_of_ne hx]
        rw [List.mem_cons] at ht
        rcases ht with ht | ht
        · exact absurd ht hx
        · exact ih x hs.2 hs.1 t ht (lt_of_le_of_ne (hs.1 t ht) (fun e => hx e.symm))
    · rw [if_neg h]
      have hxm : x = m := le_antisymm (not_lt.mp h) (hm x (List.mem_cons_self _ _))
      rw [List.mem_cons] at ht
      rcases ht with ht | ht
      · rw [ht, hxm] at hmt; exact absurd hmt (lt_irrefl _)
      · exact ih m hs.2 (fun y hy => hm y (List.mem_cons_of_mem _ hy)) t ht hmt

theorem see_rolls_extend (o : Seen) (e : Event) : ∃ l, (o.see e).rolls = o.rolls ++ l := by
  cases e with
  | time t =>
    by_cases h : o.inRoll = true
    · exact ⟨[t], by simp [Seen.see, h]⟩
    · exact ⟨[], by simp [Seen.see, h]⟩
  | _ => exact ⟨[], by simp [Seen.see]⟩

theorem foldl_see_rolls_extend (evs : List Event) :
    ∀ o : Seen, ∃ l, (evs.foldl Seen.see o).rolls = o.rolls ++ l := by
  induction evs with
  | nil => intro o; exact ⟨[], by simp⟩
  | cons e evs ih =>
    intro o
    obtain ⟨l1, h1⟩ := see_rolls_extend o e
    obtain ⟨l2, h2⟩ := ih (o.see e)
    exact ⟨l1 ++ l2, by rw [List.foldl_cons, h2, h1, List.append_assoc]⟩

/-- The record looks only at `_lastRoll`, the files opened, the readings taken
in `rollFile`, and the number of clock readings taken. -/
theorem RollInv.roll_same {env : Env} {s t : LogFile × World} (h : RollInv env s)
    (h1 : t.1.lastRoll = s.1.lastRoll)
    (h2 : (seen t.2.trace).opens = (seen s.2.trace).opens)
    (h3 : (seen t.2.trace).rolls = (seen s.2.trace).rolls)
    (h4 : (seen t.2.trace).inRoll = false)
    (h5 : s.2.timeCalls ≤ t.2.timeCalls) : RollInv env t where
  opened := by rw [h2, h3]; exact h.opened
  latest := by rw [h1, h3]; exact h.latest
  idle := h4
  index := by
    obtain ⟨idx, hs, hb, he⟩ := h.index
    exact ⟨idx, hs, fun i hi => lt_of_lt_of_le (hb i hi) h5, by rw [h3]; exact he⟩

theorem RollInv.roll_rollFile {env : Env} {lf : LogFile} {w : World}
    (h : RollInv env (lf, w)) : RollInv env (LogFile.rollFile env lf w) := by
  have hs := LogFile.rollFile_seen env lf w
  have ho := h.opened
  have hl := h.latest
  obtain ⟨idx, hsorted, hbound, hidx⟩ := h.index
  simp only at ho hl hbound hidx
  have hone : ∀ m : Int, records m [env.time w.timeCalls]
      = if m < env.time w.timeCalls then [env.time w.timeCalls] else [] := by
    intro m; simp only [records]
  constructor
  · rw [hs]
    simp only
    rw [records_append, ← hl, ← ho, hone]
    by_cases hlt : lf.lastRoll < env.time w.timeCalls
    · rw [if_pos hlt, if_pos hlt]
    · rw [if_neg hlt, if_neg hlt, List.append_nil]
  · rw [hs]
    simp only
    rw [List.foldl_append, ← hl, List.foldl_cons, List.foldl_nil]
    rcases lt_or_le lf.lastRoll (env.time w.timeCalls) with hlt | hle
    · rw [LogFile.rollFile_commit env lf w hlt, max_eq_right (le_of_lt hlt)]
    · rw [LogFile.rollFile_skip env lf w hle, max_eq_left hle]
  · rw [hs]
  · refine ⟨idx ++ [w.timeCalls], ?_, ?_, ?_⟩
    · rw [List.pairwise_append]
      refine ⟨hsorted, List.pairwise_singleton _ _, ?_⟩
      intro a ha b hb
      rw [List.mem_singleton] at hb
      rw [hb]
      exact hbound a ha
    · intro i hi
      rw [LogFile.rollFile_timeCalls]
      rw [List.mem_append, List.mem_singleton] at hi
      rcases hi with hi | hi
      · exact lt_trans (hbound i hi) (Nat.lt_succ_self _)
      · rw [hi]; exact Nat.lt_succ_self _
    · rw [hs]
      simp only
      rw [hidx, List.map_append, List.map_singleton]

theorem RollInv.roll_blank (env : Env) (basename : String) (rollSize : Nat)
    (threadSafe : Bool) (flushInterval : Int) :
    RollInv env (LogFile.blank basename rollSize threadSafe flushInterval, World.init) where
  opened := by simp [World.init, seen, Seen.init, records]
  latest := by simp [World.init, seen, Seen.init, LogFile.blank]
  idle := by simp [World.init, seen, Seen.init]
  index := ⟨[], List.Pairwise.nil, by simp, by simp [World.init, seen, Seen.init]⟩

theorem RollInv.roll_new (env : Env) (basename : String) (rollSize : Nat) (threadSafe : Bool)
    (flushInterval : Int) :
    RollInv env (LogFile.new env basename rollSize threadSafe flushInterval World.init) :=
  (RollInv.roll_blank env basename rollSize threadSafe flushInterval).roll_rollFile

theorem RollInv.roll_emit {env : Env} {lf : LogFile} {w : World} (h : RollInv env (lf, w))
    (e : Event)
    (he : e = Event.lock ∨ e = Event.unlock ∨ e = Event.countInc ∨ e = Event.countReset) :
    RollInv env (lf, w.emit e) := by
  have hi := h.idle
  refine h.roll_same rfl ?_ ?_ ?_ (le_refl _)
  · rw [seen_emit]; rcases he with rfl | rfl | rfl | rfl <;> rfl
  · rw [seen_emit]; rcases he with rfl | rfl | rfl | rfl <;> rfl
  · rw [seen_emit]; rcases he with rfl | rfl | rfl | rfl <;> exact hi

theorem RollInv.roll_checkTime {env : Env} {lf : LogFile} {w : World} (f : File)
    (h : RollInv env (lf, w)) : RollInv env (LogFile.checkTime env lf f w) := by
  unfold LogFile.checkTime
  have hi : (seen w.trace).inRoll = false := h.idle
  have hbase : RollInv env ({ lf with count := 0 },
      { w with timeCalls := w.timeCalls + 1,
               trace := w.trace ++ [Event.countReset, Event.time (env.time w.timeCalls)] }) := by
    refine h.roll_same rfl ?_ ?_ ?_ (Nat.le_succ _)
    · simp [seen_append, Seen.see]
    · simp [seen_append, Seen.see, hi]
    · simp [seen_append, Seen.see]
  by_cases hc : lf.count > env.kCheckTimeRoll
  · rw [if_pos hc]
    by_cases hp : periodOf env (env.time w.timeCalls) ≠ lf.startOfPeriod
    · simp only [if_pos hp]
      exact hbase.roll_rollFile
    · simp only [if_neg hp]
      have hbi : (seen (w.trace ++ [Event.countReset,
          Event.time (env.time w.timeCalls)])).inRoll = false := hbase.idle
      by_cases hfl : env.time w.timeCalls - lf.lastFlush > lf.flushInterval
      · rw [if_pos hfl]
        refine hbase.roll_same rfl ?_ ?_ ?_ (le_refl _)
        · simp [File.flush, seen_emit, Seen.see]
        · simp [File.flush, seen_emit, Seen.see]
        · simp only [File.flush, seen_emit, Seen.see]; exact hbi
      · rw [if_neg hfl]
        exact hbase
  · rw [if_neg hc]
    exact (h.roll_emit Event.countInc (by simp)).roll_same rfl rfl rfl
      (h.roll_emit Event.countInc (by simp)).idle (le_refl _)

theorem RollInv.roll_append_unlocked {env : Env} {lf : LogFile} {w : World}
    {r : LogFile × World} (logline : List Byte) (len : Int) (h : RollInv env (lf, w))
    (hr : LogFile.append_unlocked env lf logline len w = some r) : RollInv env r := by
  cases hf : lf.file with
  | none => simp [LogFile.append_unlocked, hf] at hr
  | some f =>
    rw [LogFile.append_unlocked_some env lf f logline len w hf] at hr
    have hmid : RollInv env ({ lf with file := some (f.append env logline (toSizeT len) w).1 },
        (f.append env logline (toSizeT len) w).2) := by
      refine h.roll_same rfl ?_ ?_ ?_ (le_of_eq ?_)
      · simp only [File.append_seen]
      · simp only [File.append_seen]
      · simp only [File.append_seen]; exact h.idle
      · simp only [File.append_timeCalls]
    rw [Option.some.injEq] at hr
    rw [← hr]
    split_ifs
    · exact hmid.roll_rollFile
    · exact hmid.roll_checkTime _

theorem RollInv.roll_step {env : Env} {s r : LogFile × World} (op : Op) (h : RollInv env s)
    (hr : LogFile.step env s op = some r) : RollInv env r := by
  obtain ⟨lf, w⟩ := s
  cases op with
  | append logline len =>
    simp only [LogFile.step, LogFile.append] at hr
    split_ifs at hr
    · rw [Option.map_eq_some'] at hr
      obtain ⟨r1, h1, h2⟩ := hr
      have hi := (h.roll_emit Event.lock (by simp)).roll_append_unlocked logline len h1
      rw [← h2]
      exact hi.roll_emit Event.unlock (by simp)
    · exact h.roll_append_unlocked logline len hr
  | flush =>
    have hid : (seen w.trace).inRoll = false := h.idle
    simp only [LogFile.step, LogFile.flush] at hr
    cases hf : lf.file with
    | none => simp [hf] at hr
    | some f =>
      simp only [hf] at hr
      split_ifs at hr <;> rw [Option.some.injEq] at hr <;> rw [← hr] <;>
        refine h.roll_same rfl ?_ ?_ ?_ (le_refl _) <;>
        simp [File.flush, seen_emit, Seen.see, hid]

theorem RollInv.roll_run {env : Env} : ∀ (ops : List Op) {s r : LogFile × World},
    RollInv env s → LogFile.run env ops s = some r → RollInv env r := by
  intro ops
  induction ops with
  | nil =>
    intro s r h hr
    simp only [LogFile.run, Option.some.injEq] at hr
    rw [← hr]; exact h
  | cons op ops ih =>
    intro s r h hr
    simp only [LogFile.run] at hr
    cases hs : LogFile.step env s op with
    | none => simp [hs] at hr
    | some s1 =>
      simp only [hs] at hr
      exact ih (h.roll_step op hs) hr

/-! ## A call only adds to the trace -/

theorem LogFile.checkTime_extends (env : Env) (lf : LogFile) (f : File) (w : World) :
    ∃ ext, (LogFile.checkTime env lf f w).2.trace = w.trace ++ ext := by
  obtain ⟨e, rest, _, h⟩ := LogFile.checkTime_trace env lf f w
  exact ⟨_, h⟩

theorem LogFile.append_unlocked_extends (env : Env) (lf : LogFile) (logline : List Byte)
    (len : Int) (w : World) (r : LogFile × World)
    (hr : LogFile.append_unlocked env lf logline len w = some r) :
    ∃ ext, r.2.trace = w.trace ++ ext := by
  cases hf : lf.file with
  | none => simp [LogFile.append_unlocked, hf] at hr
  | some f =>
    rw [LogFile.append_unlocked_some env lf f logline len w hf, Option.some.injEq] at hr
    obtain ⟨evs, h1, _⟩ := File.append_trace env f logline (toSizeT len) w
    rw [← hr]
    split_ifs
    · obtain ⟨rest, h2⟩ := LogFile.rollFile_trace env
        { lf with file := some (f.append env logline (toSizeT len) w).1 }
        (f.append env logline (toSizeT len) w).2
      exact ⟨evs ++ Event.rollFile :: rest, by rw [h2, h1, List.append_assoc]⟩
    · obtain ⟨ext, h2⟩ := LogFile.checkTime_extends env
        { lf with file := some (f.append env logline (toSizeT len) w).1 }
        (f.append env logline (toSizeT len) w).1 (f.append env logline (toSizeT len) w).2
      exact ⟨evs ++ ext, by rw [h2, h1, List.append_assoc]⟩

theorem LogFile.step_extends (env : Env) (s r : LogFile × World) (op : Op)
    (hr : LogFile.step env s op = some r) : ∃ ext, r.2.trace = s.2.trace ++ ext := by
  obtain ⟨lf, w⟩ := s
  cases op with
  | append logline len =>
    simp only [LogFile.step, LogFile.append] at hr
    split_ifs at hr
    · rw [Option.map_eq_some'] at hr
      obtain ⟨r1, h1, h2⟩ := hr
      obtain ⟨ext, h3⟩ := LogFile.append_unlocked_extends env lf logline len _ r1 h1
      rw [← h2]
      exact ⟨[Event.lock] ++ ext ++ [Event.unlock], by
        simp only [World.emit] at h3 ⊢
        rw [h3]; simp only [List.append_assoc]⟩
    · exact LogFile.append_unlocked_extends env lf logline len w r hr
  | flush =>
    simp only [LogFile.step, LogFile.flush] at hr
    cases hf : lf.file with
    | none => simp [hf] at hr
    | some f =>
      simp only [hf] at hr
      split_ifs at hr <;> rw [Option.some.injEq] at hr <;> rw [← hr]
      · exact ⟨[Event.lock, Event.fflush f.fp.path, Event.unlock], by
          simp [File.flush, World.emit]⟩
      · exact ⟨[Event.fflush f.fp.path], by simp [File.flush, World.emit]⟩

theorem LogFile.run_extends (env : Env) : ∀ (ops : List Op) (s r : LogFile × World),
    LogFile.run env ops s = some r → ∃ ext, r.2.trace = s.2.trace ++ ext := by
  intro ops
  induction ops with
  | nil =>
    intro s r hr
    simp only [LogFile.run, Option.some.injEq] at hr
    exact ⟨[], by rw [hr, List.append_nil]⟩
  | cons op ops ih =>
    intro s r hr
    simp only [LogFile.run] at hr
    cases hs : LogFile.step env s op with
    | none => simp [hs] at hr
    | some s1 =>
      simp only [hs] at hr
      obtain ⟨e1, h1⟩ := LogFile.step_extends env s s1 op hs
      obtain ⟨e2, h2⟩ := ih s1 r hr
      exact ⟨e1 ++ e2, by rw [h2, h1, List.append_assoc]⟩

/-- The readings taken in `rollFile` up to a state are the first of the
readings taken in `rollFile` up to any state reached from it. -/
theorem LogFile.run_rolls (env : Env) (ops : List Op) (s r : LogFile × World)
    (hr : LogFile.run env ops s = some r) :
    ∃ later, (seen r.2.trace).rolls = (seen s.2.trace).rolls ++ later := by
  obtain ⟨ext, h⟩ := LogFile.run_extends env ops s r hr
  rw [h, seen_append]
  exact foldl_see_rolls_extend ext _

/-! ## The claims -/

/-- C1: `File::append` leaves `_writtenBytes` at its previous value plus the
requested `len` (the `size_t` sum, which is the exact sum whenever that sum is
representable), for every behaviour of `fwrite` and `ferror`: the number of
bytes the stream accepted plays no part. -/
theorem C1_append_counts_requested_length (env : Env) (f : File) (logline : List Byte)
    (len : Nat) (w : World) :
    (f.append env logline len w).1.writtenBytes = (f.writtenBytes + len) % SIZE_MOD ∧
    (f.writtenBytes + len < SIZE_MOD →
      (f.append env logline len w).1.writtenBytes = f.writtenBytes + len) := by
  refine ⟨File.append_writtenBytes env f logline len w, fun h => ?_⟩
  rw [File.append_writtenBytes, Nat.mod_eq_of_lt h]

/-- C2: the bytes `File::append` hands to the stream are `logline[0 .. n)` for
some `n ≤ len`, appended in order to what the stream already held; and when
every `fwrite` call on a non-empty request accepts at least one byte, they are
the whole input, `len` bytes. -/
theorem C2_append_hands_over_initial_segment (env : Env) (f : File) (logline : List Byte)
    (w : World) :
    (∃ n, n ≤ logline.length ∧
      (f.append env logline logline.length w).1.fp.out = f.fp.out ++ logline.take n) ∧
    ((∀ i k, 1 ≤ k → 1 ≤ env.fwrite i k) →
      (f.append env logline logline.length w).1.fp.out = f.fp.out ++ logline ∧
      (f.append env logline logline.length w).1.fp.out.length =
        f.fp.out.length + logline.length) := by
  refine ⟨File.append_out env f logline logline.length w, fun hp => ?_⟩
  have h := File.append_out_progress env f logline logline.length w hp
  rw [List.take_length] at h
  exact ⟨h, by rw [h, List.length_append]⟩

/-- C3: in `LogFile::append_unlocked`, after the bytes went to the current
`File`, `rollFile` is entered straight after the write (the size path) exactly
when `writtenBytes()`, the previous value plus `len`, is greater than
`_rollSize`.  On that path the call does nothing else: the counter keeps its
value, the only clock reading is the one `rollFile` takes, the trace gains
`rollFile`, that reading and, when the reading is greater than `_lastRoll`,
the opening of the new file and the closing of the old one; then the current
file is new with `writtenBytes() = 0`, and otherwise it is the old file with
the bytes counted. -/
theorem C3_size_path (env : Env) (lf : LogFile) (f : File) (logline : List Byte) (len : Int)
    (w : World) (hf : lf.file = some f) :
    (f.append env logline (toSizeT len) w).1.writtenBytes =
      (f.writtenBytes + toSizeT len) % SIZE_MOD ∧
    ∃ r, LogFile.append_unlocked env lf logline len w = some r ∧
      ((∃ rest, r.2.trace =
          (f.append env logline (toSizeT len) w).2.trace ++ Event.rollFile :: rest) ↔
        lf.rollSize < (f.append env logline (toSizeT len) w).1.writtenBytes) ∧
      (lf.rollSize < (f.append env logline (toSizeT len) w).1.writtenBytes →
        r.1.count = lf.count ∧
        r.2.timeCalls = w.timeCalls + 1 ∧
        r.2.trace = (f.append env logline (toSizeT len) w).2.trace ++
          Event.rollFile :: Event.time (env.time w.timeCalls) ::
            (if lf.lastRoll < env.time w.timeCalls then
              [Event.fopen (logFileName env lf.basename (env.time w.timeCalls)),
               Event.fclose f.fp.path]
             else []) ∧
        (lf.lastRoll < env.time w.timeCalls →
          r.1.file = some
            { fp := { path := logFileName env lf.basename (env.time w.timeCalls), out := [] },
              writtenBytes := 0 }) ∧
        (env.time w.timeCalls ≤ lf.lastRoll →
          r.1 = { lf with file := some (f.append env logline (toSizeT len) w).1 })) := by
  refine ⟨File.append_writtenBytes env f logline (toSizeT len) w, _,
    LogFile.append_unlocked_some env lf f logline len w hf, ?_, ?_⟩
  · by_cases hs : (f.append env logline (toSizeT len) w).1.writtenBytes > lf.rollSize
    · rw [if_pos hs]
      exact ⟨fun _ => hs, fun _ => LogFile.rollFile_trace env _ _⟩
    · rw [if_neg hs]
      refine ⟨fun ⟨rest, hr⟩ => ?_, fun h => absurd h hs⟩
      obtain ⟨e, rest2, he, ht⟩ := LogFile.checkTime_trace env
        { lf with file := some (f.append env logline (toSizeT len) w).1 }
        (f.append env logline (toSizeT len) w).1 (f.append env logline (toSizeT len) w).2
      rw [ht] at hr
      have := List.append_cancel_left hr
      rw [List.cons.injEq] at this
      rcases he with rfl | rfl <;> exact absurd this.1 (by decide)
  · intro hs
    rw [if_pos hs]
    have ht := File.append_timeCalls env f logline (toSizeT len) w
    have hp := File.append_path env f logline (toSizeT len) w
    rcases lt_or_le lf.lastRoll (env.time w.timeCalls) with h | h
    · rw [LogFile.rollFile_commit env _ _ (by rw [ht]; exact h)]
      simp [ht, hp, h, not_le.mpr h]
    · rw [LogFile.rollFile_skip env _ _ (by rw [ht]; exact h)]
      simp [ht, h, not_lt.mpr h]

/-- Witness of C3 on `LogFile.sample`: 10 bytes written, `rollSize = 12`, an
append of 3 bytes at second 200, after a rotation at second 100. -/
theorem C3_size_path_witness :
    LogFile.sample.file = some File.sample ∧
    (File.sample.append (Env.accepting fun i => 200 + i) [1, 2, 3] (toSizeT 3)
        World.init).1.writtenBytes = 13 ∧
    ∃ r, LogFile.append_unlocked (Env.accepting fun i => 200 + i) LogFile.sample [1, 2, 3] 3
        World.init = some r ∧
      r.1.count = LogFile.sample.count ∧
      r.1.file.map File.writtenBytes = some 0 := by
  obtain ⟨h1, r, h2, _, h4⟩ := C3_size_path (Env.accepting fun i => 200 + i) LogFile.sample
    File.sample [1, 2, 3] 3 World.init rfl
  obtain ⟨h5, _, _, h8, _⟩ := h4 (by rw [h1]; decide)
  exact ⟨rfl, by rw [h1]; decide, r, h2, h5, by rw [h8 (by decide)]; rfl⟩

/-- C4 fails for a clock that stands still: constructed at second 100 with
`rollSize = 1000`, an append of 1200 bytes that reads second 100 again in
`rollFile` opens no second file; the current file is the first one and its
`writtenBytes()` is 1200. -/
theorem C4_counterexample :
    (LogFile.append (Env.accepting fun _ => 100)
        (LogFile.new (Env.accepting fun _ => 100) "app" 1000 false 3 World.init).1
        (List.replicate 1200 0) 1200
        (LogFile.new (Env.accepting fun _ => 100) "app" 1000 false 3 World.init).2).map
      (fun r => (r.1.file.map File.writtenBytes, (seen r.2.trace).opens, (seen r.2.trace).rolls))
      = some (some 1200, [100], [100, 100]) := by
  decide

/-- C4, amended: when the clock reading at construction is greater than zero
and the reading `rollFile` takes during the append is greater than the one at
construction, constructing with `rollSize = 1000`, `flushInterval = 3`,
`threadSafe = false` opens exactly one file, and one following append of 1200
bytes makes exactly one rotation: a second file is opened, it is the current
file, and its `writtenBytes()` is 0. -/
theorem C4_scenario_amended (env : Env) (basename : String) (logline : List Byte)
    (h0 : 0 < env.time 0) (h1 : env.time 0 < env.time 1) :
    (seen (LogFile.new env basename 1000 false 3 World.init).2.trace).opens = [env.time 0] ∧
    ∃ r, LogFile.append env (LogFile.new env basename 1000 false 3 World.init).1 logline 1200
        (LogFile.new env basename 1000 false 3 World.init).2 = some r ∧
      r.1.file = some { fp := { path := logFileName env basename (env.time 1), out := [] },
                        writtenBytes := 0 } ∧
      (seen r.2.trace).opens = [env.time 0, env.time 1] ∧
      (seen r.2.trace).rolls = [env.time 0, env.time 1] := by
  rw [LogFile.new_eq env basename 1000 false 3 h0]
  refine ⟨by simp [seen, Seen.see, Seen.init], ?_⟩
  simp only [LogFile.append, Bool.false_eq_true, if_false]
  rw [LogFile.append_unlocked_some env _ _ logline 1200 _ rfl]
  refine ⟨_, rfl, ?_⟩
  have hwb := File.append_writtenBytes env
    { fp := { path := logFileName env basename (env.time 0), out := [] }, writtenBytes := 0 }
    logline (toSizeT 1200)
    { timeCalls := 1, fwriteCalls := 0,
      trace := [Event.rollFile, Event.time (env.time 0),
                Event.fopen (logFileName env basename (env.time 0))] }
  have hsz : (0 + toSizeT 1200) % SIZE_MOD = 1200 := by decide
  rw [hsz] at hwb
  have ht := File.append_timeCalls env
    { fp := { path := logFileName env basename (env.time 0), out := [] }, writtenBytes := 0 }
    logline (toSizeT 1200)
    { timeCalls := 1, fwriteCalls := 0,
      trace := [Event.rollFile, Event.time (env.time 0),
                Event.fopen (logFileName env basename (env.time 0))] }
  have hs := File.append_seen env
    { fp := { path := logFileName env basename (env.time 0), out := [] }, writtenBytes := 0 }
    logline (toSizeT 1200)
    { timeCalls := 1, fwriteCalls := 0,
      trace := [Event.rollFile, Event.time (env.time 0),
                Event.fopen (logFileName env basename (env.time 0))] }
  rw [if_pos (by rw [hwb]; show (1200 : Nat) > 1000; omega)]
  rw [LogFile.rollFile_commit env _ _ (by rw [ht]; exact h1)]
  simp only [ht, List.append_assoc, seen_append, hs]
  simp [seen, Seen.see, Seen.init]

/-- Witness of the amended C4: a clock that reads 100, 101, ... -/
theorem C4_scenario_amended_witness :
    (seen (LogFile.new (Env.accepting fun i => 100 + i) "app" 1000 false 3
      World.init).2.trace).opens = [(Env.accepting fun i => 100 + i).time 0] ∧
    ∃ r, LogFile.append (Env.accepting fun i => 100 + i)
        (LogFile.new (Env.accepting fun i => 100 + i) "app" 1000 false 3 World.init).1
        (List.replicate 1200 0) 1200
        (LogFile.new (Env.accepting fun i => 100 + i) "app" 1000 false 3 World.init).2 = some r ∧
      r.1.file = some
        { fp := { path := logFileName (Env.accepting fun i => 100 + i) "app"
                    ((Env.accepting fun i => 100 + i).time 1), out := [] },
          writtenBytes := 0 } ∧
      (seen r.2.trace).opens =
        [(Env.accepting fun i => 100 + i).time 0, (Env.accepting fun i => 100 + i).time 1] ∧
      (seen r.2.trace).rolls =
        [(Env.accepting fun i => 100 + i).time 0, (Env.accepting fun i => 100 + i).time 1] :=
  C4_scenario_amended (Env.accepting fun i => 100 + i) "app" (List.replicate 1200 0)
    (by decide) (by decide)

/-- C5: the size test is strict.  After construction (at a clock reading
greater than zero, so that the first file is open) with roll size `R`, any
sequence of at most `_kCheckTimeRoll + 1` appends whose lengths add up to at
most `R` runs without entering `rollFile` and without reading the clock: the
current file is still the one opened at construction, its `writtenBytes()` is
the sum of the lengths, and the counter equals the number of appends. -/
theorem C5_no_rotation_up_to_roll_size (env : Env) (basename : String) (R : Nat)
    (threadSafe : Bool) (flushInterval : Int) (ops : List (List Byte × Nat))
    (h0 : 0 < env.time 0) (hR : R < SIZE_MOD)
    (hn : (ops.length : Int) ≤ env.kCheckTimeRoll + 1)
    (hsum : (ops.map Prod.snd).sum ≤ R) :
    ∃ s, LogFile.run env (ops.map fun o => Op.append o.1 (o.2 : Int))
        (LogFile.new env basename R threadSafe flushInterval World.init) = some s ∧
      s.1.file.map File.writtenBytes = some (ops.map Prod.snd).sum ∧
      s.1.file.map (fun f => f.fp.path) = some (logFileName env basename (env.time 0)) ∧
      s.1.count = ops.length ∧
      s.1.lastRoll = env.time 0 ∧
      s.2.timeCalls = 1 ∧
      s.2.trace.count Event.rollFile = 1 ∧
      (seen s.2.trace).opens = [env.time 0] := by
  rw [LogFile.new_eq env basename R threadSafe flushInterval h0]
  obtain ⟨f1, w1, h1, h2, h3, h4, h5, h6⟩ := LogFile.run_quiet env ops
    { basename := basename, rollSize := R, flushInterval := flushInterval, count := 0,
      mutex := threadSafe, startOfPeriod := periodOf env (env.time 0),
      lastRoll := env.time 0, lastFlush := env.time 0,
      file := some { fp := { path := logFileName env basename (env.time 0), out := [] },
                     writtenBytes := 0 } }
    { fp := { path := logFileName env basename (env.time 0), out := [] }, writtenBytes := 0 }
    { timeCalls := 1, fwriteCalls := 0,
      trace := [Event.rollFile, Event.time (env.time 0),
                Event.fopen (logFileName env basename (env.time 0))] }
    rfl hR (by simpa using hsum) (by simpa using hn)
  refine ⟨_, h1, ?_, ?_, ?_, rfl, h4, ?_, ?_⟩
  · simp [h2]
  · simp [h3]
  · simp
  · rw [h5]; simp [List.count_cons]
  · rw [h6]; simp [seen, Seen.see, Seen.init]

/-- Witness of C5: ten appends of 100 bytes with `R = 1000`. -/
theorem C5_no_rotation_up_to_roll_size_witness :
    ∃ s, LogFile.run (Env.accepting fun i => 100 + i)
        ((List.replicate 10 (List.replicate 100 (0 : Byte), 100)).map
          fun o => Op.append o.1 (o.2 : Int))
        (LogFile.new (Env.accepting fun i => 100 + i) "app" 1000 false 3 World.init) = some s ∧
      s.1.file.map File.writtenBytes =
        some ((List.replicate 10 (List.replicate 100 (0 : Byte), 100)).map Prod.snd).sum ∧
      s.1.file.map (fun f => f.fp.path) =
        some (logFileName (Env.accepting fun i => 100 + i) "app"
          ((Env.accepting fun i => 100 + i).time 0)) ∧
      s.1.count = (List.replicate 10 (List.replicate 100 (0 : Byte), 100)).length ∧
      s.1.lastRoll = (Env.accepting fun i => 100 + i).time 0 ∧
      s.2.timeCalls = 1 ∧
      s.2.trace.count Event.rollFile = 1 ∧
      (seen s.2.trace).opens = [(Env.accepting fun i => 100 + i).time 0] :=
  C5_no_rotation_up_to_roll_size (Env.accepting fun i => 100 + i) "app" 1000 false 3
    (List.replicate 10 (List.replicate 100 (0 : Byte), 100))
    (by decide) (by decide) (by decide) (by decide)

/-- C6: `LogFile::rollFile` takes one clock reading `now`.  When
`now > _lastRoll` it sets `_lastRoll` and `_lastFlush` to `now`,
`_startOfPeriod` to `now / _kRollPerSeconds * _kRollPerSeconds`, and makes the
current file a newly opened one with `writtenBytes() = 0` at the name built
for `now`, leaving the other fields alone; when `now ≤ _lastRoll` the whole
`LogFile` is unchanged. -/
theorem C6_rollFile_commits_or_skips (env : Env) (lf : LogFile) (w : World) :
    (LogFile.rollFile env lf w).2.timeCalls = w.timeCalls + 1 ∧
    (lf.lastRoll < env.time w.timeCalls →
      (LogFile.rollFile env lf w).1 =
        { lf with lastRoll := env.time w.timeCalls, lastFlush := env.time w.timeCalls,
                  startOfPeriod :=
                    (env.time w.timeCalls).tdiv env.kRollPerSeconds * env.kRollPerSeconds,
                  file := some
                    { fp := { path := logFileName env lf.basename (env.time w.timeCalls),
                              out := [] },
                      writtenBytes := 0 } }) ∧
    (env.time w.timeCalls ≤ lf.lastRoll → (LogFile.rollFile env lf w).1 = lf) := by
  refine ⟨?_, fun h => ?_, fun h => ?_⟩
  · rcases lt_or_le lf.lastRoll (env.time w.timeCalls) with h | h
    · rw [LogFile.rollFile_commit env lf w h]
    · rw [LogFile.rollFile_skip env lf w h]
  · rw [LogFile.rollFile_commit env lf w h]; rfl
  · rw [LogFile.rollFile_skip env lf w h]

/-- C7 fails where it says "exactly one": with a clock that reads 100 at
construction and 50 afterwards, two appends of 20 bytes with `rollSize = 10`
enter `rollFile` twice, both times reading second 50, and no file is opened
for that second; the only file is the one opened at second 100. -/
theorem C7_counterexample :
    (LogFile.run (Env.accepting clockBack)
        [Op.append (List.replicate 20 0) 20, Op.append (List.replicate 20 0) 20]
        (LogFile.new (Env.accepting clockBack) "app" 10 false 3 World.init)).map
      (fun s => ((seen s.2.trace).rolls, (seen s.2.trace).opens, s.1.lastRoll))
      = some ([100, 50, 50], [100], 100) := by
  decide

/-- C7, amended: for every clock, monotone or not, and every sequence of
calls after construction, `_lastRoll` never decreases (from its initial zero
through construction and through every later call), the clock readings at
which files were opened are strictly increasing, hence no two files are opened
for the same second and no second has two files.  The files opened are exactly
the ones the guard of `rollFile` admits along the readings of the rotation
triggers: from any state reached, with `_lastRoll = L`, the triggers that
follow open files at the readings that are later than `L` and than every
reading before them and at no other, and `_lastRoll` ends as the greatest of
`L` and those readings.  So the triggers that read the same second as the first
of them open exactly one file for it when that second is later than `L`, and
none when it is not; the same holds from the constructor's trigger on, with
the initial `_lastRoll` of zero for `L`.  Under a non-decreasing clock with
positive readings every second read by a rotation trigger, the constructor's
included, has exactly one file. -/
theorem C7_rotation_monotone_amended (env : Env) (basename : String) (R : Nat)
    (threadSafe : Bool) (flushInterval : Int) (pre post : List Op) (s1 s : LogFile × World)
    (h1 : LogFile.run env pre
      (LogFile.new env basename R threadSafe flushInterval World.init) = some s1)
    (h2 : LogFile.run env post s1 = some s) :
    0 ≤ (LogFile.new env basename R threadSafe flushInterval World.init).1.lastRoll ∧
    (LogFile.new env basename R threadSafe flushInterval World.init).1.lastRoll
      ≤ s1.1.lastRoll ∧
    s1.1.lastRoll ≤ s.1.lastRoll ∧
    (seen s.2.trace).opens.Pairwise (fun a b => a < b) ∧
    (seen s.2.trace).opens.Nodup ∧
    (∀ t, (seen s.2.trace).opens.count t ≤ 1) ∧
    (seen s.2.trace).opens = records 0 (seen s.2.trace).rolls ∧
    (∀ t rest, (seen s.2.trace).rolls = t :: rest →
      (seen s.2.trace).opens.count t = if 0 < t then 1 else 0) ∧
    (∃ later, (seen s.2.trace).rolls = (seen s1.2.trace).rolls ++ later ∧
      (seen s.2.trace).opens = (seen s1.2.trace).opens ++ records s1.1.lastRoll later ∧
      s.1.lastRoll = later.foldl max s1.1.lastRoll ∧
      ∀ t rest, later = t :: rest →
        (records s1.1.lastRoll later).count t = if s1.1.lastRoll < t then 1 else 0) ∧
    ((∀ i j, i ≤ j → env.time i ≤ env.time j) → (∀ i, 0 < env.time i) →
      ∀ t ∈ (seen s.2.trace).rolls, (seen s.2.trace).opens.count t = 1) := by
  have hinv : Inv env s :=
    Inv.run post (Inv.run pre (Inv.new env basename R threadSafe flushInterval) h1) h2
  have hr1 : RollInv env s1 :=
    RollInv.roll_run pre (RollInv.roll_new env basename R threadSafe flushInterval) h1
  have hr : RollInv env s := RollInv.roll_run post hr1 h2
  have hnd : (seen s.2.trace).opens.Nodup := hinv.sorted.imp (fun h => ne_of_lt h)
  refine ⟨?_, LogFile.run_lastRoll_le env pre _ s1 h1, LogFile.run_lastRoll_le env post s1 s h2,
    hinv.sorted, hnd, fun t => List.nodup_iff_count_le_one.mp hnd t, hr.opened, ?_, ?_, ?_⟩
  · exact LogFile.rollFile_lastRoll_le env
      (LogFile.blank basename R threadSafe flushInterval) World.init
  · intro t rest hrolls
    rw [hr.opened, hrolls]
    exact records_head_count _ _ _
  · obtain ⟨later, hl⟩ := LogFile.run_rolls env post s1 s h2
    refine ⟨later, hl, ?_, ?_, ?_⟩
    · rw [hr.opened, hl, records_append, ← hr1.opened, ← hr1.latest]
    · rw [hr.latest, hl, List.foldl_append, ← hr1.latest]
    · intro t rest hlater
      rw [hlater]
      exact records_head_count _ _ _
  · intro hmono hpos t ht
    obtain ⟨idx, hsorted, _, hidx⟩ := hr.index
    rw [hr.opened]
    rw [hidx] at ht ⊢
    refine records_count_sorted _ 0 ?_ ?_ t ht ?_
    · rw [List.pairwise_map]
      exact hsorted.imp (fun h => hmono _ _ (le_of_lt h))
    · intro x hx
      rw [List.mem_map] at hx
      obtain ⟨i, _, hi⟩ := hx
      rw [← hi]; exact le_of_lt (hpos i)
    · rw [List.mem_map] at ht
      obtain ⟨i, _, hi⟩ := ht
      rw [← hi]; exact hpos i

/-- Witness of the amended C7: constructed at second 100, two appends of 20
bytes against `rollSize = 10` call `rollFile` twice, both calls read second
200, and one file is opened for that second. -/
theorem C7_rotation_monotone_amended_witness :
    (seen LogFile.twice.2.trace).rolls = [100, 200, 200] ∧
    (seen LogFile.twice.2.trace).opens = [100, 200] ∧
    (seen LogFile.twice.2.trace).opens.count 200 = 1 :=
  ⟨by decide, by decide,
    (C7_rotation_monotone_amended (Env.accepting clockLater) "app" 10 false 3 []
      [Op.append (List.replicate 20 0) 20, Op.append (List.replicate 20 0) 20]
      LogFile.early LogFile.twice (by decide) (by decide)).2.2.2.2.2.2.2.2.2
      (fun i j h => by simp only [Env.accepting, clockLater]; split_ifs <;> omega)
      (fun i => by simp only [Env.accepting, clockLater]; split_ifs <;> omega)
      200 (by decide)⟩

/-- C8: in a state reached from construction by any calls, under a
non-decreasing, non-negative clock, an append that leaves `writtenBytes()`
within `_rollSize`, finds the counter above `_kCheckTimeRoll`, and reads a
clock value whose period differs from `_startOfPeriod`, resets the counter to
zero and rotates for real: `rollFile` reads the clock once more, the current
file becomes a newly opened one with `writtenBytes() = 0`, `_lastRoll` is that
reading and `_startOfPeriod` its period; no flush is issued. -/
theorem C8_time_trigger (env : Env) (basename : String) (R : Nat) (threadSafe : Bool)
    (flushInterval : Int) (ops : List Op) (lf : LogFile) (w : World) (f : File)
    (logline : List Byte) (len : Int)
    (hmono : ∀ i j, i ≤ j → env.time i ≤ env.time j) (hnn : ∀ i, 0 ≤ env.time i)
    (hreach : LogFile.run env ops
      (LogFile.new env basename R threadSafe flushInterval World.init) = some (lf, w))
    (hf : lf.file = some f)
    (hsz : (f.writtenBytes + toSizeT len) % SIZE_MOD ≤ lf.rollSize)
    (hc : env.kCheckTimeRoll < lf.count)
    (hper : (env.time w.timeCalls).tdiv env.kRollPerSeconds * env.kRollPerSeconds
      ≠ lf.startOfPeriod) :
    ∃ r, LogFile.append env lf logline len w = some r ∧
      r.1.count = 0 ∧
      r.1.file = some
        { fp := { path := logFileName env lf.basename (env.time (w.timeCalls + 1)), out := [] },
          writtenBytes := 0 } ∧
      r.1.lastRoll = env.time (w.timeCalls + 1) ∧
      r.1.startOfPeriod =
        (env.time (w.timeCalls + 1)).tdiv env.kRollPerSeconds * env.kRollPerSeconds ∧
      r.2.timeCalls = w.timeCalls + 2 ∧
      (seen r.2.trace).opens = (seen w.trace).opens ++ [env.time (w.timeCalls + 1)] ∧
      (seen r.2.trace).flushes = (seen w.trace).flushes := by
  have hinv : Inv env (lf, w) :=
    Inv.run ops (Inv.new env basename R threadSafe flushInterval) hreach
  unfold LogFile.append
  by_cases hm : lf.mutex = true
  · rw [if_pos hm]
    obtain ⟨r, h1, h2, h3, h4, h5⟩ := LogFile.append_unlocked_time_roll env lf f logline len
      (w.emit Event.lock) (hinv.emit Event.lock (by simp)) hmono hnn hf hsz hc hper
    refine ⟨(r.1, r.2.emit Event.unlock), by rw [h1]; rfl, ?_, ?_, ?_, ?_, ?_, ?_, ?_⟩
    · rw [h2]
    · rw [h2]; rfl
    · rw [h2]; rfl
    · rw [h2]; rfl
    · exact h3
    · rw [seen_emit]
      have : (seen (w.emit Event.lock).trace).opens = (seen w.trace).opens := by
        rw [seen_emit]; rfl
      rw [← this]; exact h4
    · rw [seen_emit]
      have : (seen (w.emit Event.lock).trace).flushes = (seen w.trace).flushes := by
        rw [seen_emit]; rfl
      rw [← this]; exact h5
  · rw [if_neg hm]
    obtain ⟨r, h1, h2, h3, h4, h5⟩ := LogFile.append_unlocked_time_roll env lf f logline len
      w hinv hmono hnn hf hsz hc hper
    refine ⟨r, h1, ?_, ?_, ?_, ?_, h3, h4, h5⟩
    · rw [h2]
    · rw [h2]
    · rw [h2]
    · rw [h2]; rfl

/-- Witness of C8: after construction at second 95 and one append, the next
append reads second 102, in another period, and rotates at second 109. -/
theorem C8_time_trigger_witness :
    ∃ r, LogFile.append (Env.quick clockSeven) LogFile.warm.1 [2] 1 LogFile.warm.2 = some r ∧
      r.1.count = 0 ∧ r.1.lastRoll = 109 ∧ r.1.startOfPeriod = 100 := by
  obtain ⟨r, h1, h2, _, h4, h5, _⟩ := C8_time_trigger (Env.quick clockSeven) "app" 1000 true 3
    [Op.append [1] 1] LogFile.warm.1 LogFile.warm.2 (LogFile.warm.1.file.getD File.sample)
    [2] 1
    (fun i j h => by simp only [Env.quick, clockSeven]; omega)
    (fun i => by simp only [Env.quick, clockSeven]; omega)
    (by decide) (by decide) (by decide) (by decide) (by decide)
  exact ⟨r, h1, h2, by rw [h4]; decide, by rw [h5]; decide⟩

/-- C9: in a run of appends after construction, under a non-decreasing clock,
the clock readings at which `append_unlocked` flushed are pairwise more than
`flushInterval` apart, rotations in between included; and an append that
flushes found the counter above `_kCheckTimeRoll`, the counter being the
number of `++_count` executed since the last `_count = 0` (or since
construction), so at least `_kCheckTimeRoll + 1` of them, and the flush is
stamped with the clock reading that call took. -/
theorem C9_flush_cadence (env : Env) (basename : String) (R : Nat) (threadSafe : Bool)
    (flushInterval : Int) (pre post : List (List Byte × Int)) (logline : List Byte) (len : Int)
    (s1 s2 s : LogFile × World)
    (hmono : ∀ i j, i ≤ j → env.time i ≤ env.time j)
    (h1 : LogFile.run env (Op.appends pre)
      (LogFile.new env basename R threadSafe flushInterval World.init) = some s1)
    (h2 : LogFile.step env s1 (Op.append logline len) = some s2)
    (h3 : LogFile.run env (Op.appends post) s2 = some s) :
    (seen s.2.trace).flushes.Pairwise (fun a b => flushInterval < b - a) ∧
    ((seen s2.2.trace).flushes ≠ (seen s1.2.trace).flushes →
      env.kCheckTimeRoll < s1.1.count ∧
      ((seen s1.2.trace).incs : Int) = s1.1.count ∧
      env.kCheckTimeRoll + 1 ≤ ((seen s1.2.trace).incs : Int) ∧
      (seen s2.2.trace).flushes = (seen s1.2.trace).flushes ++ [env.time s1.2.timeCalls]) := by
  have hi1 : FlushInv env flushInterval s1 :=
    FlushInv.after_run hmono pre (FlushInv.at_new env basename R threadSafe flushInterval hmono) h1
  have hi2 : FlushInv env flushInterval s2 := hi1.after_append logline len hmono h2
  have hi3 : FlushInv env flushInterval s := FlushInv.after_run hmono post hi2 h3
  refine ⟨hi3.spaced, fun hne => ?_⟩
  rcases LogFile.step_append_flushes env s1 s2 logline len h2 with h | ⟨hc, h⟩
  · exact absurd h hne
  · have := hi1.incs
    exact ⟨hc, this, by omega, h⟩

/-- Witness of C9: with `_kCheckTimeRoll = 0`, `flushInterval = 3` and the clock
5, 9, 13, ... the second append flushes at second 9 and the fourth at
second 13. -/
theorem C9_flush_cadence_witness :
    (seen LogFile.cadence3.2.trace).flushes = [9, 13] ∧
    (seen LogFile.cadence3.2.trace).flushes.Pairwise (fun a b => (3 : Int) < b - a) ∧
    ((seen LogFile.cadence2.2.trace).flushes ≠ (seen LogFile.cadence1.2.trace).flushes →
      (Env.quick clockFour).kCheckTimeRoll < LogFile.cadence1.1.count ∧
      ((seen LogFile.cadence1.2.trace).incs : Int) = LogFile.cadence1.1.count ∧
      (Env.quick clockFour).kCheckTimeRoll + 1 ≤ ((seen LogFile.cadence1.2.trace).incs : Int) ∧
      (seen LogFile.cadence2.2.trace).flushes =
        (seen LogFile.cadence1.2.trace).flushes ++
          [(Env.quick clockFour).time LogFile.cadence1.2.timeCalls]) :=
  ⟨by decide,
   C9_flush_cadence (Env.quick clockFour) "app" 1000 false 3 [([1], 1)] [([3], 1), ([4], 1)]
    [2] 1 LogFile.cadence1 LogFile.cadence2 LogFile.cadence3
    (fun i j h => by simp only [Env.quick, clockFour]; omega)
    (by decide) (by decide) (by decide)⟩

/-- C10 fails for a clock that reads zero at construction, every `fopen` and
`localtime` granted: the constructor returns with `_file` null, and `append`
and `flush` have nothing to call. -/
theorem C10_counterexample :
    (LogFile.new? Sys.granting (Env.accepting fun _ => 0) "app" 1000 false 3 World.init).map
      (fun s => s.1.file) = some none ∧
    (LogFile.new? Sys.granting (Env.accepting fun _ => 0) "app" 1000 false 3 World.init).bind
      (fun s => LogFile.append? Sys.granting (Env.accepting fun _ => 0) s.1 [1, 2, 3] 3 s.2)
      = none ∧
    (LogFile.new? Sys.granting (Env.accepting fun _ => 0) "app" 1000 false 3 World.init).bind
      (fun s => LogFile.flush s.1 s.2) = none := by
  decide

/-- C10, amended: when the clock reading at construction is greater than
zero and every `fopen` and every `localtime` returns non-null, the constructor
returns with a current file open, every sequence of `append` and `flush` calls
runs to the end without meeting a null `_file`, and in the state it reaches a
file is held and the files opened are one more than the files closed. -/
theorem C10_file_always_held_amended (sys : Sys) (env : Env) (basename : String) (R : Nat)
    (threadSafe : Bool) (flushInterval : Int) (ops : List Op) (h0 : 0 < env.time 0)
    (hF : ∀ tr p, sys.fopen tr p = true) (hT : ∀ t, sys.localtime t = true) :
    ∃ s0, LogFile.new? sys env basename R threadSafe flushInterval World.init = some s0 ∧
      s0.1.file.isSome = true ∧
      ∃ s, LogFile.run? sys env ops s0 = some s ∧
        s.1.file.isSome = true ∧
        (seen s.2.trace).opens.length = (seen s.2.trace).closes + 1 := by
  have hnew : (LogFile.new env basename R threadSafe flushInterval World.init).1.file.isSome
      = true := by
    rw [LogFile.new_eq env basename R threadSafe flushInterval h0]; rfl
  obtain ⟨s, h1, h2⟩ := LogFile.run_isSome env ops _ hnew
  have hinv : Inv env s := Inv.run ops (Inv.new env basename R threadSafe flushInterval) h1
  refine ⟨_, LogFile.new_granted sys env basename R threadSafe flushInterval _ hF hT, hnew,
    s, ?_, h2, ?_⟩
  · rw [LogFile.run_granted sys env ops _ hF hT]; exact h1
  · have hh := hinv.held
    rw [h2] at hh
    simpa using hh

/-- Witness of the amended C10: the sample calls after construction at second
100, every `fopen` and `localtime` granted. -/
theorem C10_file_always_held_amended_witness :
    ∃ s0, LogFile.new? Sys.granting (Env.accepting fun i => 100 + i) "app" 10 false 3
        World.init = some s0 ∧
      s0.1.file.isSome = true ∧
      ∃ s, LogFile.run? Sys.granting (Env.accepting fun i => 100 + i) Op.sample s0 = some s ∧
        s.1.file.isSome = true ∧
        (seen s.2.trace).opens.length = (seen s.2.trace).closes + 1 :=
  C10_file_always_held_amended Sys.granting (Env.accepting fun i => 100 + i) "app" 10 false 3
    Op.sample (by decide) (fun _ _ => rfl) (fun _ => rfl)

/-- C11 fails for a clock reading whose local year is not an `int` value:
with `tm_year = INT_MAX` the sum `tm_year + 1900` wraps, and the name carries
the year `-2147481749` where the claim has `2147485547`.  It fails also where
`localtime` returns NULL: `getLogFileName` returns no name at all. -/
theorem C11_counterexample :
    (LogFile.getLogFileName? Sys.granting Env.farFuture "app" World.init).map (fun g => g.1)
      = some "app.-21474817491231-235959.0.log" ∧
    "app" ++ "." ++ stampText (Env.farFuture.localtime (Env.farFuture.time 0)) ++ "."
      ++ Nat.repr Env.farFuture.pid.toNat ++ ".log" = "app.21474855471231-235959.0.log" ∧
    LogFile.getLogFileName? Sys.noTm (Env.accepting fun i => 100 + i) "app" World.init
      = none := by
  decide

/-- C11, amended: where `localtime` returns a `struct tm` for the reading and
the year `tm_year + 1900` of its `int` field is an `int` value too,
`getLogFileName` reads the clock once, stores that reading `t` into `*now`,
and returns `basename`, a dot, the local time of the same `t` as
`YYYYMMDD-HHMMSS` (two digits per field after the year; 15 characters when the
year has four digits), a dot, the process id in decimal, and `.log`.  The name
starts with `basename`, ends with `.log`, and the 32-byte scratch buffers cut
nothing off the two texts, the process id being an `int` value that is not
negative. -/
theorem C11_log_file_name_amended (sys : Sys) (env : Env) (basename : String) (w : World)
    (hT : sys.localtime (env.time w.timeCalls) = true)
    (hy1 : -(2 : Int) ^ 31 ≤ (env.localtime (env.time w.timeCalls)).tm_year)
    (hy2 : (env.localtime (env.time w.timeCalls)).tm_year + 1900 < (2 : Int) ^ 31)
    (hp1 : 0 ≤ env.pid) (hp2 : env.pid < (2 : Int) ^ 31) :
    ∃ g, LogFile.getLogFileName? sys env basename w = some g ∧
      g.1 = basename ++ "." ++ stampText (env.localtime (env.time w.timeCalls)) ++ "."
        ++ Nat.repr env.pid.toNat ++ ".log" ∧
      g.2.1 = env.time w.timeCalls ∧
      g.2.2.timeCalls = w.timeCalls + 1 ∧
      (∃ rest, g.1 = basename ++ rest) ∧
      (∃ front, g.1 = front ++ ".log") ∧
      intoBuf 32 (timeText (env.localtime (env.time w.timeCalls)))
        = timeText (env.localtime (env.time w.timeCalls)) ∧
      intoBuf 32 (pidText env.pid) = pidText env.pid ∧
      (1000 ≤ (env.localtime (env.time w.timeCalls)).tm_year + 1900 →
        (env.localtime (env.time w.timeCalls)).tm_year + 1900 ≤ 9999 →
        (stampText (env.localtime (env.time w.timeCalls))).length = 15) := by
  have h : (LogFile.getLogFileName env basename w).1 =
      basename ++ "." ++ stampText (env.localtime (env.time w.timeCalls)) ++ "."
        ++ Nat.repr env.pid.toNat ++ ".log" :=
    logFileName_eq env basename (env.time w.timeCalls) (le_trans hy1 (by omega)) hy2 hp1 hp2
  have hpl := intRepr_length_le env.pid (by norm_num at hp2 ⊢; omega)
    (by norm_num at hp2 ⊢; omega)
  refine ⟨_, LogFile.getLogFileName_granted sys env basename w hT, h, rfl, rfl,
    ⟨"." ++ (stampText (env.localtime (env.time w.timeCalls)) ++
      ("." ++ (Nat.repr env.pid.toNat ++ ".log"))),
      by rw [h]; simp only [String.append_assoc]⟩, ⟨_, h⟩, ?_, ?_, ?_⟩
  · apply intoBuf_of_length_lt
    have := timeText_length_le (env.localtime (env.time w.timeCalls))
    omega
  · apply intoBuf_of_length_lt
    rw [pidText, String.length_append, show (".": String).length = 1 from rfl]
    omega
  · intro h1 h2
    rw [stampText_length, intRepr_length_four _ h1 h2]

/-- Witness of the amended C11: process 42 at local time 1970-01-01 00:00:00. -/
theorem C11_log_file_name_amended_witness :
    ∃ g, LogFile.getLogFileName? Sys.granting (Env.accepting fun i => 100 + i) "app"
        World.init = some g ∧ g.1 = "app.19700101-000000.42.log" := by
  obtain ⟨g, hg, hn, _⟩ := C11_log_file_name_amended Sys.granting
    (Env.accepting fun i => 100 + i) "app" World.init rfl
    (by decide) (by decide) (by decide) (by decide)
  exact ⟨g, hg, by rw [hn]; decide⟩

/-- C12 fails: with a stream that accepts nothing and has its error indicator
set, `File::append` and `LogFile::append` return as after a successful append.
The stream has received nothing and `ferror` was consulted (flag set), yet the
member variables left in the `File` and in the `LogFile` are the same as with
a stream that accepted every byte; nothing else comes back from the call. -/
theorem C12_counterexample :
    (File.sample.append (Env.failing fun i => 100 + i) [1, 2, 3] 3 World.init).1.fp.out = [7] ∧
    (File.sample.append (Env.failing fun i => 100 + i) [1, 2, 3] 3 World.init).2.trace =
      [Event.fwrite "x.log" 3 0, Event.fwrite "x.log" 3 0, Event.ferror "x.log" true] ∧
    (File.sample.append (Env.failing fun i => 100 + i) [1, 2, 3] 3 World.init).1.members =
      (File.sample.append (Env.accepting fun i => 100 + i) [1, 2, 3] 3 World.init).1.members ∧
    (LogFile.append (Env.failing fun i => 100 + i) LogFile.start.1 [1, 2, 3] 3
        LogFile.start.2).isSome = true ∧
    (LogFile.append (Env.failing fun i => 100 + i) LogFile.start.1 [1, 2, 3] 3
        LogFile.start.2).map (fun r => r.1.members) =
      (LogFile.append (Env.accepting fun i => 100 + i) LogFile.start.1 [1, 2, 3] 3
        LogFile.start.2).map (fun r => r.1.members) := by
  decide

/-- C12, amended: when the underlying write makes zero progress with the
error indicator set, `File::append` retries once, consults the indicator and
stops, the stream having received nothing; `File::append` and
`LogFile::append` then return normally, and the member variables they leave
(`writtenBytes()` included) and the number of clock readings are the same as
for any other behaviour of the stream, a fully successful one included: no
failure signal reaches the caller, and the process goes on. -/
theorem C12_no_failure_signal_amended (env env2 : Env) (lf : LogFile) (f : File)
    (logline : List Byte) (len : Int) (w : World)
    (hE : Env.samePolicy env env2)
    (hfail : ∀ i k, env.fwrite i k = 0) (herr : ∀ i, env.ferror i = true)
    (hf : lf.file = some f) :
    (f.append env logline (toSizeT len) w).1.fp.out = f.fp.out ∧
    (f.append env logline (toSizeT len) w).2.trace = w.trace ++
      (if toSizeT len = 0 then [Event.fwrite f.fp.path 0 0]
       else [Event.fwrite f.fp.path (toSizeT len) 0, Event.fwrite f.fp.path (toSizeT len) 0,
             Event.ferror f.fp.path true]) ∧
    (f.append env logline (toSizeT len) w).1.members =
      (f.append env2 logline (toSizeT len) w).1.members ∧
    (LogFile.append env lf logline len w).isSome = true ∧
    (LogFile.append env lf logline len w).map (fun r => (r.1.members, r.2.timeCalls)) =
      (LogFile.append env2 lf logline len w).map (fun r => (r.1.members, r.2.timeCalls)) := by
  obtain ⟨h1, h2⟩ := File.append_no_progress env f logline (toSizeT len) w hfail
  rw [herr] at h2
  refine ⟨h1, h2, by rw [File.append_members, File.append_members], ?_,
    LogFile.append_same_members hE lf lf logline logline len w w rfl rfl⟩
  obtain ⟨r, hr, _⟩ := LogFile.step_isSome env (lf, w) (Op.append logline len) (by simp [hf])
  simp only [LogFile.step] at hr
  rw [hr]; rfl

/-- Witness of the amended C12: the failing stream against the accepting one,
on the state constructed at second 100. -/
theorem C12_no_failure_signal_amended_witness :
    (LogFile.append (Env.failing fun i => 100 + i) LogFile.start.1 [1, 2, 3] 3
        LogFile.start.2).isSome = true ∧
    (LogFile.append (Env.failing fun i => 100 + i) LogFile.start.1 [1, 2, 3] 3
        LogFile.start.2).map (fun r => (r.1.members, r.2.timeCalls)) =
      (LogFile.append (Env.accepting fun i => 100 + i) LogFile.start.1 [1, 2, 3] 3
        LogFile.start.2).map (fun r => (r.1.members, r.2.timeCalls)) :=
  (C12_no_failure_signal_amended (Env.failing fun i => 100 + i)
    (Env.accepting fun i => 100 + i) LogFile.start.1
    (LogFile.start.1.file.getD File.sample) [1, 2, 3] 3 LogFile.start.2
    ⟨rfl, rfl, rfl, rfl, rfl⟩ (fun _ _ => rfl) (fun _ => rfl) (by decide)).2.2.2

/-- C13: the explicit `flush()` leaves the whole `LogFile` as it found it
(`_lastFlush`, `_lastRoll`, `_startOfPeriod`, the counter, the current file
and its `writtenBytes()`), issues `fflush` on the current file once, inside
the guard when one is configured, and reads neither the clock nor the stream;
so the next `append` leaves the same object and reads the clock as often as it
would have without the flush, and, the guard flag apart, the result is the
same with and without the guard. -/
theorem C13_explicit_flush_frame (env : Env) (lf : LogFile) (f : File) (w : World)
    (logline : List Byte) (len : Int) (hf : lf.file = some f) :
    ∃ w2, LogFile.flush lf w = some (lf, w2) ∧
      w2.trace = w.trace ++
        (if lf.mutex then [Event.lock, Event.fflush f.fp.path, Event.unlock]
         else [Event.fflush f.fp.path]) ∧
      w2.timeCalls = w.timeCalls ∧ w2.fwriteCalls = w.fwriteCalls ∧
      (LogFile.append env lf logline len w2).map (fun r => (r.1.members, r.2.timeCalls)) =
        (LogFile.append env lf logline len w).map (fun r => (r.1.members, r.2.timeCalls)) ∧
      (LogFile.flush { lf with mutex := true } w).map
          (fun r => ({ r.1 with mutex := lf.mutex }, seen r.2.trace)) =
        (LogFile.flush { lf with mutex := false } w).map
          (fun r => ({ r.1 with mutex := lf.mutex }, seen r.2.trace)) := by
  have hsame : Env.samePolicy env env := ⟨rfl, rfl, rfl, rfl, rfl⟩
  by_cases hm : lf.mutex = true
  · refine ⟨(f.flush (w.emit Event.lock)).emit Event.unlock, ?_, ?_, rfl, rfl, ?_, ?_⟩
    · simp [LogFile.flush, hf, hm]
    · simp [File.flush, World.emit, hm]
    · exact LogFile.append_same_members hsame lf lf logline logline len _ w rfl rfl
    · simp [LogFile.flush, hf, File.flush, seen_emit, Seen.see]
  · refine ⟨f.flush w, ?_, ?_, rfl, rfl, ?_, ?_⟩
    · simp [LogFile.flush, hf, hm]
    · simp [File.flush, World.emit, hm]
    · exact LogFile.append_same_members hsame lf lf logline logline len _ w rfl rfl
    · simp [LogFile.flush, hf, File.flush, seen_emit, Seen.see]

/-- Witness of C13 on `LogFile.sample`. -/
theorem C13_explicit_flush_frame_witness :
    ∃ w2, LogFile.flush LogFile.sample World.init = some (LogFile.sample, w2) ∧
      w2.trace = [Event.fflush "x.log"] := by
  obtain ⟨w2, h1, h2, _⟩ := C13_explicit_flush_frame (Env.accepting fun i => 100 + i)
    LogFile.sample File.sample World.init [1] 1 rfl
  exact ⟨w2, h1, by rw [h2]; decide⟩

/-- C14, the code at the failing input: `LogFile::append(logline, -1)` hands
`File::append` the `size_t` value `2^64 - 1`, and `_writtenBytes += len` takes
a `File` whose `writtenBytes()` is 10 to 9. -/
theorem C14_negative_length_lowers_counter :
    toSizeT (-1) = 2 ^ 64 - 1 ∧
    File.sample.writtenBytes = 10 ∧
    (File.sample.append (Env.accepting fun i => 200 + i) [1, 2, 3] (toSizeT (-1))
      World.init).1.writtenBytes = 9 ∧
    LogFile.sample.file.map File.writtenBytes = some 10 ∧
    (LogFile.append (Env.accepting fun i => 200 + i) LogFile.sample [1, 2, 3] (-1)
      World.init).map (fun r => r.1.file.map File.writtenBytes) = some (some 9) := by
  decide

/-- C16 fails by one: with `_kCheckTimeRoll = 0` the first append after
construction leaves the counter at 1. -/
theorem C16_counterexample :
    (Env.quick clockFour).kCheckTimeRoll = 0 ∧
    (LogFile.run (Env.quick clockFour) [Op.append [1] 1]
      (LogFile.new (Env.quick clockFour) "app" 1000 false 3 World.init)).map
      (fun s => s.1.count) = some 1 := by
  decide

/-- C16, amended: in every state reachable from construction by `append` and
`flush` calls the counter is between 0 and `_kCheckTimeRoll + 1` inclusive
(`_kCheckTimeRoll` being non-negative). -/
theorem C16_counter_bound_amended (env : Env) (basename : String) (R : Nat)
    (threadSafe : Bool) (flushInterval : Int) (ops : List Op) (s : LogFile × World)
    (hk : 0 ≤ env.kCheckTimeRoll)
    (hrun : LogFile.run env ops
      (LogFile.new env basename R threadSafe flushInterval World.init) = some s) :
    0 ≤ s.1.count ∧ s.1.count ≤ env.kCheckTimeRoll + 1 :=
  CountInv.count_run hk ops (CountInv.count_new env hk basename R threadSafe flushInterval) hrun

/-- Witness of the amended C16: the sample calls after construction at second
100. -/
theorem C16_counter_bound_amended_witness :
    0 ≤ ((LogFile.run (Env.accepting fun i => 100 + i) Op.sample
      LogFile.start).getD LogFile.start).1.count ∧
    ((LogFile.run (Env.accepting fun i => 100 + i) Op.sample
      LogFile.start).getD LogFile.start).1.count
      ≤ (Env.accepting fun i => 100 + i).kCheckTimeRoll + 1 :=
  C16_counter_bound_amended (Env.accepting fun i => 100 + i) "app" 10 false 3 Op.sample _
    (by decide) (by decide)

/-- C17: an `append_unlocked` that leaves `writtenBytes()` within `_rollSize`
and finds the counter not above `_kCheckTimeRoll` changes, in the `LogFile`,
only the current file's `writtenBytes()` (plus `len`) and the counter (plus
one): the file is the same stream, `_lastRoll`, `_lastFlush` and
`_startOfPeriod` keep their values, the clock is not read, `rollFile` is not
entered, and no file is opened or flushed. -/
theorem C17_quiet_append_frame (env : Env) (lf : LogFile) (f : File) (logline : List Byte)
    (len : Int) (w : World) (hf : lf.file = some f)
    (hsz : (f.writtenBytes + toSizeT len) % SIZE_MOD ≤ lf.rollSize)
    (hc : lf.count ≤ env.kCheckTimeRoll) :
    ∃ f1 w1, LogFile.append_unlocked env lf logline len w =
        some ({ lf with file := some f1, count := lf.count + 1 }, w1) ∧
      f1.writtenBytes = (f.writtenBytes + toSizeT len) % SIZE_MOD ∧
      f1.fp.path = f.fp.path ∧
      w1.timeCalls = w.timeCalls ∧
      w1.trace.count Event.rollFile = w.trace.count Event.rollFile ∧
      (seen w1.trace).flushes = (seen w.trace).flushes ∧
      (seen w1.trace).opens = (seen w.trace).opens ∧
      (seen w1.trace).closes = (seen w.trace).closes ∧
      (seen w1.trace).incs = (seen w.trace).incs + 1 := by
  obtain ⟨f1, w1, h1, h2, h3, h4, h5, h6⟩ :=
    LogFile.append_unlocked_quiet env lf f logline len w hf hsz hc
  exact ⟨f1, w1, h1, h2, h3, h4, h5, by rw [h6], by rw [h6], by rw [h6], by rw [h6]⟩

/-- Witness of C17: three bytes appended to a fresh file with
`rollSize = 10`. -/
theorem C17_quiet_append_frame_witness :
    ∃ f1 w1, LogFile.append_unlocked (Env.accepting fun i => 100 + i) LogFile.start.1
        [1, 2, 3] 3 LogFile.start.2 =
        some ({ LogFile.start.1 with file := some f1, count := LogFile.start.1.count + 1 }, w1) ∧
      f1.writtenBytes = 3 ∧ w1.timeCalls = LogFile.start.2.timeCalls := by
  obtain ⟨f1, w1, h1, h2, _, h4, _⟩ := C17_quiet_append_frame
    (Env.accepting fun i => 100 + i) LogFile.start.1 (LogFile.start.1.file.getD File.sample)
    [1, 2, 3] 3 LogFile.start.2 (by decide) (by decide) (by decide)
  exact ⟨f1, w1, h1, by rw [h2]; decide, h4⟩

/-- C18: `File::append` ends after at most `len + 1` calls of `fwrite`, and
after exactly one when `len = 0`.  The first call requests the whole input;
every retry requests exactly what the call before it left over, which is not
empty; a call in the retry loop followed by another call made progress, so a
retry without progress is the last call; no call accepts more than it
requested; and the stream has received the first `x0 + ...` bytes of the
input, the sum of what the calls accepted.  The loop stops by itself: more
fuel than `remain` changes nothing. -/
theorem C18_append_terminates (env : Env) (f : File) (logline : List Byte) (len : Nat)
    (w : World) :
    ∃ x0 rest evs, (f.append env logline len w).2.trace = w.trace ++ evs ∧
      writesOf evs = (len, x0) :: rest ∧
      (f.append env logline len w).2.fwriteCalls = w.fwriteCalls + (writesOf evs).length ∧
      (writesOf evs).length ≤ len + 1 ∧
      (len = 0 → (writesOf evs).length = 1) ∧
      List.Chain (fun a b => b.1 = a.1 - a.2 ∧ 0 < b.1) (len, x0) rest ∧
      List.Chain' (fun a _ => a.2 ≠ 0) rest ∧
      (∀ c ∈ writesOf evs, c.2 ≤ c.1) ∧
      (f.append env logline len w).1.fp.out =
        f.fp.out ++ logline.take (((writesOf evs).map Prod.snd).sum) ∧
      (∀ fuel, len - x0 ≤ fuel →
        File.appendLoop env logline len fuel x0 (len - x0)
            (f.write env logline len w).2.1 (f.write env logline len w).2.2 =
          File.appendLoop env logline len (len - x0) x0 (len - x0)
            (f.write env logline len w).2.1 (f.write env logline len w).2.2) := by
  obtain ⟨x0, rest, evs, h1, h2, h3, h4, h5, h6, h7, h8, h9⟩ :=
    File.append_calls env f logline len w
  refine ⟨x0, rest, evs, h1, h2, ?_, ?_, ?_, h4, h5, ?_, ?_, ?_⟩
  · rw [h8, h2, List.length_cons]; omega
  · rw [h2, List.length_cons]; omega
  · intro h0
    rw [h2, List.length_cons]; omega
  · rw [h2]
    intro c hc
    rw [List.mem_cons] at hc
    rcases hc with hc | hc
    · rw [hc]; exact h3
    · exact h6 c hc
  · rw [h9, h2, List.map_cons, List.sum_cons]
  · intro fuel hfuel
    exact File.appendLoop_fuel env logline len fuel (len - x0) x0 _ _ h3 hfuel (le_refl _)

/-- C19: in every state reachable from construction by `append` and `flush`
calls, `_startOfPeriod` is `_lastRoll / _kRollPerSeconds * _kRollPerSeconds`;
with non-negative clock readings and a positive `_kRollPerSeconds` it follows
that `_startOfPeriod ≤ _lastRoll < _startOfPeriod + _kRollPerSeconds` and that
`_startOfPeriod` is a multiple of `_kRollPerSeconds`. -/
theorem C19_start_of_period (env : Env) (basename : String) (R : Nat) (threadSafe : Bool)
    (flushInterval : Int) (ops : List Op) (s : LogFile × World)
    (hnn : ∀ i, 0 ≤ env.time i) (hk : 0 < env.kRollPerSeconds)
    (hrun : LogFile.run env ops
      (LogFile.new env basename R threadSafe flushInterval World.init) = some s) :
    s.1.startOfPeriod = s.1.lastRoll.tdiv env.kRollPerSeconds * env.kRollPerSeconds ∧
    s.1.startOfPeriod ≤ s.1.lastRoll ∧
    s.1.lastRoll < s.1.startOfPeriod + env.kRollPerSeconds ∧
    env.kRollPerSeconds ∣ s.1.startOfPeriod := by
  have hinv : Inv env s := Inv.run ops (Inv.new env basename R threadSafe flushInterval) hrun
  have hp : s.1.startOfPeriod = s.1.lastRoll.tdiv env.kRollPerSeconds * env.kRollPerSeconds :=
    hinv.period
  have h0 : 0 ≤ s.1.lastRoll := by
    rcases hinv.past with h | ⟨i, _, h⟩
    · rw [h]
    · rw [h]; exact hnn i
  have hdiv : s.1.lastRoll.tdiv env.kRollPerSeconds = s.1.lastRoll / env.kRollPerSeconds :=
    Int.tdiv_eq_ediv h0 (le_of_lt hk)
  refine ⟨hp, ?_, ?_, ?_⟩
  · rw [hp, hdiv]
    exact Int.ediv_mul_le _ (ne_of_gt hk)
  · rw [hp, hdiv]
    have := Int.lt_ediv_add_one_mul_self s.1.lastRoll hk
    rw [add_mul, one_mul] at this
    exact this
  · rw [hp]
    exact Dvd.intro_left _ rfl

/-- Witness of C19: the sample calls after construction at second 100, one
day per period. -/
theorem C19_start_of_period_witness :
    ((LogFile.run (Env.accepting fun i => 100 + i) Op.sample
      LogFile.start).getD LogFile.start).1.startOfPeriod = 0 ∧
    ((LogFile.run (Env.accepting fun i => 100 + i) Op.sample
      LogFile.start).getD LogFile.start).1.lastRoll = 102 := by
  obtain ⟨h1, _, _, _⟩ := C19_start_of_period (Env.accepting fun i => 100 + i) "app" 10 false 3
    Op.sample ((LogFile.run (Env.accepting fun i => 100 + i) Op.sample
      LogFile.start).getD LogFile.start)
    (fun i => by simp only [Env.accepting]; omega) (by decide) (by decide)
  exact ⟨by rw [h1]; decide, by decide⟩

/-- C20: with the current file above `_rollSize`, appends of `len` bytes (the
`size_t` counter not wrapping) during which the clock reads no later than
`_lastRoll` all add to the same file, each enters `rollFile` once and reads
the clock once there, and the counter, `_lastFlush`, `_lastRoll` and
`_startOfPeriod` stay as they are, with no flush and no counter event; the
first append after them whose clock reading is greater than `_lastRoll`
commits the rotation and leaves a new file with `writtenBytes() = 0`. -/
theorem C20_oversized_file_until_clock_advances (env : Env) (lf : LogFile) (f : File)
    (w : World) (ops : List (List Byte × Nat)) (logline : List Byte) (len : Nat)
    (hf : lf.file = some f) (hover : lf.rollSize < f.writtenBytes)
    (hwrap : f.writtenBytes + (ops.map Prod.snd).sum + len < SIZE_MOD)
    (hskip : ∀ i, i < ops.length → env.time (w.timeCalls + i) ≤ lf.lastRoll)
    (hadv : lf.lastRoll < env.time (w.timeCalls + ops.length)) :
    ∃ f1 w1 r, LogFile.run env (ops.map fun o => Op.append o.1 (o.2 : Int)) (lf, w) =
        some ({ lf with file := some f1 }, w1) ∧
      f1.writtenBytes = f.writtenBytes + (ops.map Prod.snd).sum ∧
      f1.fp.path = f.fp.path ∧
      w1.timeCalls = w.timeCalls + ops.length ∧
      w1.trace.count Event.rollFile = w.trace.count Event.rollFile + ops.length ∧
      (seen w1.trace).flushes = (seen w.trace).flushes ∧
      (seen w1.trace).incs = (seen w.trace).incs ∧
      (seen w1.trace).opens = (seen w.trace).opens ∧
      LogFile.append env { lf with file := some f1 } logline (len : Int) w1 = some r ∧
      r.1 = { lf with
              lastRoll := env.time (w.timeCalls + ops.length),
              lastFlush := env.time (w.timeCalls + ops.length),
              startOfPeriod :=
                (env.time (w.timeCalls + ops.length)).tdiv env.kRollPerSeconds
                  * env.kRollPerSeconds,
              file := some
                { fp := { path := logFileName env lf.basename
                            (env.time (w.timeCalls + ops.length)), out := [] },
                  writtenBytes := 0 } } := by
  obtain ⟨f1, w1, h1, h2, h3, h4, h5, h6, h7, h8⟩ :=
    LogFile.run_oversized env ops lf f w hf hover (by omega) hskip
  have hts := toSizeT_natCast len (by omega)
  obtain ⟨r, g1, g2, _⟩ := LogFile.append_oversized_commit env { lf with file := some f1 } f1
    logline (len : Int) w1 rfl
    (by rw [hts, h2, Nat.mod_eq_of_lt (by omega)]; simp only; omega)
    (by rw [h4]; exact hadv)
  refine ⟨f1, w1, r, h1, h2, h3, h4, h5, h6, h7, h8, g1, ?_⟩
  rw [g2, h4]
  rfl

/-- Witness of C20: on `LogFile.stalled` (20 bytes in the file, `rollSize`
10, rotated at second 100) an append of five bytes at second 100 stays in the
file, and the next append, at second 101, rotates. -/
theorem C20_oversized_file_until_clock_advances_witness :
    ∃ f1 w1 r, LogFile.run (Env.accepting clockStall)
        [Op.append [1, 2, 3, 4, 5] 5] LogFile.stalled =
        some ({ LogFile.stalled.1 with file := some f1 }, w1) ∧
      f1.writtenBytes = 25 ∧
      LogFile.append (Env.accepting clockStall) { LogFile.stalled.1 with file := some f1 }
        [9] 1 w1 = some r ∧
      r.1.file.map File.writtenBytes = some 0 ∧ r.1.lastRoll = 101 := by
  obtain ⟨f1, w1, r, h1, h2, _, _, _, _, _, _, h9, h10⟩ :=
    C20_oversized_file_until_clock_advances (Env.accepting clockStall) LogFile.stalled.1
      (LogFile.stalled.1.file.getD File.sample) LogFile.stalled.2 [([1, 2, 3, 4, 5], 5)] [9] 1
      (by decide) (by decide) (by decide)
      (by intro i hi
          have h0 : i = 0 := by simpa using hi
          subst h0
          decide)
      (by decide)
  exact ⟨f1, w1, r, h1, by rw [h2]; decide, h9, by rw [h10]; rfl, by rw [h10]; decide⟩

end thefox
